import Mathlib

/-!
# FastPM: step loop, snapshot scheduler, mesh kernels, allocation sizing and
background cosmology

A shallow embedding of `src/fastpm.c` and of the background functions of
`src/libfastpm/cosmology.c`.

Conventions of the embedding.

* `double` values live in an arbitrary linearly ordered field `K` (exact
  arithmetic; the rationals give an executable instance).
* C arrays reached through a pointer are total functions from the index to the
  element; a write is a pointwise update.
* Counters of type `int` that start at zero and are only incremented below a
  bound (`iout`, `istep`) are natural numbers; `ptrdiff_t` values are integers.
* Calls into collaborators whose code is not part of `fastpm.c` (particle
  store, integrator, writers) are recorded as events of a call trace.
* Functions of the C mathematics library and of code outside these two files
  are parameters, bundled in `CMath`, `AllocMath` and `CosmoMath`; where a
  statement needs a property of the real function it is a hypothesis.
* A `#pragma omp parallel` region whose threads write disjoint entries (the
  kernels on `workspace`) is the loop over the whole range. The region of
  `calculate_powerspectrum`, whose threads add to shared entries without
  synchronisation, is a team of threads whose reads and writes are interleaved
  by a schedule (`OmpRun`).
-/

namespace FastPM

/-! ## Snapshot scheduler -/

/-- The fields of `SNPS` that the scheduler logic reads or writes
(`nout`, `aout`, `iout`). -/
structure SNPS (K : Type) where
  nout : Nat
  aout : Nat → K
  iout : Nat

/-- The fields of `Parameters` used by `fastpm.c`. -/
structure Parameters (K : Type) where
  n_zout : Nat
  zout : Nat → K
  time_step : Nat → K
  force_mode : Nat
  measure_power_spectrum_filename : Option String

/-- Calls issued by `fastpm` and `snps_interp`, in program order. -/
inductive Event (K : Type) where
  /-- Call `pm_store_wrap(&pdata, pm->BoxSize)`. -/
  | store_wrap : Event K
  /-- Call `pm_store_decompose(&pdata, to_rank, pm, comm)`. -/
  | store_decompose : Event K
  /-- Call `power_spectrum_init(&ps, size)`. -/
  | power_spectrum_init (size : Nat) : Event K
  /-- Call `do_pm(&pdata, vpm, &ps)`. -/
  | do_pm : Event K
  /-- Call `write_power_spectrum(..., a_x)`. -/
  | write_power_spectrum (a_x : K) : Event K
  /-- Call `power_spectrum_destroy(&ps)`. -/
  | power_spectrum_destroy : Event K
  /-- Entry of `snps_interp(&snps, a_x, a_v, ...)`. -/
  | snps_interp (a_x a_v : K) : Event K
  /-- One pass of the body of the loop of `snps_interp`: the snapshot with
  index `iout` interpolated to `aout` from `(a_x, a_v)` by
  `stepping_set_snapshot`, wrapped, and written if a file name is set. -/
  | snapshot (iout : Nat) (aout a_x a_v : K) : Event K
  /-- Call `stepping_kick(&pdata, &pdata, a_v, a_v1, a_x, ...)`. -/
  | stepping_kick (a_v a_v1 a_x : K) : Event K
  /-- Call `stepping_drift(&pdata, &pdata, a_x, a_x1, a_v1, ...)`. -/
  | stepping_drift (a_x a_x1 a_v1 : K) : Event K
  deriving DecidableEq

/-! ## Mesh data -/

/-- The fields of one `PMKFactors` entry. -/
structure PMKFactors (K : Type) where
  k_finite : K
  kk_finite : K
  kk : K
  cic : K
  extra : K

/-- A mesh index `ptrdiff_t i[3]`. -/
abbrev Index3 : Type := Fin 3 → Int

/-- The fields of `PM` that the kernels of `fastpm.c` use, together with what
they obtain from the mesh code outside `fastpm.c`: the table filled by
`pm_create_k_factors` (`fac`), the range and first index handed out by
`pm_prepare_omp_loop` (`loop_start`, `loop_end`, `loop_i`), and the index
increment `pm_inc_o_index`. The buffers `canvas` and `workspace` are distinct
arrays of doubles. -/
structure PM (K : Type) where
  fac : Fin 3 → Int → PMKFactors K
  ORegion_start : Fin 3 → Int
  Nmesh : Fin 3 → Int
  BoxSize : Fin 3 → K
  Volume : K
  Norm : K
  canvas : Int → K
  workspace : Int → K
  loop_start : Int
  loop_end : Int
  loop_i : Index3
  inc_o_index : Index3 → Index3

/-- The struct `PowerSpectrum`. -/
structure PowerSpectrum (K : Type) where
  size : Nat
  k : Int → K
  p : Int → K
  N : Int → K

/-- The range `[start, end)` and the first index `i` that
`pm_prepare_omp_loop` hands to one thread of a `#pragma omp parallel` region. -/
structure OmpRange where
  start : Int
  end_ : Int
  i : Index3

/-- One execution of a `#pragma omp parallel` region: the ranges that
`pm_prepare_omp_loop` hands to the threads of the team (thread 0 first) and
the order in which the threads access shared memory, each entry of `schedule`
naming the thread that performs its next access. -/
structure OmpRun where
  ranges : List OmpRange
  schedule : List Nat

/-- The three arrays of a `PowerSpectrum`. -/
inductive PSArray where
  /-- The array `ps->N`. -/
  | N : PSArray
  /-- The array `ps->p`. -/
  | p : PSArray
  /-- The array `ps->k`. -/
  | k : PSArray
  deriving DecidableEq

/-- One statement `ps->array[bin] += add` of the loop of
`calculate_powerspectrum`. No `atomic`, `critical` or `reduction` clause
protects it, so it is a read of the entry followed by a write of the sum. -/
structure PSUpdate (K : Type) where
  array : PSArray
  bin : Int
  add : K

/-- A thread inside the parallel region of `calculate_powerspectrum`: the
statements it has not finished (`todo`, in program order) and, when it has
read the entry of the first of them and not yet written it, the value it read
(`loaded`). -/
structure OmpThread (K : Type) where
  todo : List (PSUpdate K)
  loaded : Option K

/-- The fields of `VPM` used by `do_pm`. -/
structure VPM (K : Type) where
  pm : PM K
  pm_nc_factor : Int

/-- What `fastpm.c` takes from the C mathematics library in the power
spectrum: the function `sqrt` and the constant `M_PI`. -/
structure CMath (K : Type) where
  sqrt : K → K
  M_PI : K

variable {K : Type} [LinearOrderedField K]

/-- The loop condition of `snps_interp` apart from `iout < nout`:
"after a kick" or "after a drift". -/
def snps_due (a_x a_v aout : K) : Bool :=
  (decide (a_x < aout) && decide (aout < a_v)) ||
  (decide (a_x ≥ aout) && decide (aout ≥ a_v))

/-- The `while` loop of `snps_interp`: the scheduler when the loop exits and
the snapshots taken, in order. -/
def snps_interp_loop (a_x a_v : K) (snps : SNPS K) : SNPS K × List (Event K) :=
  if snps.iout < snps.nout ∧ snps_due a_x a_v (snps.aout snps.iout) = true then
    let r := snps_interp_loop a_x a_v { snps with iout := snps.iout + 1 }
    (r.1, Event.snapshot snps.iout (snps.aout snps.iout) a_x a_v :: r.2)
  else
    (snps, [])
termination_by snps.nout - snps.iout
decreasing_by
  simp_wf
  omega

/-- The function `snps_interp`: the scheduler after the call, the snapshots
taken, and the returned flag `iout == nout`. -/
def snps_interp (snps : SNPS K) (a_x a_v : K) : SNPS K × List (Event K) × Bool :=
  let r := snps_interp_loop a_x a_v snps
  (r.1, r.2, decide (r.1.iout = r.1.nout))

/-- The function `snps_init`. -/
def snps_init (prr : Parameters K) : SNPS K :=
  { iout := 0
    nout := prr.n_zout
    aout := fun i => 1 / (1 + prr.zout i) }

/-- The function `snps_start`. -/
def snps_start (snps : SNPS K) : SNPS K :=
  { snps with iout := 0 }

/-! ## The step loop of `fastpm` -/

/-- The four scale factors returned by `stepping_get_times`. -/
structure StepTimes (K : Type) where
  a_x : K
  a_x1 : K
  a_v : K
  a_v1 : K

/-- What the step loop obtains from code outside `fastpm.c`: the schedule
(`stepping_get_nsteps`, `stepping_get_times`), the value of the constant
`FORCE_MODE_PM`, the rank of this process, and the mesh that
`vpm_find(vpm_list, a_x)` selects. -/
structure Env (K : Type) where
  nsteps : Nat
  get_times : Nat → StepTimes K
  FORCE_MODE_PM : Nat
  ThisTask : Nat
  vpm_find : K → VPM K

/-- The statements of one pass of the step loop from `pm_store_wrap` up to
`power_spectrum_destroy` (timing, log and barrier calls left out). The size
`pm->Nmesh[0] / 2` is a C integer division converted to `size_t`. -/
def fastpm_force_stage (env : Env K) (prr : Parameters K) (a_x : K) : List (Event K) :=
  [Event.store_wrap, Event.store_decompose,
    Event.power_spectrum_init (Int.tdiv ((env.vpm_find a_x).pm.Nmesh 0) 2).toNat]
  ++ (if prr.force_mode &&& env.FORCE_MODE_PM ≠ 0 then [Event.do_pm] else [])
  ++ (if prr.measure_power_spectrum_filename.isSome then
        (if env.ThisTask = 0 then [Event.write_power_spectrum a_x] else [])
      else [])
  ++ [Event.power_spectrum_destroy]

/-- The loop `for (istep = 0; istep < nsteps; istep++)` of `fastpm`, entered at
`istep` with `n = nsteps - istep` passes left. -/
def fastpm_loop (env : Env K) (prr : Parameters K) :
    Nat → Nat → SNPS K → SNPS K × List (Event K)
  | 0, _, snps => (snps, [])
  | n + 1, istep, snps =>
    let t := env.get_times istep
    let s1 := snps_interp snps t.a_x t.a_v
    let pre := fastpm_force_stage env prr t.a_x
      ++ Event.snps_interp t.a_x t.a_v :: s1.2.1
    if t.a_x ≥ 1 then
      (s1.1, pre)
    else
      let s2 := snps_interp s1.1 t.a_x t.a_v1
      let rest := fastpm_loop env prr n (istep + 1) s2.1
      (rest.1, pre
        ++ Event.stepping_kick t.a_v t.a_v1 t.a_x
        :: Event.snps_interp t.a_x t.a_v1 :: s2.2.1
        ++ Event.stepping_drift t.a_x t.a_x1 t.a_v1 :: rest.2)

/-- The statements of `fastpm` from `snps_init` to the snapshot check before
the step loop. -/
def fastpm_start (prr : Parameters K) : SNPS K × List (Event K) :=
  let snps := snps_start (snps_init prr)
  let s0 := snps_interp snps (prr.time_step 0) (prr.time_step 0)
  (s0.1, Event.snps_interp (prr.time_step 0) (prr.time_step 0) :: s0.2.1)

/-- The part of `fastpm` from `snps_init` to the end of the step loop. -/
def fastpm (env : Env K) (prr : Parameters K) : SNPS K × List (Event K) :=
  let st := fastpm_start prr
  let r := fastpm_loop env prr env.nsteps 0 st.1
  (r.1, st.2 ++ r.2)

/-- The indices of the snapshots in a trace, in order. -/
def snapshot_indices : List (Event K) → List Nat
  | [] => []
  | Event.snapshot i _ _ _ :: es => i :: snapshot_indices es
  | _ :: es => snapshot_indices es

/-- A sequence of `snps_interp` calls on one scheduler: the final scheduler and
all snapshots taken. -/
def snps_interp_calls : List (K × K) → SNPS K → SNPS K × List (Event K)
  | [], snps => (snps, [])
  | c :: cs, snps =>
    let r := snps_interp snps c.1 c.2
    let rest := snps_interp_calls cs r.1
    (rest.1, r.2.1 ++ rest.2)

/-! ## Mesh kernels -/

/-- The loop `for(ind = start; ind < end; ind += 2) { body; pm_inc_o_index(pm, i); }`
shared by the kernels, run on a state `s` that the body updates. -/
def pm_omp_loop {S : Type} (inc : Index3 → Index3) (body : Int → Index3 → S → S)
    (end_ : Int) (ind : Int) (i : Index3) (s : S) : S :=
  if ind < end_ then
    pm_omp_loop inc body end_ (ind + 2) (inc i) (body ind i s)
  else
    s
termination_by (end_ - ind).toNat
decreasing_by
  simp_wf
  omega

/-- The pairs `(ind, i)` that the loop header of `pm_omp_loop` visits, in
order: the local modes. -/
def pm_loop_modes (inc : Index3 → Index3) (end_ : Int) (ind : Int) (i : Index3) :
    List (Int × Index3) :=
  if ind < end_ then
    (ind, i) :: pm_loop_modes inc end_ (ind + 2) (inc i)
  else
    []
termination_by (end_ - ind).toNat
decreasing_by
  simp_wf
  omega

/-- The local modes of a mesh: what the kernel loops visit. -/
def pm_modes (pm : PM K) : List (Int × Index3) :=
  pm_loop_modes pm.inc_o_index pm.loop_end pm.loop_start pm.loop_i

/-- The inner loop `kk_finite = 0; for d: kk_finite += fac[d][i[d] + start[d]].kk_finite`. -/
def mode_kk_finite (pm : PM K) (i : Index3) : K :=
  0 + (pm.fac 0 (i 0 + pm.ORegion_start 0)).kk_finite
    + (pm.fac 1 (i 1 + pm.ORegion_start 1)).kk_finite
    + (pm.fac 2 (i 2 + pm.ORegion_start 2)).kk_finite

/-- The inner loop `kk = 0; for d: kk += fac[d][i[d] + start[d]].kk`. -/
def mode_kk (pm : PM K) (i : Index3) : K :=
  0 + (pm.fac 0 (i 0 + pm.ORegion_start 0)).kk
    + (pm.fac 1 (i 1 + pm.ORegion_start 1)).kk
    + (pm.fac 2 (i 2 + pm.ORegion_start 2)).kk

/-- The body of the loop of `apply_force_kernel` for the mode `(ind, i)`. -/
def apply_force_kernel_body (pm : PM K) (dir : Fin 3) (ind : Int) (i : Index3)
    (workspace : Int → K) : Int → K :=
  let k_finite := (pm.fac dir (i dir + pm.ORegion_start dir)).k_finite
  let kk_finite := mode_kk_finite pm i
  if kk_finite > 0 then
    Function.update
      (Function.update workspace ind (pm.canvas (ind + 1) * (k_finite / kk_finite)))
      (ind + 1) (- pm.canvas ind * (k_finite / kk_finite))
  else
    Function.update (Function.update workspace ind 0) (ind + 1) 0

/-- The function `apply_force_kernel`. -/
def apply_force_kernel (pm : PM K) (dir : Fin 3) : PM K :=
  { pm with
    workspace := pm_omp_loop pm.inc_o_index (apply_force_kernel_body pm dir)
      pm.loop_end pm.loop_start pm.loop_i pm.workspace }

/-- The product of two complex numbers given as `(real, imaginary)` pairs. -/
def complex_mul (x y : K × K) : K × K :=
  (x.1 * y.1 - x.2 * y.2, x.1 * y.2 + x.2 * y.1)

section PowerSpectrumDefs

variable [FloorRing K]

/-- The bin width `k0 = 2 * M_PI / pm->BoxSize[0]`. -/
def powerspectrum_k0 (m : CMath K) (pm : PM K) : K :=
  2 * m.M_PI / pm.BoxSize 0

/-- The value `k = sqrt(kk)` of a mode. -/
def mode_k (m : CMath K) (pm : PM K) (i : Index3) : K :=
  m.sqrt (mode_kk pm i)

/-- The bin `floor(k / k0)` of a mode, as a `ptrdiff_t`. -/
def mode_bin (m : CMath K) (pm : PM K) (i : Index3) : Int :=
  ⌊mode_k m pm i / powerspectrum_k0 m pm⌋

/-- The weight `int w = 2; if(i[2] == 0) w = 1;` of a mode. -/
def mode_weight (i : Index3) : K :=
  if i 2 = 0 then 1 else 2

/-- The value `real * real + imag * imag` of the mode stored at `ind`. -/
def mode_value (pm : PM K) (ind : Int) : K :=
  pm.canvas (ind + 0) * pm.canvas (ind + 0) + pm.canvas (ind + 1) * pm.canvas (ind + 1)

/-- The read `ps->array[bin]`. -/
def ps_load (ps : PowerSpectrum K) (array : PSArray) (bin : Int) : K :=
  match array with
  | PSArray.N => ps.N bin
  | PSArray.p => ps.p bin
  | PSArray.k => ps.k bin

/-- The write `ps->array[bin] = v`. -/
def ps_store (ps : PowerSpectrum K) (array : PSArray) (bin : Int) (v : K) :
    PowerSpectrum K :=
  match array with
  | PSArray.N => { ps with N := Function.update ps.N bin v }
  | PSArray.p => { ps with p := Function.update ps.p bin v }
  | PSArray.k => { ps with k := Function.update ps.k bin v }

/-- The statements on the shared accumulator that the body of the loop of
`calculate_powerspectrum` executes for the mode `(ind, i)`: the three `+=`
when the bin passes the guard, none otherwise. The test `bin < ps->size` is
only reached with `bin >= 0`, where the conversion of `bin` to `size_t` keeps
its value; `value`, `k`, `bin` and `w` are private to the thread. -/
def calculate_powerspectrum_updates (m : CMath K) (pm : PM K) (size : Nat) (ind : Int)
    (i : Index3) : List (PSUpdate K) :=
  let value := mode_value pm ind
  let k := mode_k m pm i
  let bin := mode_bin m pm i
  if bin ≥ 0 ∧ bin < (size : Int) then
    let w := mode_weight (K := K) i
    [⟨PSArray.N, bin, w⟩, ⟨PSArray.p, bin, w * value⟩, ⟨PSArray.k, bin, w * k⟩]
  else
    []

/-- The statements on the shared accumulator that one thread executes in the
parallel region of `calculate_powerspectrum`, in program order: the loop
`for(ind = start; ind < end; ind += 2)` over the range handed to the thread. -/
def calculate_powerspectrum_thread (m : CMath K) (pm : PM K) (size : Nat) (r : OmpRange) :
    List (PSUpdate K) :=
  pm_omp_loop pm.inc_o_index
    (fun ind i done => done ++ calculate_powerspectrum_updates m pm size ind i)
    r.end_ r.start r.i []

/-- The next access of a thread to the shared accumulator: the read of its
current statement `ps->array[bin] += add` if it has not taken place, else the
write of the value read plus `add`, which finishes the statement. -/
def omp_thread_step (ps : PowerSpectrum K) (t : OmpThread K) :
    PowerSpectrum K × OmpThread K :=
  match t.todo, t.loaded with
  | [], _ => (ps, t)
  | u :: _, none => (ps, { t with loaded := some (ps_load ps u.array u.bin) })
  | u :: us, some v => (ps_store ps u.array u.bin (v + u.add), ⟨us, none⟩)

/-- One entry of a schedule: thread `tid` of the team performs its next
access. An entry that names no thread of the team, or a thread that has
finished, changes nothing. -/
def omp_step (s : PowerSpectrum K × List (OmpThread K)) (tid : Nat) :
    PowerSpectrum K × List (OmpThread K) :=
  match s.2.get? tid with
  | none => s
  | some t => ((omp_thread_step s.1 t).1, s.2.set tid (omp_thread_step s.1 t).2)

/-- A thread runs to the end of its statements with no access of another
thread in between. -/
def omp_thread_finish : List (PSUpdate K) → Option K → PowerSpectrum K → PowerSpectrum K
  | [], _, ps => ps
  | u :: us, none, ps =>
    omp_thread_finish us none (ps_store ps u.array u.bin (ps_load ps u.array u.bin + u.add))
  | u :: us, some v, ps =>
    omp_thread_finish us none (ps_store ps u.array u.bin (v + u.add))

/-- The end of the parallel region: every thread of the team has finished.
The threads still at work when the schedule ends run to their end one after
the other. -/
def omp_join (s : PowerSpectrum K × List (OmpThread K)) : PowerSpectrum K :=
  s.2.foldl (fun ps t => omp_thread_finish t.todo t.loaded ps) s.1

/-- The body of the loop of `calculate_powerspectrum` for the mode `(ind, i)`
when no other thread accesses the accumulator between its reads and writes. -/
def calculate_powerspectrum_body (m : CMath K) (pm : PM K) (ind : Int) (i : Index3)
    (ps : PowerSpectrum K) : PowerSpectrum K :=
  let value := mode_value pm ind
  let k := mode_k m pm i
  let bin := mode_bin m pm i
  if bin ≥ 0 ∧ bin < (ps.size : Int) then
    let w := mode_weight (K := K) i
    { ps with
      N := Function.update ps.N bin (ps.N bin + w)
      p := Function.update ps.p bin (ps.p bin + w * value)
      k := Function.update ps.k bin (ps.k bin + w * k) }
  else
    ps

/-- The call `memset(a, 0, sizeof(a[0]) * size)` on an array of doubles. -/
def memset_zero (size : Nat) (a : Int → K) : Int → K :=
  fun b => if 0 ≤ b ∧ b < (size : Int) then 0 else a b

/-- The first part of `calculate_powerspectrum`: the three `memset` calls and
the `#pragma omp parallel` region, in which every thread of the team walks
the range `pm_prepare_omp_loop` hands to it and adds to the shared arrays
`ps->N`, `ps->p`, `ps->k` without synchronisation, its reads and writes
interleaved with those of the other threads as `run.schedule` says. -/
def calculate_powerspectrum_local (m : CMath K) (pm : PM K) (ps : PowerSpectrum K)
    (run : OmpRun) : PowerSpectrum K :=
  let ps0 : PowerSpectrum K :=
    { ps with
      p := memset_zero ps.size ps.p
      k := memset_zero ps.size ps.k
      N := memset_zero ps.size ps.N }
  let team : List (OmpThread K) :=
    run.ranges.map (fun r => ⟨calculate_powerspectrum_thread m pm ps.size r, none⟩)
  omp_join (run.schedule.foldl omp_step (ps0, team))

/-- The execution of a parallel region by a team of one thread, which walks
the whole range `[loop_start, loop_end)` of the mesh. -/
def omp_one_thread (pm : PM K) (schedule : List Nat) : OmpRun :=
  ⟨[⟨pm.loop_start, pm.loop_end, pm.loop_i⟩], schedule⟩

/-- The call `MPI_Allreduce(MPI_IN_PLACE, a, size, MPI_DOUBLE, MPI_SUM, comm)`
as seen by one rank: each of the `size` entries becomes the sum of the entries
of this rank (`mine`) and of the other ranks of the communicator. -/
def allreduce_sum (size : Nat) (mine : Int → K) (others : List (Int → K)) : Int → K :=
  fun b => if 0 ≤ b ∧ b < (size : Int) then mine b + (others.map (fun a => a b)).sum
    else mine b

/-- The three `MPI_Allreduce` calls of `calculate_powerspectrum`; `others` are
the spectra accumulated by the other ranks. -/
def calculate_powerspectrum_reduce (ps : PowerSpectrum K) (others : List (PowerSpectrum K)) :
    PowerSpectrum K :=
  { ps with
    p := allreduce_sum ps.size ps.p (others.map PowerSpectrum.p)
    N := allreduce_sum ps.size ps.N (others.map PowerSpectrum.N)
    k := allreduce_sum ps.size ps.k (others.map PowerSpectrum.k) }

/-- One pass of the last loop of `calculate_powerspectrum`:
`k[ind] /= N[ind]; p[ind] /= N[ind]; p[ind] *= Volume / (Norm * Norm) * (density_factor * density_factor)`. -/
def calculate_powerspectrum_norm_body (pm : PM K) (density_factor : K)
    (ps : PowerSpectrum K) (ind : Nat) : PowerSpectrum K :=
  let k1 := Function.update ps.k (ind : Int) (ps.k ind / ps.N ind)
  let p1 := Function.update ps.p (ind : Int) (ps.p ind / ps.N ind)
  let p2 := Function.update p1 (ind : Int)
    (p1 ind * (pm.Volume / (pm.Norm * pm.Norm) * (density_factor * density_factor)))
  { ps with k := k1, p := p2 }

/-- The last loop of `calculate_powerspectrum`, `for(ind = 0; ind < ps->size; ind++)`. -/
def calculate_powerspectrum_normalize (pm : PM K) (density_factor : K)
    (ps : PowerSpectrum K) : PowerSpectrum K :=
  (List.range ps.size).foldl (calculate_powerspectrum_norm_body pm density_factor) ps

/-- The function `calculate_powerspectrum` on one rank; `run` is the execution
of its parallel region. -/
def calculate_powerspectrum (m : CMath K) (pm : PM K) (ps : PowerSpectrum K)
    (density_factor : K) (others : List (PowerSpectrum K)) (run : OmpRun) :
    PowerSpectrum K :=
  calculate_powerspectrum_normalize pm density_factor
    (calculate_powerspectrum_reduce (calculate_powerspectrum_local m pm ps run) others)

/-- The value `density_factor = pow(vpm->pm_nc_factor, 3)` of `do_pm`. -/
def do_pm_density_factor (vpm : VPM K) : K :=
  (vpm.pm_nc_factor : K) ^ 3

/-- The power spectrum that `do_pm` computes: the call
`calculate_powerspectrum(pm, ps, density_factor)` on the transformed field
held in `vpm->pm`. -/
def do_pm_calculate_powerspectrum (m : CMath K) (vpm : VPM K) (ps : PowerSpectrum K)
    (others : List (PowerSpectrum K)) (run : OmpRun) : PowerSpectrum K :=
  calculate_powerspectrum m vpm.pm ps (do_pm_density_factor vpm) others run

end PowerSpectrumDefs

/-- A mesh with two local modes: the origin mode at `ind = 0`, index
`(0, 0, 0)`, and the mode at `ind = 2`, index `(0, 0, 1)`. Entry `j` of each
factor table has `k_finite = j` and `kk_finite = kk = j * j`; the canvas holds
`1, 2, 3, 4`. -/
def example_pm (K : Type) [LinearOrderedField K] : PM K :=
  { fac := fun _ j => ⟨(j : K), (j : K) * j, (j : K) * j, 1, 1⟩
    ORegion_start := fun _ => 0
    Nmesh := fun _ => 4
    BoxSize := fun _ => 2
    Volume := 8
    Norm := 8
    canvas := fun a => (a : K) + 1
    workspace := fun _ => 7
    loop_start := 0
    loop_end := 4
    loop_i := fun _ => 0
    inc_o_index := fun i => Function.update i 2 (i 2 + 1) }

/-- A square root on the rationals, exact on squares of rationals, and the
value 1 for `M_PI` (so that the example mesh has `k0 = 1`). -/
def example_cmath : CMath ℚ :=
  { sqrt := fun q => (Nat.sqrt q.num.toNat : ℚ) / (Nat.sqrt q.den : ℚ)
    M_PI := 1 }

/-- A spectrum of two bins with arbitrary prior contents. -/
def example_ps (K : Type) [LinearOrderedField K] : PowerSpectrum K :=
  { size := 2
    k := fun _ => 5
    p := fun _ => 6
    N := fun _ => 7 }

/-- The scheduler of the example `aout = [0.5, 0.8]` before any call. -/
def example_snps (K : Type) [LinearOrderedField K] : SNPS K :=
  { nout := 2
    aout := fun i => if i = 0 then 0.5 else 0.8
    iout := 0 }

/-- A run with output redshifts `[1, 0.25]` (so `aout = [0.5, 0.8]`), started
at `a = 0.4`, with the PM force on. -/
def example_prr (K : Type) [LinearOrderedField K] : Parameters K :=
  { n_zout := 2
    zout := fun i => if i = 0 then 1 else 0.25
    time_step := fun _ => 0.4
    force_mode := 1
    measure_power_spectrum_filename := none }

/-- A schedule of three steps at `a_x = 0.4, 0.7, 1.0`. -/
def example_env (K : Type) [LinearOrderedField K] : Env K :=
  { nsteps := 3
    get_times := fun i =>
      if i = 0 then ⟨0.4, 0.7, 0.4, 0.55⟩
      else if i = 1 then ⟨0.7, 1, 0.55, 0.85⟩
      else ⟨1, 1, 0.85, 1⟩
    FORCE_MODE_PM := 1
    ThisTask := 0
    vpm_find := fun _ => ⟨example_pm K, 2⟩ }

/-- A scheduler whose first epoch, 0.3, lies before the start `a = 0.4` of the
run while its second epoch, 0.5, lies after it. -/
def example_blocked_snps (K : Type) [LinearOrderedField K] : SNPS K :=
  { nout := 2
    aout := fun i => if i = 0 then 0.3 else 0.5
    iout := 0 }

/-! ## Allocation sizing -/

/-- What `estimate_alloc_factor` takes from outside `fastpm.c`: the C library
functions `pow`, `sqrt`, `erfc`, `expm1`, `log1p`, the constant `M_PI`, and the
function `Sigma2` of the power-spectrum code. -/
structure AllocMath (K : Type) where
  pow : K → K → K
  sqrt : K → K
  erfc : K → K
  expm1 : K → K
  log1p : K → K
  M_PI : K
  Sigma2 : K → K

/-- The statement `probfail = - expm1(log1p(-probfail) * NTask)`. -/
def combined_probfail (m : AllocMath K) (NTask : Int) (probfail : K) : K :=
  - m.expm1 (m.log1p (-probfail) * (NTask : K))

/-- The body of the loop of `estimate_alloc_factor` up to its test: the
combined probability for `factor`. -/
def alloc_probfail (m : AllocMath K) (sigma : K) (NTask : Int) (factor : K) : K :=
  let x := factor - 1.0
  let probfail := m.erfc (x / 1.414 / sigma)
  combined_probfail m NTask probfail

/-- The loop `while (1)` of `estimate_alloc_factor`, run for at most `fuel`
passes from `factor`; `none` when the passes are used up before the `break`. -/
def estimate_alloc_factor_loop (m : AllocMath K) (sigma : K) (NTask : Int)
    (failure_rate : K) : Nat → K → Option K
  | 0, _ => none
  | fuel + 1, factor =>
    if alloc_probfail m sigma NTask factor < failure_rate then
      some factor
    else
      estimate_alloc_factor_loop m sigma NTask failure_rate fuel (factor * 1.01)

/-- The value `sigma = sqrt(Sigma2(pow(4 * M_PI / 3 * Volume, 0.3333)))` of
`estimate_alloc_factor`. -/
def estimate_alloc_sigma (m : AllocMath K) (Volume : K) : K :=
  let R := m.pow (4 * m.M_PI / 3 * Volume) 0.3333
  m.sqrt (m.Sigma2 R)

/-- The function `estimate_alloc_factor`, its loop limited to `fuel` passes. -/
def estimate_alloc_factor (m : AllocMath K) (Volume : K) (NTask : Int) (failure_rate : K)
    (fuel : Nat) : Option K :=
  estimate_alloc_factor_loop m (estimate_alloc_sigma m Volume) NTask failure_rate fuel 1.001

/-- Rational stand-ins for the library functions, with the signs and the
monotonicity of the real ones where the search depends on them: `erfc`
decreases from 1 towards 0 on `t >= 0`, `expm1` increases, and `log1p(-p) <= 0`
for `p >= 0`; `Sigma2` is constantly 1, so `sigma = 1`. -/
def example_alloc_math : AllocMath ℚ :=
  { pow := fun x _ => x
    sqrt := fun x => x
    erfc := fun t => 1 / (1 + t)
    expm1 := fun y => y
    log1p := fun u => u
    M_PI := 3
    Sigma2 := fun _ => 1 }

/-! ## Load imbalance report -/

/-- The call `MPI_Allreduce(&pdata.np, &np_max, 1, MPI_LONG, MPI_MAX, comm)` as
seen by one rank: the maximum of its own count and those of the other ranks. -/
def allreduce_max (mine : Nat) (others : List Nat) : Nat :=
  others.foldl max mine

/-- The call `MPI_Allreduce(&pdata.np, &np_min, 1, MPI_LONG, MPI_MIN, comm)` as
seen by one rank. -/
def allreduce_min (mine : Nat) (others : List Nat) : Nat :=
  others.foldl min mine

/-- The two ratios `np_min / np_mean` and `np_max / np_mean` printed by the
"Load imbalance" message of the step loop, with
`np_mean = pow(prr->nc, 3) / NTask`; `np` is the particle count of this rank
after the decomposition and `others` are the counts of the other ranks. -/
def load_imbalance (nc : Int) (NTask : Int) (np : Nat) (others : List Nat) : K × K :=
  let np_max := allreduce_max np others
  let np_min := allreduce_min np others
  let np_mean : K := (nc : K) ^ 3 / (NTask : K)
  ((np_min : K) / np_mean, (np_max : K) / np_mean)

/-! ## Smoothing kernel -/

/-- The first loop of `smooth_density`: for every axis `d` and every
`0 <= ind < Nmesh[d]`, `fac[d][ind].extra = exp(-0.5 * fac[d][ind].kk * r_s * r_s)`;
`exp` is the C library function. -/
def smooth_density_fac (exp : K → K) (pm : PM K) (r_s : K) : Fin 3 → Int → PMKFactors K :=
  fun d ind =>
    if 0 ≤ ind ∧ ind < pm.Nmesh d then
      { pm.fac d ind with extra := exp (-0.5 * (pm.fac d ind).kk * r_s * r_s) }
    else
      pm.fac d ind

/-- The body of the second loop of `smooth_density` for the mode `(ind, i)`,
reading the table `fac` left by the first loop. -/
def smooth_density_body (fac : Fin 3 → Int → PMKFactors K) (pm : PM K) (ind : Int)
    (i : Index3) (workspace : Int → K) : Int → K :=
  let smth := 1 * (fac 0 (i 0 + pm.ORegion_start 0)).extra
    * (fac 1 (i 1 + pm.ORegion_start 1)).extra
    * (fac 2 (i 2 + pm.ORegion_start 2)).extra
  let kk := 0 + (fac 0 (i 0 + pm.ORegion_start 0)).kk
    + (fac 1 (i 1 + pm.ORegion_start 1)).kk
    + (fac 2 (i 2 + pm.ORegion_start 2)).kk
  if kk > 0 then
    Function.update
      (Function.update workspace ind (pm.canvas (ind + 0) * smth))
      (ind + 1) (pm.canvas (ind + 1) * smth)
  else
    Function.update (Function.update workspace ind 0) (ind + 1) 0

/-- The function `smooth_density`. -/
def smooth_density (exp : K → K) (pm : PM K) (r_s : K) : PM K :=
  { pm with
    workspace := pm_omp_loop pm.inc_o_index
      (smooth_density_body (smooth_density_fac exp pm r_s) pm)
      pm.loop_end pm.loop_start pm.loop_i pm.workspace }

/-! ## The force evaluation `do_pm` -/

/-- The particle attributes named in `do_pm`. -/
inductive PackAttr where
  | PACK_POS : PackAttr
  | PACK_ACC_X : PackAttr
  | PACK_ACC_Y : PackAttr
  | PACK_ACC_Z : PackAttr
  deriving DecidableEq

/-- The calls and stores issued by `do_pm`, in program order (timing calls
left out). -/
inductive PMEvent (K : Type) where
  /-- Call `pm_start(pm)`. -/
  | pm_start : PMEvent K
  /-- Call `pm_append_ghosts(&pgd)` with `pgd.attributes = attributes`. -/
  | pm_append_ghosts (attributes : PackAttr) : PMEvent K
  /-- Call `pm_paint(pm, p, n)`. -/
  | pm_paint (n : Nat) : PMEvent K
  /-- Call `pm_r2c(pm)`. -/
  | pm_r2c : PMEvent K
  /-- Call `calculate_powerspectrum(pm, ps, density_factor)`. -/
  | calculate_powerspectrum (density_factor : K) : PMEvent K
  /-- Call `apply_force_kernel(pm, d)`. -/
  | apply_force_kernel (d : Fin 3) : PMEvent K
  /-- Call `pm_c2r(pm)`. -/
  | pm_c2r : PMEvent K
  /-- Store `p->acc[i][d] = value`. -/
  | store_acc (i : Nat) (d : Fin 3) (value : K) : PMEvent K
  /-- Call `pm_reduce_ghosts(&pgd, attr)`. -/
  | pm_reduce_ghosts (attr : PackAttr) : PMEvent K
  /-- Call `pm_destroy_ghosts(&pgd)`. -/
  | pm_destroy_ghosts : PMEvent K
  /-- Call `pm_stop(pm)`. -/
  | pm_stop : PMEvent K
  /-- Call `MPI_Barrier(pm->Comm2D)`. -/
  | barrier : PMEvent K
  deriving DecidableEq

/-- The table `int ACC[] = {PACK_ACC_X, PACK_ACC_Y, PACK_ACC_Z}`. -/
def do_pm_ACC : Fin 3 → PackAttr
  | 0 => PackAttr.PACK_ACC_X
  | 1 => PackAttr.PACK_ACC_Y
  | 2 => PackAttr.PACK_ACC_Z

/-- The loop `for(i = 0; i < p->np + pgd.nghosts; i ++)` of `do_pm` for the axis
`d`, entered at `i` with `count` passes left: each pass stores
`pm_readout_one(pm, p, i) * (density_factor / pm->Norm)` into `p->acc[i][d]`.
The value `pm_readout_one` returns for particle `i` while axis `d` is in the
workspace is `readout d i`. -/
def do_pm_readout_loop (readout : Fin 3 → Nat → K) (density_factor Norm : K) (d : Fin 3) :
    Nat → Nat → List (PMEvent K)
  | 0, _ => []
  | count + 1, i =>
    PMEvent.store_acc i d (readout d i * (density_factor / Norm))
      :: do_pm_readout_loop readout density_factor Norm d count (i + 1)

/-- One pass of the loop `for(d = 0; d < 3; d ++)` of `do_pm`. -/
def do_pm_axis (readout : Fin 3 → Nat → K) (density_factor Norm : K) (n : Nat)
    (d : Fin 3) : List (PMEvent K) :=
  [PMEvent.apply_force_kernel d, PMEvent.pm_c2r]
  ++ do_pm_readout_loop readout density_factor Norm d n 0
  ++ [PMEvent.pm_reduce_ghosts (do_pm_ACC d)]

/-- The loop `for(d = 0; d < 3; d ++)` of `do_pm` over the axes still to do. -/
def do_pm_axes (readout : Fin 3 → Nat → K) (density_factor Norm : K) (n : Nat) :
    List (Fin 3) → List (PMEvent K)
  | [] => []
  | d :: ds =>
    do_pm_axis readout density_factor Norm n d
      ++ do_pm_axes readout density_factor Norm n ds

/-- The function `do_pm`: the calls and stores it issues. `np` is `p->np`,
`nghosts` the number of ghosts that `pm_append_ghosts` leaves in
`pgd.nghosts`. -/
def do_pm (vpm : VPM K) (np nghosts : Nat) (readout : Fin 3 → Nat → K) :
    List (PMEvent K) :=
  let density_factor := do_pm_density_factor vpm
  [PMEvent.pm_start, PMEvent.pm_append_ghosts PackAttr.PACK_POS,
    PMEvent.pm_paint (np + nghosts), PMEvent.pm_r2c,
    PMEvent.calculate_powerspectrum density_factor]
  ++ do_pm_axes readout density_factor vpm.pm.Norm (np + nghosts) [0, 1, 2]
  ++ [PMEvent.pm_destroy_ghosts, PMEvent.pm_stop, PMEvent.barrier]

/-! ## Background cosmology (`libfastpm/cosmology.c`) -/

/-- The fields of `FastPMCosmology` read by the functions below. -/
structure FastPMCosmology (K : Type) where
  h : K
  Omega_cdm : K
  T_cmb : K
  N_eff : K
  N_nu : Int
  N_ncdm : Int
  m_ncdm : Nat → K

/-- What `cosmology.c` takes from outside: the C library functions `pow` and
`sqrt`, the constant `M_PI`, and the interpolation
`fastpm_do_fd_interp(c->FDinterp, F_id, y)` of the Fermi-Dirac tables. -/
structure CosmoMath (K : Type) where
  pow : K → K → K
  sqrt : K → K
  M_PI : K
  fastpm_do_fd_interp : Int → K → K

/-- The macro `STEF_BOLT`. -/
def STEF_BOLT : K := 2.851e-48

/-- The macro `rho_crit`. -/
def rho_crit : K := 27.7455

/-- The macro `LIGHT`. -/
def LIGHT : K := 9.722e-15

/-- The macro `kB`. -/
def kB : K := 8.617330350e-5

/-- The function `Omega_g`. -/
def Omega_g (m : CosmoMath K) (c : FastPMCosmology K) : K :=
  4 * STEF_BOLT * m.pow c.T_cmb 4 / m.pow LIGHT 3 / rho_crit / m.pow c.h 2

/-- The function `Gamma_nu`. -/
def Gamma_nu (m : CosmoMath K) (c : FastPMCosmology K) : K :=
  if c.N_nu = 0 then 0
  else m.pow (c.N_eff / (c.N_nu : K)) (1 / 4) * m.pow (4 / 11) (1 / 3)

/-- The function `Omega_ur`. -/
def Omega_ur (m : CosmoMath K) (c : FastPMCosmology K) : K :=
  let N_ur : Int := c.N_nu - c.N_ncdm
  7 / 8 * (N_ur : K) * m.pow (Gamma_nu m c) 4 * Omega_g m c

/-- The function `Omega_r`. -/
def Omega_r (m : CosmoMath K) (c : FastPMCosmology K) : K :=
  Omega_g m c + Omega_ur m c

/-- The function `getFtable`. -/
def getFtable (m : CosmoMath K) (F_id : Int) (y : K) : K :=
  m.fastpm_do_fd_interp F_id y

/-- The function `Fconst`. -/
def Fconst (m : CosmoMath K) (ncdm_id : Nat) (c : FastPMCosmology K) : K :=
  if c.T_cmb = 0 ∨ c.N_ncdm = 0 then 0
  else
    let T_nu := Gamma_nu m c * c.T_cmb
    c.m_ncdm ncdm_id / (kB * T_nu)

/-- The function `Omega_ncdm_iTimesHubbleEaSq`. -/
def Omega_ncdm_iTimesHubbleEaSq (m : CosmoMath K) (a : K) (ncdm_id : Nat)
    (c : FastPMCosmology K) : K :=
  let A := 15 / m.pow m.M_PI 4 * m.pow (Gamma_nu m c) 4 * Omega_g m c
  let Fc := Fconst m ncdm_id c
  let F := getFtable m 1 (Fc * a)
  A / (a * a * a * a) * F

/-- The function `Omega_ncdmTimesHubbleEaSq`: the loop
`res = 0; for (i = 0; i < c->N_ncdm; i++) res += ...`. -/
def Omega_ncdmTimesHubbleEaSq (m : CosmoMath K) (a : K) (c : FastPMCosmology K) : K :=
  (List.range c.N_ncdm.toNat).foldl
    (fun res i => res + Omega_ncdm_iTimesHubbleEaSq m a i c) 0

/-- The function `Omega_Lambda`. -/
def Omega_Lambda (m : CosmoMath K) (c : FastPMCosmology K) : K :=
  1 - c.Omega_cdm - Omega_r m c - Omega_ncdmTimesHubbleEaSq m 1 c

/-- The function `HubbleEa`. -/
def HubbleEa (m : CosmoMath K) (a : K) (c : FastPMCosmology K) : K :=
  m.sqrt (Omega_r m c / (a * a * a * a) + c.Omega_cdm / (a * a * a)
    + Omega_ncdmTimesHubbleEaSq m a c + Omega_Lambda m c)

/-- The function `OmegaSum`. -/
def OmegaSum (m : CosmoMath K) (a : K) (c : FastPMCosmology K) : K :=
  let sum := Omega_r m c / m.pow a 4
  let sum := sum + c.Omega_cdm / m.pow a 3
  let sum := sum + Omega_ncdmTimesHubbleEaSq m a c
  let sum := sum + Omega_Lambda m c
  sum / m.pow (HubbleEa m a c) 2

/-- Library functions on the rationals: `pow` for exponents that are natural
numbers, a square root that is exact on squares of rationals and 0 on negative
numbers, `355 / 113` for `M_PI`, and empty Fermi-Dirac tables. -/
def example_cosmo_math : CosmoMath ℚ :=
  { pow := fun x y => x ^ ⌊y⌋₊
    sqrt := fun q => (Nat.sqrt q.num.toNat : ℚ) / (Nat.sqrt q.den : ℚ)
    M_PI := 355 / 113
    fastpm_do_fd_interp := fun _ _ => 0 }

/-- A cosmology without radiation and neutrinos and with `Omega_cdm = 0.3`. -/
def example_flat_cosmology (K : Type) [LinearOrderedField K] : FastPMCosmology K :=
  { h := 7 / 10
    Omega_cdm := 3 / 10
    T_cmb := 0
    N_eff := 0
    N_nu := 0
    N_ncdm := 0
    m_ncdm := fun _ => 0 }

/-! ## Mode counting -/

/-- The library functions of `example_cmath` with `355 / 113` for `M_PI`. -/
def example_cmath_pi : CMath ℚ :=
  { sqrt := fun q => (Nat.sqrt q.num.toNat : ℚ) / (Nat.sqrt q.den : ℚ)
    M_PI := 355 / 113 }

/-- Entry `j` of the factor tables of a mesh with `Nmesh = 4` in a box of side
`2 * M_PI`: the wavenumber is `j` for `j <= 2` and `j - 4` above, and `kk` is
its square. -/
def example_fac4 (j : Int) : PMKFactors ℚ :=
  ⟨if j ≤ 2 then (j : ℚ) else (j : ℚ) - 4,
    (if j ≤ 2 then (j : ℚ) else (j : ℚ) - 4) * (if j ≤ 2 then (j : ℚ) else (j : ℚ) - 4),
    (if j ≤ 2 then (j : ℚ) else (j : ℚ) - 4) * (if j ≤ 2 then (j : ℚ) else (j : ℚ) - 4), 1, 1⟩

/-- The part of a mesh with `Nmesh = 4` held by a rank whose region of the
transformed array starts at `(1, 0, 0)` and has size `(3, 1, 1)`: the three
modes with global index `(1, 0, 0)`, `(2, 0, 0)`, `(3, 0, 0)`, of wavenumbers
`1, 2, -1` along axis 0 (`k0 = 1`). -/
def example_row4 : PM ℚ :=
  { fac := fun _ j => example_fac4 j
    ORegion_start := ![1, 0, 0]
    Nmesh := fun _ => 4
    BoxSize := fun _ => 710 / 113
    Volume := (710 / 113) ^ 3
    Norm := 64
    canvas := fun a => (a : ℚ) + 1
    workspace := fun _ => 0
    loop_start := 0
    loop_end := 6
    loop_i := ![0, 0, 0]
    inc_o_index := fun i => ![i 0 + 1, i 1, i 2] }

/-- An execution of the parallel region on `example_row4` by a team of two
threads: thread 0 has the mode at `ind = 0`, thread 1 the modes at
`ind = 2, 4`. Thread 0 reads `N[1]`, then thread 1 performs its six accesses,
then thread 0 goes on. -/
def example_race_run : OmpRun :=
  ⟨[⟨0, 2, ![0, 0, 0]⟩, ⟨2, 6, ![1, 0, 0]⟩], [0, 1, 1, 1, 1, 1, 1]⟩

/-! ## Scheduler lemmas -/

theorem snps_due_iff (a_x a_v aout : K) :
    snps_due a_x a_v aout = true ↔
      ((a_x < aout ∧ aout < a_v) ∨ (a_x ≥ aout ∧ aout ≥ a_v)) := by
  simp [snps_due]

theorem snps_interp_loop_step (a_x a_v : K) (snps : SNPS K)
    (h1 : snps.iout < snps.nout) (h2 : snps_due a_x a_v (snps.aout snps.iout) = true) :
    snps_interp_loop a_x a_v snps =
      ((snps_interp_loop a_x a_v { snps with iout := snps.iout + 1 }).1,
        Event.snapshot snps.iout (snps.aout snps.iout) a_x a_v ::
          (snps_interp_loop a_x a_v { snps with iout := snps.iout + 1 }).2) := by
  rw [snps_interp_loop]
  simp [h1, h2]

theorem snps_interp_loop_stop (a_x a_v : K) (snps : SNPS K)
    (h : ¬ (snps.iout < snps.nout ∧ snps_due a_x a_v (snps.aout snps.iout) = true)) :
    snps_interp_loop a_x a_v snps = (snps, []) := by
  rw [snps_interp_loop]
  simp only [h, if_false]

/-- The loop of `snps_interp` from a cursor inside `[0, nout]`: it stops at the
least index `j` at or after the cursor that is `nout` or not due, having
taken the snapshots `iout, ..., j - 1`. -/
theorem snps_interp_loop_spec (a_x a_v : K) :
    ∀ (n : Nat) (snps : SNPS K), snps.nout - snps.iout = n → snps.iout ≤ snps.nout →
      ∃ j, snps.iout ≤ j ∧ j ≤ snps.nout ∧
        (j = snps.nout ∨ snps_due a_x a_v (snps.aout j) = false) ∧
        (∀ i, snps.iout ≤ i → i < j → snps_due a_x a_v (snps.aout i) = true) ∧
        (snps_interp_loop a_x a_v snps).2 =
          (List.range' snps.iout (j - snps.iout)).map
            (fun i => Event.snapshot i (snps.aout i) a_x a_v) ∧
        (snps_interp_loop a_x a_v snps).1 = { snps with iout := j } := by
  intro n
  induction n with
  | zero =>
    intro snps hn hle
    have heq : snps.iout = snps.nout := by omega
    refine ⟨snps.iout, le_refl _, hle, Or.inl heq, ?_, ?_, ?_⟩
    · intro i h1 h2
      omega
    · rw [snps_interp_loop_stop a_x a_v snps (by omega)]
      simp
    · rw [snps_interp_loop_stop a_x a_v snps (by omega)]
  | succ n ih =>
    intro snps hn hle
    have hlt : snps.iout < snps.nout := by omega
    by_cases hd : snps_due a_x a_v (snps.aout snps.iout) = true
    · obtain ⟨j, h1, h2, h3, h4, h5, h6⟩ :=
        ih { snps with iout := snps.iout + 1 } (by simp only; omega) (by simp only; omega)
      simp only at h1 h2 h3 h4 h5 h6
      refine ⟨j, by omega, h2, h3, ?_, ?_, ?_⟩
      · intro i hi1 hi2
        rcases Nat.eq_or_lt_of_le hi1 with he | hl
        · rw [← he]
          exact hd
        · exact h4 i hl hi2
      · rw [snps_interp_loop_step a_x a_v snps hlt hd]
        simp only
        rw [h5]
        have hj : j - snps.iout = (j - (snps.iout + 1)) + 1 := by omega
        rw [hj, List.range'_succ, List.map_cons]
      · rw [snps_interp_loop_step a_x a_v snps hlt hd]
        simp only
        rw [h6]
    · refine ⟨snps.iout, le_refl _, hle, Or.inr (by simpa using hd), ?_, ?_, ?_⟩
      · intro i h1 h2
        omega
      · rw [snps_interp_loop_stop a_x a_v snps (fun h => hd h.2)]
        simp
      · rw [snps_interp_loop_stop a_x a_v snps (fun h => hd h.2)]

/-- The loop of `snps_interp` never changes `nout` or `aout`, and never moves
the cursor back. -/
theorem snps_interp_loop_frame (a_x a_v : K) :
    ∀ (n : Nat) (snps : SNPS K), snps.nout - snps.iout = n →
      (snps_interp_loop a_x a_v snps).1.nout = snps.nout ∧
      (snps_interp_loop a_x a_v snps).1.aout = snps.aout ∧
      snps.iout ≤ (snps_interp_loop a_x a_v snps).1.iout := by
  intro n
  induction n with
  | zero =>
    intro snps hn
    rw [snps_interp_loop_stop a_x a_v snps (by omega)]
    exact ⟨rfl, rfl, le_refl _⟩
  | succ n ih =>
    intro snps hn
    by_cases hc : snps.iout < snps.nout ∧ snps_due a_x a_v (snps.aout snps.iout) = true
    · rw [snps_interp_loop_step a_x a_v snps hc.1 hc.2]
      obtain ⟨h1, h2, h3⟩ :=
        ih { snps with iout := snps.iout + 1 } (by simp only; omega)
      simp only at h1 h2 h3 ⊢
      exact ⟨h1, h2, by omega⟩
    · rw [snps_interp_loop_stop a_x a_v snps hc]
      exact ⟨rfl, rfl, le_refl _⟩

/-- When the loop of `snps_interp` exits, its condition is false. -/
theorem snps_interp_loop_exit (a_x a_v : K) :
    ∀ (n : Nat) (snps : SNPS K), snps.nout - snps.iout = n →
      ¬ ((snps_interp_loop a_x a_v snps).1.iout < (snps_interp_loop a_x a_v snps).1.nout ∧
        snps_due a_x a_v ((snps_interp_loop a_x a_v snps).1.aout
          (snps_interp_loop a_x a_v snps).1.iout) = true) := by
  intro n
  induction n with
  | zero =>
    intro snps hn
    rw [snps_interp_loop_stop a_x a_v snps (by omega)]
    simp only
    omega
  | succ n ih =>
    intro snps hn
    by_cases hc : snps.iout < snps.nout ∧ snps_due a_x a_v (snps.aout snps.iout) = true
    · rw [snps_interp_loop_step a_x a_v snps hc.1 hc.2]
      exact ih { snps with iout := snps.iout + 1 } (by simp only; omega)
    · rw [snps_interp_loop_stop a_x a_v snps hc]
      exact hc

/-- The snapshots taken by the loop of `snps_interp` are those of the indices
from the cursor before up to the cursor after, whatever the state. -/
theorem snps_interp_loop_events (a_x a_v : K) :
    ∀ (n : Nat) (snps : SNPS K), snps.nout - snps.iout = n →
      (snps_interp_loop a_x a_v snps).2 =
        (List.range' snps.iout ((snps_interp_loop a_x a_v snps).1.iout - snps.iout)).map
          (fun i => Event.snapshot i (snps.aout i) a_x a_v) := by
  intro n
  induction n with
  | zero =>
    intro snps hn
    rw [snps_interp_loop_stop a_x a_v snps (by omega)]
    simp
  | succ n ih =>
    intro snps hn
    by_cases hc : snps.iout < snps.nout ∧ snps_due a_x a_v (snps.aout snps.iout) = true
    · have hmono := (snps_interp_loop_frame a_x a_v n
        { snps with iout := snps.iout + 1 } (by simp only; omega)).2.2
      have h := ih { snps with iout := snps.iout + 1 } (by simp only; omega)
      simp only at h hmono
      rw [snps_interp_loop_step a_x a_v snps hc.1 hc.2]
      simp only
      rw [h]
      have hj : (snps_interp_loop a_x a_v { snps with iout := snps.iout + 1 }).1.iout
          - snps.iout
          = ((snps_interp_loop a_x a_v { snps with iout := snps.iout + 1 }).1.iout
            - (snps.iout + 1)) + 1 := by omega
      rw [hj, List.range'_succ, List.map_cons]
    · rw [snps_interp_loop_stop a_x a_v snps hc]
      simp

theorem range_run_append (a b c : Nat) (hab : a ≤ b) (hbc : b ≤ c) :
    List.range' a (b - a) ++ List.range' b (c - b) = List.range' a (c - a) := by
  have hs : b = a + 1 * (b - a) := by omega
  have hlen : c - a = (c - b) + (b - a) := by omega
  rw [hlen]
  nth_rewrite 2 [hs]
  exact List.range'_append a (b - a) (c - b) 1

theorem snapshot_indices_append {T : Type} (xs ys : List (Event T)) :
    snapshot_indices (xs ++ ys) = snapshot_indices xs ++ snapshot_indices ys := by
  induction xs with
  | nil => rfl
  | cons e es ih =>
    cases e <;> simp [snapshot_indices, ih]

theorem snapshot_indices_map_snapshot {T : Type} (f : Nat → T) (a_x a_v : T)
    (l : List Nat) :
    snapshot_indices (l.map (fun i => Event.snapshot i (f i) a_x a_v)) = l := by
  induction l with
  | nil => rfl
  | cons i is ih => simp [snapshot_indices, ih]

/-- One call of `snps_interp`: the indices taken are the run from the cursor
before to the cursor after. -/
theorem snps_interp_indices (snps : SNPS K) (a_x a_v : K) :
    snapshot_indices (snps_interp snps a_x a_v).2.1 =
        List.range' snps.iout ((snps_interp snps a_x a_v).1.iout - snps.iout) ∧
      snps.iout ≤ (snps_interp snps a_x a_v).1.iout ∧
      (snps_interp snps a_x a_v).1.nout = snps.nout ∧
      (snps_interp snps a_x a_v).1.aout = snps.aout := by
  obtain ⟨h1, h2, h3⟩ := snps_interp_loop_frame a_x a_v _ snps rfl
  refine ⟨?_, h3, h1, h2⟩
  simp only [snps_interp]
  rw [snps_interp_loop_events a_x a_v _ snps rfl, snapshot_indices_map_snapshot]

/-- A sequence of calls: the indices taken are the run from the cursor before
the first call to the cursor after the last. -/
theorem snps_interp_calls_indices (calls : List (K × K)) :
    ∀ snps : SNPS K,
      snapshot_indices (snps_interp_calls calls snps).2 =
          List.range' snps.iout ((snps_interp_calls calls snps).1.iout - snps.iout) ∧
        snps.iout ≤ (snps_interp_calls calls snps).1.iout := by
  induction calls with
  | nil =>
    intro snps
    simp [snps_interp_calls, snapshot_indices]
  | cons c cs ih =>
    intro snps
    obtain ⟨h1, h2, -, -⟩ := snps_interp_indices snps c.1 c.2
    obtain ⟨h3, h4⟩ := ih (snps_interp snps c.1 c.2).1
    simp only [snps_interp_calls]
    refine ⟨?_, le_trans h2 h4⟩
    rw [snapshot_indices_append, h1, h3]
    exact range_run_append _ _ _ h2 h4

/-- C1: from a cursor inside `[0, nout]`, one call of `snps_interp` takes
snapshots for exactly the indices `iout, ..., j - 1`, in that order and each at
scale factor `aout[index]`, where `j` is the least index at or after `iout`
that equals `nout` or whose epoch satisfies neither crossing condition; on
return the cursor is `j` and the flag is `j == nout`. -/
theorem snps_interp_emits_run (snps : SNPS K) (a_x a_v : K)
    (h : snps.iout ≤ snps.nout) :
    ∃ j, snps.iout ≤ j ∧
      (j = snps.nout ∨
        ¬ ((a_x < snps.aout j ∧ snps.aout j < a_v) ∨
           (a_x ≥ snps.aout j ∧ snps.aout j ≥ a_v))) ∧
      (∀ i, snps.iout ≤ i → i < j →
        i ≠ snps.nout ∧
          ((a_x < snps.aout i ∧ snps.aout i < a_v) ∨
           (a_x ≥ snps.aout i ∧ snps.aout i ≥ a_v))) ∧
      (snps_interp snps a_x a_v).2.1 =
        (List.range' snps.iout (j - snps.iout)).map
          (fun i => Event.snapshot i (snps.aout i) a_x a_v) ∧
      (snps_interp snps a_x a_v).1 = { snps with iout := j } ∧
      (snps_interp snps a_x a_v).2.2 = decide (j = snps.nout) := by
  obtain ⟨j, h1, h2, h3, h4, h5, h6⟩ := snps_interp_loop_spec a_x a_v _ snps rfl h
  refine ⟨j, h1, ?_, ?_, ?_, ?_, ?_⟩
  · rcases h3 with h3 | h3
    · exact Or.inl h3
    · right
      rw [← snps_due_iff, h3]
      simp
  · intro i hi1 hi2
    exact ⟨by omega, (snps_due_iff _ _ _).1 (h4 i hi1 hi2)⟩
  · simpa [snps_interp] using h5
  · simpa [snps_interp] using h6
  · simp [snps_interp, h6]

/-- C1 at `aout = [0.5, 0.8]`, cursor 0, call `(0.4, 0.55)`. -/
theorem snps_interp_emits_run_witness :
    (example_snps ℚ).iout ≤ (example_snps ℚ).nout ∧
    ∃ j, (example_snps ℚ).iout ≤ j ∧
      (j = (example_snps ℚ).nout ∨
        ¬ (((2 / 5 : ℚ) < (example_snps ℚ).aout j ∧ (example_snps ℚ).aout j < 11 / 20) ∨
           ((2 / 5 : ℚ) ≥ (example_snps ℚ).aout j ∧ (example_snps ℚ).aout j ≥ 11 / 20))) ∧
      (∀ i, (example_snps ℚ).iout ≤ i → i < j →
        i ≠ (example_snps ℚ).nout ∧
          (((2 / 5 : ℚ) < (example_snps ℚ).aout i ∧ (example_snps ℚ).aout i < 11 / 20) ∨
           ((2 / 5 : ℚ) ≥ (example_snps ℚ).aout i ∧ (example_snps ℚ).aout i ≥ 11 / 20))) ∧
      (snps_interp (example_snps ℚ) (2 / 5) (11 / 20)).2.1 =
        (List.range' (example_snps ℚ).iout (j - (example_snps ℚ).iout)).map
          (fun i => Event.snapshot i ((example_snps ℚ).aout i) (2 / 5) (11 / 20)) ∧
      (snps_interp (example_snps ℚ) (2 / 5) (11 / 20)).1 = { example_snps ℚ with iout := j } ∧
      (snps_interp (example_snps ℚ) (2 / 5) (11 / 20)).2.2 = decide (j = (example_snps ℚ).nout) :=
  ⟨by decide, snps_interp_emits_run (example_snps ℚ) (2 / 5) (11 / 20) (by decide)⟩

/-- C2: the cursor is 0 after `snps_init` and after `snps_start`, so it lies in
`[0, nout]`; a call of `snps_interp` from a cursor in `[0, nout]` leaves it in
`[0, nout]` (with `nout` unchanged); and no call, from any state, moves the
cursor back. -/
theorem snps_cursor_invariant (prr : Parameters K) (snps : SNPS K) (a_x a_v : K) :
    ((snps_init prr).iout = 0 ∧ (snps_start snps).iout = 0 ∧
      (snps_start snps).nout = snps.nout ∧
      0 ≤ (snps_start (snps_init prr)).iout ∧
      (snps_start (snps_init prr)).iout ≤ (snps_start (snps_init prr)).nout) ∧
    (snps.iout ≤ snps.nout →
      0 ≤ (snps_interp snps a_x a_v).1.iout ∧
      (snps_interp snps a_x a_v).1.iout ≤ (snps_interp snps a_x a_v).1.nout) ∧
    (snps_interp snps a_x a_v).1.nout = snps.nout ∧
    snps.iout ≤ (snps_interp snps a_x a_v).1.iout := by
  obtain ⟨h1, h2, h3, h4⟩ := snps_interp_indices snps a_x a_v
  refine ⟨⟨rfl, rfl, rfl, Nat.zero_le _, Nat.zero_le _⟩, ?_, h3, h2⟩
  intro h
  obtain ⟨j, -, hj, -, -, -, h6⟩ := snps_interp_loop_spec a_x a_v _ snps rfl h
  refine ⟨Nat.zero_le _, ?_⟩
  simp only [snps_interp]
  rw [h6]
  exact hj

/-- C2 at `aout = [0.5, 0.8]`, cursor 0, call `(0.4, 0.55)`. -/
theorem snps_cursor_invariant_witness :
    (example_snps ℚ).iout ≤ (example_snps ℚ).nout ∧
    (snps_interp (example_snps ℚ) (2 / 5) (11 / 20)).1.iout ≤
      (snps_interp (example_snps ℚ) (2 / 5) (11 / 20)).1.nout ∧
    (example_snps ℚ).iout ≤ (snps_interp (example_snps ℚ) (2 / 5) (11 / 20)).1.iout :=
  ⟨by decide,
    ((snps_cursor_invariant (K := ℚ) ⟨0, fun _ => 0, fun _ => 0, 0, none⟩
      (example_snps ℚ) (2 / 5) (11 / 20)).2.1 (by decide)).2,
    (snps_cursor_invariant (K := ℚ) ⟨0, fun _ => 0, fun _ => 0, 0, none⟩
      (example_snps ℚ) (2 / 5) (11 / 20)).2.2.2⟩

/-- A second call of `snps_interp` with the same arguments takes no snapshot
and changes nothing. -/
theorem snps_interp_idem (snps : SNPS K) (a_x a_v : K) :
    snps_interp (snps_interp snps a_x a_v).1 a_x a_v =
      ((snps_interp snps a_x a_v).1, [], (snps_interp snps a_x a_v).2.2) := by
  have hexit := snps_interp_loop_exit a_x a_v _ snps rfl
  simp only [snps_interp, snps_interp_loop_stop a_x a_v _ hexit]

/-- C3: over any sequence of `snps_interp` calls on one scheduler the indices
of the snapshots taken are strictly increasing in the order taken, hence no
index is taken twice; a second call with the same `(a_x, a_v)` right after a
first takes no snapshot and leaves the scheduler as it is; and with
`aout = [0.5, 0.8]` the calls `(0.4, 0.45)`, `(0.4, 0.55)`, `(0.6, 0.55)` take
exactly one snapshot, for 0.5 in the second call, and end with `iout == 1`. -/
theorem snps_interp_calls_once (snps : SNPS K) (calls : List (K × K)) (a_x a_v : K) :
    ((snapshot_indices (snps_interp_calls calls snps).2).Pairwise (fun i j => i < j) ∧
      (snapshot_indices (snps_interp_calls calls snps).2).Nodup) ∧
    ((snps_interp (snps_interp snps a_x a_v).1 a_x a_v).2.1 = [] ∧
      (snps_interp (snps_interp snps a_x a_v).1 a_x a_v).1 = (snps_interp snps a_x a_v).1) ∧
    ((snps_interp (example_snps K) 0.4 0.45).2.1 = [] ∧
      (snps_interp (snps_interp (example_snps K) 0.4 0.45).1 0.4 0.55).2.1 =
        [Event.snapshot 0 0.5 0.4 0.55] ∧
      (snps_interp (snps_interp (snps_interp (example_snps K) 0.4 0.45).1 0.4 0.55).1
        0.6 0.55).2.1 = [] ∧
      snps_interp_calls [(0.4, 0.45), (0.4, 0.55), (0.6, 0.55)] (example_snps K) =
        ({ example_snps K with iout := 1 }, [Event.snapshot 0 0.5 0.4 0.55])) := by
  have hpw : (snapshot_indices (snps_interp_calls calls snps).2).Pairwise
      (fun i j => i < j) := by
    rw [(snps_interp_calls_indices calls snps).1]
    exact List.pairwise_lt_range' _ _
  have e1 : snps_interp (example_snps K) 0.4 0.45 = (example_snps K, [], false) := by
    simp only [snps_interp]
    rw [snps_interp_loop_stop]
    · simp [example_snps]
    · simp only [example_snps, snps_due]
      norm_num
  have e2 : snps_interp (example_snps K) 0.4 0.55 =
      ({ example_snps K with iout := 1 }, [Event.snapshot 0 0.5 0.4 0.55], false) := by
    simp only [snps_interp]
    rw [snps_interp_loop_step, snps_interp_loop_stop]
    · simp [example_snps]
    · simp only [example_snps, snps_due]
      norm_num
    · simp [example_snps]
    · simp only [example_snps, snps_due]
      norm_num
  have e3 : snps_interp { example_snps K with iout := 1 } 0.6 0.55 =
      ({ example_snps K with iout := 1 }, [], false) := by
    simp only [snps_interp]
    rw [snps_interp_loop_stop]
    · simp [example_snps]
    · simp only [example_snps, snps_due]
      norm_num
  refine ⟨⟨hpw, hpw.imp (fun h => Nat.ne_of_lt h)⟩, ?_, ?_⟩
  · rw [snps_interp_idem]
    exact ⟨rfl, rfl⟩
  · refine ⟨?_, ?_, ?_, ?_⟩
    · rw [e1]
    · rw [e1, e2]
    · rw [e1]
      simp only
      rw [e2]
      simp only
      rw [e3]
    · simp only [snps_interp_calls]
      rw [e1]
      simp only
      rw [e2]
      simp only
      rw [e3]
      simp

/-! ## Step loop lemmas -/

/-- One pass of the step loop that does not reach `a_x >= 1.0`. -/
theorem fastpm_loop_interior (env : Env K) (prr : Parameters K) (n istep : Nat)
    (snps : SNPS K) (h : (env.get_times istep).a_x < 1) :
    fastpm_loop env prr (n + 1) istep snps =
      ((fastpm_loop env prr n (istep + 1)
          (snps_interp (snps_interp snps (env.get_times istep).a_x
            (env.get_times istep).a_v).1 (env.get_times istep).a_x
            (env.get_times istep).a_v1).1).1,
        (fastpm_force_stage env prr (env.get_times istep).a_x
          ++ Event.snps_interp (env.get_times istep).a_x (env.get_times istep).a_v
            :: (snps_interp snps (env.get_times istep).a_x
                (env.get_times istep).a_v).2.1)
        ++ Event.stepping_kick (env.get_times istep).a_v (env.get_times istep).a_v1
            (env.get_times istep).a_x
          :: Event.snps_interp (env.get_times istep).a_x (env.get_times istep).a_v1
          :: (snps_interp (snps_interp snps (env.get_times istep).a_x
                (env.get_times istep).a_v).1 (env.get_times istep).a_x
                (env.get_times istep).a_v1).2.1
        ++ Event.stepping_drift (env.get_times istep).a_x (env.get_times istep).a_x1
            (env.get_times istep).a_v1
          :: (fastpm_loop env prr n (istep + 1)
              (snps_interp (snps_interp snps (env.get_times istep).a_x
                (env.get_times istep).a_v).1 (env.get_times istep).a_x
                (env.get_times istep).a_v1).1).2) := by
  rw [fastpm_loop]
  simp only [ge_iff_le, not_le.mpr h, if_false]

/-- One pass of the step loop that reaches `a_x >= 1.0`. -/
theorem fastpm_loop_terminal (env : Env K) (prr : Parameters K) (n istep : Nat)
    (snps : SNPS K) (h : 1 ≤ (env.get_times istep).a_x) :
    fastpm_loop env prr (n + 1) istep snps =
      ((snps_interp snps (env.get_times istep).a_x (env.get_times istep).a_v).1,
        fastpm_force_stage env prr (env.get_times istep).a_x
          ++ Event.snps_interp (env.get_times istep).a_x (env.get_times istep).a_v
            :: (snps_interp snps (env.get_times istep).a_x
                (env.get_times istep).a_v).2.1) := by
  rw [fastpm_loop]
  simp only [ge_iff_le, h, if_true]

/-- The first `k` passes of the step loop, when none of them reaches
`a_x >= 1.0`, followed by the remaining passes. -/
theorem fastpm_loop_split (env : Env K) (prr : Parameters K) (m : Nat) :
    ∀ (k istep : Nat) (snps : SNPS K),
      (∀ j, j < k → (env.get_times (istep + j)).a_x < 1) →
      fastpm_loop env prr (k + m) istep snps =
        ((fastpm_loop env prr m (istep + k) (fastpm_loop env prr k istep snps).1).1,
          (fastpm_loop env prr k istep snps).2 ++
            (fastpm_loop env prr m (istep + k) (fastpm_loop env prr k istep snps).1).2) := by
  intro k
  induction k with
  | zero =>
    intro istep snps _
    simp [fastpm_loop]
  | succ k ih =>
    intro istep snps h
    have h0 : (env.get_times istep).a_x < 1 := by simpa using h 0 (Nat.succ_pos k)
    have hrest : ∀ j, j < k → (env.get_times (istep + 1 + j)).a_x < 1 := by
      intro j hj
      have := h (j + 1) (by omega)
      rwa [show istep + (j + 1) = istep + 1 + j by omega] at this
    rw [show k + 1 + m = (k + m) + 1 by omega, fastpm_loop_interior env prr _ istep snps h0,
      fastpm_loop_interior env prr k istep snps h0, ih (istep + 1) _ hrest,
      show istep + 1 + k = istep + (k + 1) by omega]
    simp only [List.append_assoc, List.cons_append]

/-- A pass of the step loop, when there is one, starts with the wrap. -/
theorem fastpm_loop_head (env : Env K) (prr : Parameters K) (n istep : Nat)
    (snps : SNPS K) :
    (fastpm_loop env prr n istep snps).2 = [] ∨
      (fastpm_loop env prr n istep snps).2.head? = some Event.store_wrap := by
  cases n with
  | zero => exact Or.inl rfl
  | succ n =>
    right
    by_cases h : (env.get_times istep).a_x < 1
    · rw [fastpm_loop_interior env prr n istep snps h]
      simp [fastpm_force_stage]
    · rw [fastpm_loop_terminal env prr n istep snps (not_lt.mp h)]
      simp [fastpm_force_stage]

/-- C5: when step `k` is the first step of the schedule with `a_x >= 1.0`
(`a_x == 1.0` included), the trace of `fastpm` is the trace of the `k` earlier
steps followed by, for step `k`: wrap, decompose, the power-spectrum set-up,
`do_pm` if the PM bit of `force_mode` is set, the power-spectrum output and
release, the check `snps_interp(a_x, a_v)` with its snapshots, and then
nothing: no kick, no second check, no drift, no later step. -/
theorem fastpm_terminal_step (env : Env K) (prr : Parameters K) (k : Nat)
    (hk : k < env.nsteps)
    (hbefore : ∀ j, j < k → (env.get_times j).a_x < 1)
    (hterm : (env.get_times k).a_x ≥ 1) :
    (fastpm env prr).2 =
      ((fastpm_start prr).2 ++ (fastpm_loop env prr k 0 (fastpm_start prr).1).2)
      ++ ([Event.store_wrap, Event.store_decompose,
            Event.power_spectrum_init
              (Int.tdiv ((env.vpm_find (env.get_times k).a_x).pm.Nmesh 0) 2).toNat]
          ++ (if prr.force_mode &&& env.FORCE_MODE_PM ≠ 0 then [Event.do_pm] else [])
          ++ (if prr.measure_power_spectrum_filename.isSome then
                (if env.ThisTask = 0 then
                  [Event.write_power_spectrum (env.get_times k).a_x] else [])
              else [])
          ++ [Event.power_spectrum_destroy,
              Event.snps_interp (env.get_times k).a_x (env.get_times k).a_v]
          ++ (snps_interp (fastpm_loop env prr k 0 (fastpm_start prr).1).1
                (env.get_times k).a_x (env.get_times k).a_v).2.1) ∧
    (fastpm env prr).1 =
      (snps_interp (fastpm_loop env prr k 0 (fastpm_start prr).1).1
        (env.get_times k).a_x (env.get_times k).a_v).1 := by
  have hn : env.nsteps = k + ((env.nsteps - (k + 1)) + 1) := by omega
  have hsplit := fastpm_loop_split env prr ((env.nsteps - (k + 1)) + 1) k 0
    (fastpm_start prr).1 (by simpa using hbefore)
  rw [← hn, Nat.zero_add,
    fastpm_loop_terminal env prr _ k _ hterm] at hsplit
  simp only [fastpm, hsplit, fastpm_force_stage, List.append_assoc, List.cons_append,
    List.nil_append, List.singleton_append, and_self]

/-- C6: when step `k` and all steps before it have `a_x < 1.0` (whatever
`a_x1` is), the trace of `fastpm` is the trace of the `k` earlier steps, then
for step `k`, in this order: wrap, decompose, the power-spectrum set-up,
`do_pm` exactly if the PM bit of `force_mode` is set, the power-spectrum output
and release, the check `snps_interp(a_x, a_v)` with its snapshots, the kick
`a_v -> a_v1` at `a_x`, the check `snps_interp(a_x, a_v1)` with its snapshots,
the drift `a_x -> a_x1` at `a_v1`; what follows the drift is the trace of the
later steps, which is empty or starts with the wrap of step `k + 1`. -/
theorem fastpm_interior_step (env : Env K) (prr : Parameters K) (k : Nat)
    (hk : k < env.nsteps)
    (hint : ∀ j, j ≤ k → (env.get_times j).a_x < 1) :
    (fastpm env prr).2 =
      ((fastpm_start prr).2 ++ (fastpm_loop env prr k 0 (fastpm_start prr).1).2)
      ++ ([Event.store_wrap, Event.store_decompose,
            Event.power_spectrum_init
              (Int.tdiv ((env.vpm_find (env.get_times k).a_x).pm.Nmesh 0) 2).toNat]
          ++ (if prr.force_mode &&& env.FORCE_MODE_PM ≠ 0 then [Event.do_pm] else [])
          ++ (if prr.measure_power_spectrum_filename.isSome then
                (if env.ThisTask = 0 then
                  [Event.write_power_spectrum (env.get_times k).a_x] else [])
              else [])
          ++ [Event.power_spectrum_destroy,
              Event.snps_interp (env.get_times k).a_x (env.get_times k).a_v]
          ++ (snps_interp (fastpm_loop env prr k 0 (fastpm_start prr).1).1
                (env.get_times k).a_x (env.get_times k).a_v).2.1
          ++ [Event.stepping_kick (env.get_times k).a_v (env.get_times k).a_v1
                (env.get_times k).a_x,
              Event.snps_interp (env.get_times k).a_x (env.get_times k).a_v1]
          ++ (snps_interp
                (snps_interp (fastpm_loop env prr k 0 (fastpm_start prr).1).1
                  (env.get_times k).a_x (env.get_times k).a_v).1
                (env.get_times k).a_x (env.get_times k).a_v1).2.1
          ++ [Event.stepping_drift (env.get_times k).a_x (env.get_times k).a_x1
                (env.get_times k).a_v1])
      ++ (fastpm_loop env prr (env.nsteps - (k + 1)) (k + 1)
            (snps_interp
              (snps_interp (fastpm_loop env prr k 0 (fastpm_start prr).1).1
                (env.get_times k).a_x (env.get_times k).a_v).1
              (env.get_times k).a_x (env.get_times k).a_v1).1).2 ∧
    ((fastpm_loop env prr (env.nsteps - (k + 1)) (k + 1)
            (snps_interp
              (snps_interp (fastpm_loop env prr k 0 (fastpm_start prr).1).1
                (env.get_times k).a_x (env.get_times k).a_v).1
              (env.get_times k).a_x (env.get_times k).a_v1).1).2 = [] ∨
      (fastpm_loop env prr (env.nsteps - (k + 1)) (k + 1)
            (snps_interp
              (snps_interp (fastpm_loop env prr k 0 (fastpm_start prr).1).1
                (env.get_times k).a_x (env.get_times k).a_v).1
              (env.get_times k).a_x (env.get_times k).a_v1).1).2.head?
        = some Event.store_wrap) := by
  have hn : env.nsteps = k + ((env.nsteps - (k + 1)) + 1) := by omega
  have hsplit := fastpm_loop_split env prr ((env.nsteps - (k + 1)) + 1) k 0
    (fastpm_start prr).1 (by
      intro j hj
      simpa using hint j (le_of_lt hj))
  rw [← hn, Nat.zero_add,
    fastpm_loop_interior env prr _ k _ (hint k (le_refl k))] at hsplit
  refine ⟨?_, fastpm_loop_head env prr _ _ _⟩
  simp only [fastpm, hsplit, fastpm_force_stage, List.append_assoc, List.cons_append,
    List.nil_append, List.singleton_append]

theorem example_env_interior (j : Nat) (hj : j < 2) :
    ((example_env ℚ).get_times j).a_x < 1 := by
  interval_cases j <;> norm_num [example_env]

theorem example_env_terminal : ((example_env ℚ).get_times 2).a_x ≥ 1 := by
  norm_num [example_env]

/-- C5 on the three-step example schedule, whose third step has `a_x = 1`:
the run ends with the scheduler left by the check before the kick of that
step. -/
theorem fastpm_terminal_step_witness :
    (2 < (example_env ℚ).nsteps ∧ ((example_env ℚ).get_times 2).a_x ≥ 1) ∧
    (fastpm (example_env ℚ) (example_prr ℚ)).1 =
      (snps_interp
        (fastpm_loop (example_env ℚ) (example_prr ℚ) 2 0 (fastpm_start (example_prr ℚ)).1).1
        ((example_env ℚ).get_times 2).a_x ((example_env ℚ).get_times 2).a_v).1 :=
  ⟨⟨by decide, example_env_terminal⟩,
    (fastpm_terminal_step (example_env ℚ) (example_prr ℚ) 2 (by decide)
      example_env_interior example_env_terminal).2⟩

/-- C6 on the three-step example schedule, at its second step (`a_x = 0.7`,
`a_x1 = 1`): what follows the drift of that step is empty or starts with a
wrap. -/
theorem fastpm_interior_step_witness :
    (1 < (example_env ℚ).nsteps ∧ ((example_env ℚ).get_times 1).a_x < 1) ∧
    ((fastpm_loop (example_env ℚ) (example_prr ℚ) ((example_env ℚ).nsteps - (1 + 1)) (1 + 1)
        (snps_interp
          (snps_interp
            (fastpm_loop (example_env ℚ) (example_prr ℚ) 1 0 (fastpm_start (example_prr ℚ)).1).1
            ((example_env ℚ).get_times 1).a_x ((example_env ℚ).get_times 1).a_v).1
          ((example_env ℚ).get_times 1).a_x ((example_env ℚ).get_times 1).a_v1).1).2 = [] ∨
      (fastpm_loop (example_env ℚ) (example_prr ℚ) ((example_env ℚ).nsteps - (1 + 1)) (1 + 1)
        (snps_interp
          (snps_interp
            (fastpm_loop (example_env ℚ) (example_prr ℚ) 1 0 (fastpm_start (example_prr ℚ)).1).1
            ((example_env ℚ).get_times 1).a_x ((example_env ℚ).get_times 1).a_v).1
          ((example_env ℚ).get_times 1).a_x ((example_env ℚ).get_times 1).a_v1).1).2.head?
        = some Event.store_wrap) :=
  ⟨⟨by decide, example_env_interior 1 (by decide)⟩,
    (fastpm_interior_step (example_env ℚ) (example_prr ℚ) 1 (by decide)
      (fun j hj => example_env_interior j (by omega))).2⟩

/-! ## No epoch is missed -/

/-- A check with `a_v <= a_x` (before a kick) on a non-decreasing schedule:
if every epoch below `a_v` is already taken and every taken epoch is at most
`a_x`, then after the check the taken epochs are exactly those at most
`a_x`. -/
theorem snps_interp_before_kick (N : Nat) (A : Nat → K) (c : Nat) (a_x a_v : K)
    (hmono : ∀ i j, i ≤ j → j < N → A i ≤ A j) (hc : c ≤ N) (hva : a_v ≤ a_x)
    (hentry : ∀ i, i < N → (A i < a_v → i < c) ∧ (i < c → A i ≤ a_x)) :
    ∃ c', (snps_interp ⟨N, A, c⟩ a_x a_v).1 = ⟨N, A, c'⟩ ∧ c' ≤ N ∧ c ≤ c' ∧
      ∀ i, i < N → (i < c' ↔ A i ≤ a_x) := by
  obtain ⟨j, h1, h2, h3, h4, -, h6⟩ :=
    snps_interp_loop_spec a_x a_v _ (⟨N, A, c⟩ : SNPS K) rfl hc
  simp only at h1 h2 h3 h4 h6
  refine ⟨j, by simpa [snps_interp] using h6, h2, h1, ?_⟩
  intro i hi
  constructor
  · intro hij
    by_cases hic : i < c
    · exact (hentry i hi).2 hic
    · have hd := (snps_due_iff _ _ _).1 (h4 i (not_lt.mp hic) hij)
      rcases hd with ⟨hd1, hd2⟩ | ⟨hd1, _⟩
      · exact absurd (lt_of_lt_of_le (lt_trans hd1 hd2) hva) (lt_irrefl _)
      · exact hd1
  · intro hA
    by_contra hij
    have hji : j ≤ i := not_lt.mp hij
    have hjN : j < N := lt_of_le_of_lt hji hi
    rcases h3 with h3 | h3
    · omega
    · have hnd : ¬ ((a_x < A j ∧ A j < a_v) ∨ (a_x ≥ A j ∧ A j ≥ a_v)) := by
        rw [← snps_due_iff, h3]
        simp
      have hAj : A j ≤ a_x := le_trans (hmono j i hji hi) hA
      have hlt : A j < a_v := by
        by_contra hge
        exact hnd (Or.inr ⟨hAj, not_lt.mp hge⟩)
      have := (hentry j hjN).1 hlt
      omega

/-- A check with `a_x < a_v1` (after a kick) on a non-decreasing schedule: if
the taken epochs are exactly those at most `a_x`, then after the check they are
exactly those below `a_v1`. -/
theorem snps_interp_after_kick (N : Nat) (A : Nat → K) (c : Nat) (a_x a_v1 : K)
    (hmono : ∀ i j, i ≤ j → j < N → A i ≤ A j) (hc : c ≤ N) (hxv : a_x < a_v1)
    (hentry : ∀ i, i < N → (i < c ↔ A i ≤ a_x)) :
    ∃ c', (snps_interp ⟨N, A, c⟩ a_x a_v1).1 = ⟨N, A, c'⟩ ∧ c' ≤ N ∧ c ≤ c' ∧
      ∀ i, i < N → (i < c' ↔ A i < a_v1) := by
  obtain ⟨j, h1, h2, h3, h4, -, h6⟩ :=
    snps_interp_loop_spec a_x a_v1 _ (⟨N, A, c⟩ : SNPS K) rfl hc
  simp only at h1 h2 h3 h4 h6
  refine ⟨j, by simpa [snps_interp] using h6, h2, h1, ?_⟩
  intro i hi
  constructor
  · intro hij
    by_cases hic : i < c
    · exact lt_of_le_of_lt ((hentry i hi).1 hic) hxv
    · have hd := (snps_due_iff _ _ _).1 (h4 i (not_lt.mp hic) hij)
      rcases hd with ⟨_, hd2⟩ | ⟨hd1, hd2⟩
      · exact hd2
      · exact absurd (lt_of_lt_of_le (lt_of_le_of_lt hd1 hxv) hd2) (lt_irrefl _)
  · intro hA
    by_contra hij
    have hji : j ≤ i := not_lt.mp hij
    have hjN : j < N := lt_of_le_of_lt hji hi
    rcases h3 with h3 | h3
    · omega
    · have hnd : ¬ ((a_x < A j ∧ A j < a_v1) ∨ (a_x ≥ A j ∧ A j ≥ a_v1)) := by
        rw [← snps_due_iff, h3]
        simp
      have hAj : A j < a_v1 := lt_of_le_of_lt (hmono j i hji hi) hA
      have hle : A j ≤ a_x := by
        by_contra hgt
        exact hnd (Or.inl ⟨not_le.mp hgt, hAj⟩)
      have := (hentry j hjN).2 hle
      omega

theorem snapshot_indices_check {T : Type} (a b : T) (es : List (Event T)) :
    snapshot_indices (Event.snps_interp a b :: es) = snapshot_indices es := rfl

theorem snapshot_indices_kick {T : Type} (a b c : T) (es : List (Event T)) :
    snapshot_indices (Event.stepping_kick a b c :: es) = snapshot_indices es := rfl

theorem snapshot_indices_drift {T : Type} (a b c : T) (es : List (Event T)) :
    snapshot_indices (Event.stepping_drift a b c :: es) = snapshot_indices es := rfl

/-- The snapshot indices in the trace of the step loop are the run from the
cursor before to the cursor after. -/
theorem fastpm_loop_indices (env : Env K) (prr : Parameters K) :
    ∀ (n istep : Nat) (snps : SNPS K),
      snapshot_indices (fastpm_loop env prr n istep snps).2 =
          List.range' snps.iout ((fastpm_loop env prr n istep snps).1.iout - snps.iout) ∧
        snps.iout ≤ (fastpm_loop env prr n istep snps).1.iout ∧
        (fastpm_loop env prr n istep snps).1.nout = snps.nout := by
  have hstage : ∀ a : K, snapshot_indices (fastpm_force_stage env prr a) = [] := by
    intro a
    simp only [fastpm_force_stage]
    split_ifs <;> simp [snapshot_indices]
  intro n
  induction n with
  | zero =>
    intro istep snps
    simp [fastpm_loop, snapshot_indices]
  | succ n ih =>
    intro istep snps
    obtain ⟨p1, p2, p3, -⟩ := snps_interp_indices snps (env.get_times istep).a_x
      (env.get_times istep).a_v
    by_cases h : (env.get_times istep).a_x < 1
    · obtain ⟨q1, q2, q3, -⟩ := snps_interp_indices
        (snps_interp snps (env.get_times istep).a_x (env.get_times istep).a_v).1
        (env.get_times istep).a_x (env.get_times istep).a_v1
      obtain ⟨r1, r2, r3⟩ := ih (istep + 1) (snps_interp
        (snps_interp snps (env.get_times istep).a_x (env.get_times istep).a_v).1
        (env.get_times istep).a_x (env.get_times istep).a_v1).1
      rw [fastpm_loop_interior env prr n istep snps h]
      refine ⟨?_, le_trans p2 (le_trans q2 r2), by rw [r3, q3, p3]⟩
      simp only [snapshot_indices_append, snapshot_indices_check, snapshot_indices_kick,
        snapshot_indices_drift, hstage, List.nil_append, p1, q1, r1]
      rw [range_run_append _ _ _ p2 q2, range_run_append _ _ _ (le_trans p2 q2) r2]
    · rw [fastpm_loop_terminal env prr n istep snps (not_lt.mp h)]
      refine ⟨?_, p2, p3⟩
      simp only [snapshot_indices_append, snapshot_indices_check, hstage,
        List.nil_append, p1]

/-- Steps `istep, ..., istep + n - 1` of a chained schedule, none of them
reaching `a_x >= 1.0`: if at entry every epoch below `a_v` is taken and every
taken epoch is at most `a_x`, the same holds at entry of step `istep + n`. -/
theorem fastpm_loop_entry (env : Env K) (prr : Parameters K) (N : Nat) (A : Nat → K)
    (L : Nat) (hmono : ∀ i j, i ≤ j → j < N → A i ≤ A j)
    (hint : ∀ j, j < L → (env.get_times j).a_x < 1)
    (hva : ∀ j, j < L → (env.get_times j).a_v ≤ (env.get_times j).a_x)
    (hord : ∀ j, j < L → (env.get_times j).a_x < (env.get_times j).a_v1 ∧
      (env.get_times j).a_v1 ≤ (env.get_times j).a_x1)
    (hchain : ∀ j, j < L → (env.get_times (j + 1)).a_x = (env.get_times j).a_x1 ∧
      (env.get_times (j + 1)).a_v = (env.get_times j).a_v1) :
    ∀ (n istep c : Nat), istep + n ≤ L → c ≤ N →
      (∀ i, i < N → (A i < (env.get_times istep).a_v → i < c) ∧
        (i < c → A i ≤ (env.get_times istep).a_x)) →
      ∃ c', (fastpm_loop env prr n istep ⟨N, A, c⟩).1 = ⟨N, A, c'⟩ ∧ c' ≤ N ∧
        ∀ i, i < N → (A i < (env.get_times (istep + n)).a_v → i < c') ∧
          (i < c' → A i ≤ (env.get_times (istep + n)).a_x) := by
  intro n
  induction n with
  | zero =>
    intro istep c _ hc hentry
    exact ⟨c, rfl, hc, hentry⟩
  | succ n ih =>
    intro istep c hle hc hentry
    have hlt : istep < L := by omega
    obtain ⟨c1, e1, hc1, -, p1⟩ := snps_interp_before_kick N A c
      (env.get_times istep).a_x (env.get_times istep).a_v hmono hc (hva istep hlt) hentry
    obtain ⟨c2, e2, hc2, -, p2⟩ := snps_interp_after_kick N A c1
      (env.get_times istep).a_x (env.get_times istep).a_v1 hmono hc1 (hord istep hlt).1 p1
    have hentry2 : ∀ i, i < N → (A i < (env.get_times (istep + 1)).a_v → i < c2) ∧
        (i < c2 → A i ≤ (env.get_times (istep + 1)).a_x) := by
      intro i hi
      rw [(hchain istep hlt).1, (hchain istep hlt).2]
      exact ⟨(p2 i hi).2, fun h => le_trans (le_of_lt ((p2 i hi).1 h)) (hord istep hlt).2⟩
    obtain ⟨c3, e3, hc3, p3⟩ := ih (istep + 1) c2 (by omega) hc2 hentry2
    refine ⟨c3, ?_, hc3, ?_⟩
    · rw [fastpm_loop_interior env prr n istep _ (hint istep hlt)]
      simp only
      rw [e1, e2, e3]
    · rw [show istep + (n + 1) = istep + 1 + n by omega]
      exact p3

/-- C4: on a schedule whose executed steps are `0, ..., L` (step `L` has
`a_x >= 1.0` or is the last of the schedule, the steps before it have
`a_x < 1.0`), with `a_v <= a_x` in each executed step, `a_x < a_v1 <= a_x1` and
chaining (`next a_x = a_x1`, `next a_v = a_v1`) in each step before `L`, the
first step at `a_x = a_v = a_start = time_step[0]`, and strictly increasing
epochs `aout` all inside `[a_start, a_x of step L]`: the checks performed by
`fastpm` take the snapshots `0, 1, ..., nout - 1`, each exactly once and in this
order, and `iout == nout` when the loop exits. -/
theorem fastpm_no_epoch_missed (env : Env K) (prr : Parameters K) (a_start : K) (L : Nat)
    (hL : L < env.nsteps)
    (hint : ∀ j, j < L → (env.get_times j).a_x < 1)
    (hlast : (env.get_times L).a_x ≥ 1 ∨ L + 1 = env.nsteps)
    (hstart : prr.time_step 0 = a_start ∧ (env.get_times 0).a_x = a_start ∧
      (env.get_times 0).a_v = a_start)
    (hva : ∀ j, j ≤ L → (env.get_times j).a_v ≤ (env.get_times j).a_x)
    (hord : ∀ j, j < L → (env.get_times j).a_x < (env.get_times j).a_v1 ∧
      (env.get_times j).a_v1 ≤ (env.get_times j).a_x1)
    (hchain : ∀ j, j < L → (env.get_times (j + 1)).a_x = (env.get_times j).a_x1 ∧
      (env.get_times (j + 1)).a_v = (env.get_times j).a_v1)
    (hmono : ∀ i j, i < j → j < prr.n_zout →
      (snps_init prr).aout i < (snps_init prr).aout j)
    (hrange : ∀ i, i < prr.n_zout → a_start ≤ (snps_init prr).aout i ∧
      (snps_init prr).aout i ≤ (env.get_times L).a_x) :
    snapshot_indices (fastpm env prr).2 = List.range prr.n_zout ∧
      (fastpm env prr).1.iout = (fastpm env prr).1.nout ∧
      (fastpm env prr).1.nout = prr.n_zout := by
  obtain ⟨ht0, hx0, hv0⟩ := hstart
  have hmono' : ∀ i j, i ≤ j → j < prr.n_zout →
      (snps_init prr).aout i ≤ (snps_init prr).aout j := by
    intro i j hij hj
    rcases Nat.eq_or_lt_of_le hij with he | hl
    · rw [he]
    · exact le_of_lt (hmono i j hl hj)
  -- the check before the loop
  obtain ⟨c0, e0, hc0, -, p0⟩ := snps_interp_before_kick prr.n_zout (snps_init prr).aout 0
    a_start a_start hmono' (Nat.zero_le _) (le_refl _) (by
      intro i hi
      exact ⟨fun h => absurd (hrange i hi).1 (not_le.mpr h), fun h => absurd h (Nat.not_lt_zero i)⟩)
  have hs0 : (fastpm_start prr).1 = ⟨prr.n_zout, (snps_init prr).aout, c0⟩ := by
    simp only [fastpm_start, ht0]
    exact e0
  -- the steps before `L`
  obtain ⟨cL, eL, hcL, pL⟩ := fastpm_loop_entry env prr prr.n_zout (snps_init prr).aout L
    hmono' hint (fun j hj => hva j (le_of_lt hj)) hord hchain L 0 c0 (by omega) hc0 (by
      intro i hi
      rw [hx0, hv0]
      exact ⟨fun h => (p0 i hi).2 (le_of_lt h), (p0 i hi).1⟩)
  rw [Nat.zero_add] at pL
  -- the check before the kick of step `L`
  obtain ⟨c1, e1, hc1, -, p1⟩ := snps_interp_before_kick prr.n_zout (snps_init prr).aout cL
    (env.get_times L).a_x (env.get_times L).a_v hmono' hcL (hva L (le_refl L)) pL
  have hc1N : c1 = prr.n_zout := by
    by_contra hne
    have hlt : c1 < prr.n_zout := lt_of_le_of_ne hc1 hne
    have := (p1 c1 hlt).2 (hrange c1 hlt).2
    omega
  rw [hc1N] at e1
  have hn : env.nsteps = L + ((env.nsteps - (L + 1)) + 1) := by omega
  have hsplit := fastpm_loop_split env prr ((env.nsteps - (L + 1)) + 1) L 0
    (fastpm_start prr).1 (by simpa using hint)
  rw [← hn, Nat.zero_add, hs0, eL] at hsplit
  have hfinal : (fastpm env prr).1 = ⟨prr.n_zout, (snps_init prr).aout, prr.n_zout⟩ := by
    simp only [fastpm, hs0, hsplit]
    by_cases hterm : (env.get_times L).a_x < 1
    · have hz : env.nsteps - (L + 1) = 0 := by
        rcases hlast with h | h
        · exact absurd hterm (not_lt.mpr h)
        · omega
      rw [hz, fastpm_loop_interior env prr 0 L _ hterm]
      simp only [fastpm_loop]
      rw [e1]
      simp only [snps_interp]
      rw [snps_interp_loop_stop _ _ _ (by simp)]
    · rw [fastpm_loop_terminal env prr _ L _ (not_lt.mp hterm)]
      exact e1
  have hidx := fastpm_loop_indices env prr env.nsteps 0 (fastpm_start prr).1
  have hidx0 := snps_interp_indices (snps_start (snps_init prr)) (prr.time_step 0)
    (prr.time_step 0)
  have hfin2 : (fastpm_loop env prr env.nsteps 0 (fastpm_start prr).1).1.iout
      = prr.n_zout := by
    have := congrArg SNPS.iout hfinal
    simpa [fastpm] using this
  refine ⟨?_, by rw [hfinal], by rw [hfinal]⟩
  simp only [fastpm, snapshot_indices_append]
  rw [hidx.1, hfin2]
  simp only [fastpm_start, snapshot_indices_check]
  rw [hidx0.1]
  have hstart_iout : (snps_start (snps_init prr)).iout = 0 := rfl
  have hle1 : (snps_start (snps_init prr)).iout ≤
      (snps_interp (snps_start (snps_init prr)) (prr.time_step 0) (prr.time_step 0)).1.iout :=
    hidx0.2.1
  have hle2 : (snps_interp (snps_start (snps_init prr)) (prr.time_step 0)
      (prr.time_step 0)).1.iout ≤ prr.n_zout := by
    have := hidx.2.1
    rw [hfin2] at this
    simpa [fastpm_start] using this
  rw [range_run_append _ _ _ hle1 hle2, hstart_iout, Nat.sub_zero, List.range_eq_range']

/-- C4 on the three-step example schedule with `aout = [0.5, 0.8]`: both
snapshots are taken, in order, and the run ends with `iout = 2`. -/
theorem fastpm_no_epoch_missed_witness :
    snapshot_indices (fastpm (example_env ℚ) (example_prr ℚ)).2 = [0, 1] ∧
      (fastpm (example_env ℚ) (example_prr ℚ)).1.iout = 2 := by
  have h := fastpm_no_epoch_missed (example_env ℚ) (example_prr ℚ) (2 / 5) 2
    (by decide) example_env_interior (Or.inl example_env_terminal)
    (by norm_num [example_env, example_prr])
    (by
      intro j hj
      interval_cases j <;> norm_num [example_env])
    (by
      intro j hj
      interval_cases j <;> norm_num [example_env])
    (by
      intro j hj
      interval_cases j <;> norm_num [example_env])
    (by
      intro i j hij hj
      have hj2 : j < 2 := hj
      interval_cases j
      · omega
      · interval_cases i
        norm_num [example_prr, snps_init])
    (by
      intro i hi
      have hi2 : i < 2 := hi
      interval_cases i <;> norm_num [example_prr, example_env, snps_init])
  refine ⟨h.1, ?_⟩
  rw [h.2.1, h.2.2]
  rfl

/-! ## Mesh kernel lemmas -/

theorem pm_omp_loop_step {S : Type} (inc : Index3 → Index3) (body : Int → Index3 → S → S)
    (end_ ind : Int) (i : Index3) (s : S) (h : ind < end_) :
    pm_omp_loop inc body end_ ind i s =
      pm_omp_loop inc body end_ (ind + 2) (inc i) (body ind i s) := by
  rw [pm_omp_loop]
  simp only [h, if_true]

theorem pm_omp_loop_stop {S : Type} (inc : Index3 → Index3) (body : Int → Index3 → S → S)
    (end_ ind : Int) (i : Index3) (s : S) (h : ¬ ind < end_) :
    pm_omp_loop inc body end_ ind i s = s := by
  rw [pm_omp_loop]
  simp only [h, if_false]

theorem pm_loop_modes_step (inc : Index3 → Index3) (end_ ind : Int) (i : Index3)
    (h : ind < end_) :
    pm_loop_modes inc end_ ind i = (ind, i) :: pm_loop_modes inc end_ (ind + 2) (inc i) := by
  rw [pm_loop_modes]
  simp only [h, if_true]

theorem pm_loop_modes_stop (inc : Index3 → Index3) (end_ ind : Int) (i : Index3)
    (h : ¬ ind < end_) :
    pm_loop_modes inc end_ ind i = [] := by
  rw [pm_loop_modes]
  simp only [h, if_false]

/-- The kernel loop is the left fold of its body over the local modes. -/
theorem pm_omp_loop_eq_foldl {S : Type} (inc : Index3 → Index3)
    (body : Int → Index3 → S → S) (end_ : Int) :
    ∀ (n : Nat) (ind : Int) (i : Index3) (s : S), (end_ - ind).toNat = n →
      pm_omp_loop inc body end_ ind i s =
        (pm_loop_modes inc end_ ind i).foldl (fun s m => body m.1 m.2 s) s := by
  intro n
  induction n using Nat.strong_induction_on with
  | _ n ih =>
    intro ind i s hn
    by_cases h : ind < end_
    · rw [pm_omp_loop_step inc body end_ ind i s h, pm_loop_modes_step inc end_ ind i h,
        List.foldl_cons]
      exact ih (end_ - (ind + 2)).toNat (by omega) (ind + 2) (inc i) _ rfl
    · rw [pm_omp_loop_stop inc body end_ ind i s h, pm_loop_modes_stop inc end_ ind i h]
      rfl

/-- Every mode visited from `ind` on is stored at `ind` or above. -/
theorem pm_loop_modes_ge (inc : Index3 → Index3) (end_ : Int) :
    ∀ (n : Nat) (ind : Int) (i : Index3), (end_ - ind).toNat = n →
      ∀ m ∈ pm_loop_modes inc end_ ind i, ind ≤ m.1 := by
  intro n
  induction n using Nat.strong_induction_on with
  | _ n ih =>
    intro ind i hn m hm
    by_cases h : ind < end_
    · rw [pm_loop_modes_step inc end_ ind i h] at hm
      rcases List.mem_cons.1 hm with he | hm2
      · rw [he]
      · have := ih (end_ - (ind + 2)).toNat (by omega) (ind + 2) (inc i) rfl m hm2
        omega
    · rw [pm_loop_modes_stop inc end_ ind i h] at hm
      exact absurd hm (List.not_mem_nil m)

/-- The body of `apply_force_kernel` writes the two doubles of its mode and
nothing else. -/
theorem apply_force_kernel_body_other (pm : PM K) (dir : Fin 3) (ind : Int) (i : Index3)
    (w : Int → K) (a : Int) (h1 : a ≠ ind) (h2 : a ≠ ind + 1) :
    apply_force_kernel_body pm dir ind i w a = w a := by
  simp only [apply_force_kernel_body]
  split_ifs <;> simp [Function.update, h1, h2]

/-- The loop of `apply_force_kernel`: below the first mode nothing is written,
and at each visited mode the workspace holds what the body wrote there. -/
theorem apply_force_kernel_loop_spec (pm : PM K) (dir : Fin 3) (inc : Index3 → Index3)
    (end_ : Int) :
    ∀ (n : Nat) (ind : Int) (i : Index3) (w : Int → K), (end_ - ind).toNat = n →
      (∀ a, a < ind →
        pm_omp_loop inc (apply_force_kernel_body pm dir) end_ ind i w a = w a) ∧
      (∀ m ∈ pm_loop_modes inc end_ ind i, ∀ w0 : Int → K,
        pm_omp_loop inc (apply_force_kernel_body pm dir) end_ ind i w m.1 =
          apply_force_kernel_body pm dir m.1 m.2 w0 m.1 ∧
        pm_omp_loop inc (apply_force_kernel_body pm dir) end_ ind i w (m.1 + 1) =
          apply_force_kernel_body pm dir m.1 m.2 w0 (m.1 + 1)) := by
  intro n
  induction n using Nat.strong_induction_on with
  | _ n ih =>
    intro ind i w hn
    by_cases h : ind < end_
    · obtain ⟨ih1, ih2⟩ := ih (end_ - (ind + 2)).toNat (by omega) (ind + 2) (inc i)
        (apply_force_kernel_body pm dir ind i w) rfl
      rw [pm_omp_loop_step inc _ end_ ind i w h, pm_loop_modes_step inc end_ ind i h]
      constructor
      · intro a ha
        rw [ih1 a (by omega)]
        exact apply_force_kernel_body_other pm dir ind i w a (by omega) (by omega)
      · intro m hm w0
        rcases List.mem_cons.1 hm with he | hm2
        · rw [he]
          simp only
          rw [ih1 ind (by omega), ih1 (ind + 1) (by omega)]
          simp only [apply_force_kernel_body]
          split_ifs <;> simp [Function.update]
        · exact ih2 m hm2 w0
    · rw [pm_omp_loop_stop inc _ end_ ind i w h, pm_loop_modes_stop inc end_ ind i h]
      exact ⟨fun a _ => rfl, fun m hm => absurd hm (List.not_mem_nil m)⟩

theorem example_pm_modes (T : Type) [LinearOrderedField T] :
    pm_modes (example_pm T) =
      [(0, fun _ => 0), (2, Function.update (fun _ => 0) 2 (0 + 1))] := by
  simp only [pm_modes, example_pm]
  rw [pm_loop_modes_step _ _ _ _ (by decide), pm_loop_modes_step _ _ _ _ (by decide),
    pm_loop_modes_stop _ _ _ _ (by decide)]
  rfl

/-- C7: for every axis `dir` and every local mode `(ind, i)` whose per-axis
`kk_finite` factors sum to a value `<= 0` (the origin mode is one when its
factors are zero), `apply_force_kernel` leaves exactly `(0, 0)` in the
workspace at that mode, whatever the density in the canvas and the previous
workspace. -/
theorem apply_force_kernel_zero (pm : PM K) (dir : Fin 3) (ind : Int) (i : Index3)
    (hm : (ind, i) ∈ pm_modes pm)
    (hk : (pm.fac 0 (i 0 + pm.ORegion_start 0)).kk_finite
        + (pm.fac 1 (i 1 + pm.ORegion_start 1)).kk_finite
        + (pm.fac 2 (i 2 + pm.ORegion_start 2)).kk_finite ≤ 0) :
    (apply_force_kernel pm dir).workspace ind = 0 ∧
      (apply_force_kernel pm dir).workspace (ind + 1) = 0 := by
  obtain ⟨h1, h2⟩ := (apply_force_kernel_loop_spec pm dir pm.inc_o_index pm.loop_end _
    pm.loop_start pm.loop_i pm.workspace rfl).2 (ind, i) hm pm.workspace
  have hk' : ¬ mode_kk_finite pm i > 0 := by
    simp only [mode_kk_finite, zero_add]
    exact not_lt.mpr hk
  simp only [apply_force_kernel]
  simp only at h1 h2
  rw [h1, h2]
  simp [apply_force_kernel_body, hk', Function.update]

/-- C7 on the example mesh, at its origin mode and axis 2. -/
theorem apply_force_kernel_zero_witness :
    (apply_force_kernel (example_pm ℚ) 2).workspace 0 = 0 ∧
      (apply_force_kernel (example_pm ℚ) 2).workspace (0 + 1) = 0 :=
  apply_force_kernel_zero (example_pm ℚ) 2 0 (fun _ => 0)
    (by rw [example_pm_modes]; exact List.mem_cons_self _ _)
    (by norm_num [example_pm])

/-- C8: for every axis `dir` and every local mode `(ind, i)` whose per-axis
`kk_finite` factors sum to `kk_finite > 0`, with `k_finite` the factor of the
mode along `dir`: after `apply_force_kernel` the workspace at the mode holds
`out_re = im * (k_finite / kk_finite)` and `out_im = - re * (k_finite / kk_finite)`
for the canvas value `(re, im)`, which is the complex product of `(re, im)`
with `-i * k_finite / kk_finite`. -/
theorem apply_force_kernel_value (pm : PM K) (dir : Fin 3) (ind : Int) (i : Index3)
    (hm : (ind, i) ∈ pm_modes pm)
    (hk : (pm.fac 0 (i 0 + pm.ORegion_start 0)).kk_finite
        + (pm.fac 1 (i 1 + pm.ORegion_start 1)).kk_finite
        + (pm.fac 2 (i 2 + pm.ORegion_start 2)).kk_finite > 0) :
    (apply_force_kernel pm dir).workspace ind =
        pm.canvas (ind + 1) *
          ((pm.fac dir (i dir + pm.ORegion_start dir)).k_finite /
            ((pm.fac 0 (i 0 + pm.ORegion_start 0)).kk_finite
              + (pm.fac 1 (i 1 + pm.ORegion_start 1)).kk_finite
              + (pm.fac 2 (i 2 + pm.ORegion_start 2)).kk_finite)) ∧
      (apply_force_kernel pm dir).workspace (ind + 1) =
        - pm.canvas ind *
          ((pm.fac dir (i dir + pm.ORegion_start dir)).k_finite /
            ((pm.fac 0 (i 0 + pm.ORegion_start 0)).kk_finite
              + (pm.fac 1 (i 1 + pm.ORegion_start 1)).kk_finite
              + (pm.fac 2 (i 2 + pm.ORegion_start 2)).kk_finite)) ∧
      ((apply_force_kernel pm dir).workspace ind,
        (apply_force_kernel pm dir).workspace (ind + 1)) =
        complex_mul (pm.canvas ind, pm.canvas (ind + 1))
          (0, - ((pm.fac dir (i dir + pm.ORegion_start dir)).k_finite /
            ((pm.fac 0 (i 0 + pm.ORegion_start 0)).kk_finite
              + (pm.fac 1 (i 1 + pm.ORegion_start 1)).kk_finite
              + (pm.fac 2 (i 2 + pm.ORegion_start 2)).kk_finite))) := by
  obtain ⟨h1, h2⟩ := (apply_force_kernel_loop_spec pm dir pm.inc_o_index pm.loop_end _
    pm.loop_start pm.loop_i pm.workspace rfl).2 (ind, i) hm pm.workspace
  have hk' : mode_kk_finite pm i > 0 := by
    simp only [mode_kk_finite, zero_add]
    exact hk
  have hne : ind ≠ ind + 1 := by omega
  simp only [apply_force_kernel]
  simp only at h1 h2
  rw [h1, h2]
  simp only [apply_force_kernel_body, hk', if_true, Function.update_same,
    Function.update_noteq hne, complex_mul]
  simp only [mode_kk_finite, zero_add]
  refine ⟨trivial, trivial, ?_⟩
  ext <;> simp

/-- C8 on the example mesh, at its second mode (canvas value `(3, 4)`,
`k_finite = kk_finite = 1` along axis 2): the output is `(4, -3)`. -/
theorem apply_force_kernel_value_witness :
    (apply_force_kernel (example_pm ℚ) 2).workspace 2 = 4 ∧
      (apply_force_kernel (example_pm ℚ) 2).workspace (2 + 1) = -3 := by
  have h02 : ¬ ((0 : Fin 3) = 2) := by decide
  have h12 : ¬ ((1 : Fin 3) = 2) := by decide
  have h := apply_force_kernel_value (example_pm ℚ) 2 2
    (Function.update (fun _ => 0) 2 (0 + 1))
    (by rw [example_pm_modes]; simp)
    (by norm_num [example_pm, Function.update, h02, h12])
  refine ⟨h.1.trans ?_, h.2.1.trans ?_⟩
  · norm_num [example_pm, Function.update, h02, h12]
  · norm_num [example_pm, Function.update, h02, h12]

/-- The normalization loop run over the first `n` bins: those bins are
normalized, the others are as before, and `N` and `size` are as before. -/
theorem calculate_powerspectrum_normalize_prefix (pm : PM K) (density_factor : K)
    (ps : PowerSpectrum K) :
    ∀ n : Nat,
      ((List.range n).foldl (calculate_powerspectrum_norm_body pm density_factor) ps).N
          = ps.N ∧
      ((List.range n).foldl (calculate_powerspectrum_norm_body pm density_factor) ps).size
          = ps.size ∧
      ∀ b : Int,
        ((0 ≤ b ∧ b < (n : Int)) →
          ((List.range n).foldl (calculate_powerspectrum_norm_body pm density_factor) ps).k b
              = ps.k b / ps.N b ∧
            ((List.range n).foldl (calculate_powerspectrum_norm_body pm density_factor) ps).p b
              = ps.p b / ps.N b *
                (pm.Volume / (pm.Norm * pm.Norm) * (density_factor * density_factor))) ∧
        (¬ (0 ≤ b ∧ b < (n : Int)) →
          ((List.range n).foldl (calculate_powerspectrum_norm_body pm density_factor) ps).k b
              = ps.k b ∧
            ((List.range n).foldl (calculate_powerspectrum_norm_body pm density_factor) ps).p b
              = ps.p b) := by
  intro n
  induction n with
  | zero =>
    refine ⟨rfl, rfl, fun b => ⟨fun h => ?_, fun _ => ⟨rfl, rfl⟩⟩⟩
    have h2 := h.2
    simp only [Nat.cast_zero] at h2
    omega
  | succ n ih =>
    obtain ⟨hN, hsz, hb⟩ := ih
    rw [List.range_succ, List.foldl_append, List.foldl_cons, List.foldl_nil]
    refine ⟨?_, ?_, ?_⟩
    · simp only [calculate_powerspectrum_norm_body]
      exact hN
    · simp only [calculate_powerspectrum_norm_body]
      exact hsz
    · intro b
      have hn : ¬ (0 ≤ (n : Int) ∧ (n : Int) < (n : Int)) := by omega
      obtain ⟨hkn, hpn⟩ := (hb n).2 hn
      by_cases hbn : b = (n : Int)
      · constructor
        · intro _
          rw [hbn]
          simp only [calculate_powerspectrum_norm_body, Function.update_same, hN, hkn, hpn,
            and_self]
        · intro h
          rw [hbn] at h
          push_cast at h
          omega
      · constructor
        · intro h
          have h' : 0 ≤ b ∧ b < (n : Int) := by
            push_cast at h
            omega
          simp only [calculate_powerspectrum_norm_body, Function.update_noteq hbn]
          exact (hb b).1 h'
        · intro h
          have h' : ¬ (0 ≤ b ∧ b < (n : Int)) := by
            push_cast at h
            omega
          simp only [calculate_powerspectrum_norm_body, Function.update_noteq hbn]
          exact (hb b).2 h'

/-! ## The parallel region of `calculate_powerspectrum` -/

theorem ps_store_size {T : Type} (ps : PowerSpectrum T) (array : PSArray) (bin : Int) (v : T) :
    (ps_store ps array bin v).size = ps.size := by
  cases array <;> rfl

theorem omp_thread_step_size (ps : PowerSpectrum K) (t : OmpThread K) :
    (omp_thread_step ps t).1.size = ps.size := by
  obtain ⟨todo, loaded⟩ := t
  cases todo with
  | nil => rfl
  | cons u us =>
    cases loaded with
    | none => rfl
    | some v => exact ps_store_size ps u.array u.bin (v + u.add)

theorem omp_thread_finish_size :
    ∀ (todo : List (PSUpdate K)) (loaded : Option K) (ps : PowerSpectrum K),
      (omp_thread_finish todo loaded ps).size = ps.size := by
  intro todo
  induction todo with
  | nil =>
    intro loaded ps
    rfl
  | cons u us ih =>
    intro loaded ps
    cases loaded with
    | none =>
      simp only [omp_thread_finish]
      rw [ih, ps_store_size]
    | some v =>
      simp only [omp_thread_finish]
      rw [ih, ps_store_size]

theorem omp_step_size (s : PowerSpectrum K × List (OmpThread K)) (tid : Nat) :
    (omp_step s tid).1.size = s.1.size := by
  simp only [omp_step]
  cases h : s.2.get? tid with
  | none => rfl
  | some t => exact omp_thread_step_size s.1 t

theorem omp_schedule_size (schedule : List Nat) :
    ∀ s : PowerSpectrum K × List (OmpThread K),
      (schedule.foldl omp_step s).1.size = s.1.size := by
  induction schedule with
  | nil =>
    intro s
    rfl
  | cons tid rest ih =>
    intro s
    rw [List.foldl_cons, ih, omp_step_size]

theorem omp_join_size (s : PowerSpectrum K × List (OmpThread K)) :
    (omp_join s).size = s.1.size := by
  obtain ⟨ps, team⟩ := s
  simp only [omp_join]
  induction team generalizing ps with
  | nil => rfl
  | cons t ts ih =>
    rw [List.foldl_cons, ih, omp_thread_finish_size]

/-- An access of a thread followed by the rest of its statements is the
thread run to its end. -/
theorem omp_thread_finish_step (ps : PowerSpectrum K) (t : OmpThread K) :
    omp_thread_finish (omp_thread_step ps t).2.todo (omp_thread_step ps t).2.loaded
        (omp_thread_step ps t).1
      = omp_thread_finish t.todo t.loaded ps := by
  obtain ⟨todo, loaded⟩ := t
  cases todo with
  | nil => rfl
  | cons u us =>
    cases loaded with
    | none => rfl
    | some v => rfl

/-- A team of one thread: whatever the schedule, the region leaves what the
thread leaves when it runs from its first statement to its last. -/
theorem omp_join_one_thread (schedule : List Nat) :
    ∀ (ps : PowerSpectrum K) (t : OmpThread K),
      omp_join (schedule.foldl omp_step (ps, [t])) = omp_thread_finish t.todo t.loaded ps := by
  induction schedule with
  | nil =>
    intro ps t
    rfl
  | cons tid rest ih =>
    intro ps t
    rw [List.foldl_cons]
    cases tid with
    | zero =>
      have h : omp_step (ps, [t]) 0 = ((omp_thread_step ps t).1, [(omp_thread_step ps t).2]) :=
        rfl
      rw [h, ih, omp_thread_finish_step]
    | succ n =>
      have h : omp_step (ps, [t]) (n + 1) = (ps, [t]) := rfl
      rw [h, ih]

theorem omp_thread_finish_append (b : List (PSUpdate K)) :
    ∀ (a : List (PSUpdate K)) (ps : PowerSpectrum K),
      omp_thread_finish (a ++ b) none ps
        = omp_thread_finish b none (omp_thread_finish a none ps) := by
  intro a
  induction a with
  | nil =>
    intro ps
    cases b <;> rfl
  | cons u us ih =>
    intro ps
    simp only [List.cons_append, omp_thread_finish]
    exact ih _

section PowerSpectrumLemmas

variable [FloorRing K]

theorem calculate_powerspectrum_body_size (m : CMath K) (pm : PM K) (ind : Int)
    (i : Index3) (ps : PowerSpectrum K) :
    (calculate_powerspectrum_body m pm ind i ps).size = ps.size := by
  simp only [calculate_powerspectrum_body]
  split_ifs <;> rfl

/-- A mode whose bin lies outside `[0, size)` changes nothing. -/
theorem calculate_powerspectrum_body_discard (m : CMath K) (pm : PM K) (ind : Int)
    (i : Index3) (ps : PowerSpectrum K)
    (h : mode_bin m pm i < 0 ∨ mode_bin m pm i ≥ (ps.size : Int)) :
    calculate_powerspectrum_body m pm ind i ps = ps := by
  have hn : ¬ (mode_bin m pm i ≥ 0 ∧ mode_bin m pm i < (ps.size : Int)) := by omega
  simp only [calculate_powerspectrum_body, hn, if_false]

/-- What one mode adds to the entry `b` of the three arrays. -/
theorem calculate_powerspectrum_body_at (m : CMath K) (pm : PM K) (ind : Int)
    (i : Index3) (ps : PowerSpectrum K) (b : Int) (hb0 : 0 ≤ b) (hb1 : b < (ps.size : Int)) :
    (calculate_powerspectrum_body m pm ind i ps).N b =
        ps.N b + (if mode_bin m pm i = b then mode_weight i else 0) ∧
      (calculate_powerspectrum_body m pm ind i ps).p b =
        ps.p b + (if mode_bin m pm i = b then mode_weight i * mode_value pm ind else 0) ∧
      (calculate_powerspectrum_body m pm ind i ps).k b =
        ps.k b + (if mode_bin m pm i = b then mode_weight i * mode_k m pm i else 0) := by
  by_cases hbin : mode_bin m pm i = b
  · have hr : mode_bin m pm i ≥ 0 ∧ mode_bin m pm i < (ps.size : Int) := by omega
    have hr' : b ≥ 0 ∧ b < (ps.size : Int) := ⟨hb0, hb1⟩
    simp only [calculate_powerspectrum_body, hbin, hr', and_self, if_true,
      Function.update_same]
  · by_cases hr : mode_bin m pm i ≥ 0 ∧ mode_bin m pm i < (ps.size : Int)
    · simp only [calculate_powerspectrum_body, hr, and_self, if_true, hbin, if_false,
        add_zero, Function.update_noteq (Ne.symm hbin)]
    · simp only [calculate_powerspectrum_body, hr, if_false, hbin, add_zero, and_self]

/-- An entry outside `[0, size)` is never written by the body. -/
theorem calculate_powerspectrum_body_outside (m : CMath K) (pm : PM K) (ind : Int)
    (i : Index3) (ps : PowerSpectrum K) (b : Int) (hb : ¬ (0 ≤ b ∧ b < (ps.size : Int))) :
    (calculate_powerspectrum_body m pm ind i ps).N b = ps.N b ∧
      (calculate_powerspectrum_body m pm ind i ps).p b = ps.p b ∧
      (calculate_powerspectrum_body m pm ind i ps).k b = ps.k b := by
  by_cases hr : mode_bin m pm i ≥ 0 ∧ mode_bin m pm i < (ps.size : Int)
  · have hne : b ≠ mode_bin m pm i := by
      intro h
      rw [h] at hb
      exact hb ⟨hr.1, hr.2⟩
    simp only [calculate_powerspectrum_body, hr, and_self, if_true,
      Function.update_noteq hne]
  · simp only [calculate_powerspectrum_body, hr, if_false, and_self]

/-- The accumulation loop over a list of modes: each entry `b` of `[0, size)`
grows by the weighted sums over the modes of bin `b`; the other entries and
`size` stay. -/
theorem calculate_powerspectrum_fold (m : CMath K) (pm : PM K) (b : Int) :
    ∀ (l : List (Int × Index3)) (ps : PowerSpectrum K),
      (l.foldl (fun s md => calculate_powerspectrum_body m pm md.1 md.2 s) ps).size
          = ps.size ∧
      (0 ≤ b ∧ b < (ps.size : Int) →
        (l.foldl (fun s md => calculate_powerspectrum_body m pm md.1 md.2 s) ps).N b =
            ps.N b + ((l.filter (fun md => decide (mode_bin m pm md.2 = b))).map
              (fun md => mode_weight (K := K) md.2)).sum ∧
          (l.foldl (fun s md => calculate_powerspectrum_body m pm md.1 md.2 s) ps).p b =
            ps.p b + ((l.filter (fun md => decide (mode_bin m pm md.2 = b))).map
              (fun md => mode_weight md.2 * mode_value pm md.1)).sum ∧
          (l.foldl (fun s md => calculate_powerspectrum_body m pm md.1 md.2 s) ps).k b =
            ps.k b + ((l.filter (fun md => decide (mode_bin m pm md.2 = b))).map
              (fun md => mode_weight md.2 * mode_k m pm md.2)).sum) ∧
      (¬ (0 ≤ b ∧ b < (ps.size : Int)) →
        (l.foldl (fun s md => calculate_powerspectrum_body m pm md.1 md.2 s) ps).N b = ps.N b ∧
          (l.foldl (fun s md => calculate_powerspectrum_body m pm md.1 md.2 s) ps).p b
            = ps.p b ∧
          (l.foldl (fun s md => calculate_powerspectrum_body m pm md.1 md.2 s) ps).k b
            = ps.k b) := by
  intro l
  induction l with
  | nil =>
    intro ps
    simp
  | cons md l ih =>
    intro ps
    obtain ⟨ih1, ih2, ih3⟩ := ih (calculate_powerspectrum_body m pm md.1 md.2 ps)
    have hsz := calculate_powerspectrum_body_size m pm md.1 md.2 ps
    rw [hsz] at ih1 ih2 ih3
    simp only [List.foldl_cons]
    refine ⟨ih1, ?_, ?_⟩
    · intro hb
      obtain ⟨a1, a2, a3⟩ := calculate_powerspectrum_body_at m pm md.1 md.2 ps b hb.1 hb.2
      obtain ⟨f1, f2, f3⟩ := ih2 hb
      rw [f1, f2, f3, a1, a2, a3]
      by_cases hbin : mode_bin m pm md.2 = b
      · simp only [hbin, if_true, List.filter_cons, decide_True, List.map_cons,
          List.sum_cons, add_assoc, and_self]
      · simp only [hbin, if_false, List.filter_cons, decide_False, add_zero, and_self]
        simp
    · intro hb
      obtain ⟨a1, a2, a3⟩ := calculate_powerspectrum_body_outside m pm md.1 md.2 ps b hb
      obtain ⟨f1, f2, f3⟩ := ih3 hb
      rw [f1, f2, f3, a1, a2, a3]
      exact ⟨rfl, rfl, rfl⟩

/-- The three statements of a mode, run with no access of another thread in
between, are the body of the loop. -/
theorem calculate_powerspectrum_updates_finish (m : CMath K) (pm : PM K) (ind : Int)
    (i : Index3) (ps : PowerSpectrum K) :
    omp_thread_finish (calculate_powerspectrum_updates m pm ps.size ind i) none ps
      = calculate_powerspectrum_body m pm ind i ps := by
  simp only [calculate_powerspectrum_updates, calculate_powerspectrum_body]
  split_ifs
  · simp only [omp_thread_finish, ps_store, ps_load]
  · rfl

/-- The statements of a thread, appended to statements `done` and run with no
access of another thread in between, are the loop over the modes of its
range. -/
theorem calculate_powerspectrum_thread_fold (m : CMath K) (pm : PM K) (size : Nat) :
    ∀ (l : List (Int × Index3)) (done : List (PSUpdate K)) (ps : PowerSpectrum K),
      ps.size = size →
      omp_thread_finish
          (l.foldl (fun d md => d ++ calculate_powerspectrum_updates m pm size md.1 md.2) done)
          none ps
        = l.foldl (fun s md => calculate_powerspectrum_body m pm md.1 md.2 s)
            (omp_thread_finish done none ps) := by
  intro l
  induction l with
  | nil =>
    intro done ps _
    rfl
  | cons md l ih =>
    intro done ps hsize
    rw [List.foldl_cons, List.foldl_cons, ih _ ps hsize, omp_thread_finish_append]
    have hs : (omp_thread_finish done none ps).size = size := by
      rw [omp_thread_finish_size, hsize]
    rw [← hs, calculate_powerspectrum_updates_finish]

/-- The accumulation by a team of one thread: whatever the schedule, the
region leaves what the loop over the modes of the thread leaves on the zeroed
arrays. -/
theorem calculate_powerspectrum_local_one_thread (m : CMath K) (pm : PM K)
    (ps : PowerSpectrum K) (r : OmpRange) (schedule : List Nat) :
    calculate_powerspectrum_local m pm ps ⟨[r], schedule⟩ =
      (pm_loop_modes pm.inc_o_index r.end_ r.start r.i).foldl
        (fun s md => calculate_powerspectrum_body m pm md.1 md.2 s)
        { ps with
          p := memset_zero ps.size ps.p
          k := memset_zero ps.size ps.k
          N := memset_zero ps.size ps.N } := by
  simp only [calculate_powerspectrum_local, List.map_cons, List.map_nil]
  rw [omp_join_one_thread]
  simp only [calculate_powerspectrum_thread]
  rw [pm_omp_loop_eq_foldl pm.inc_o_index _ r.end_ _ r.start r.i [] rfl]
  exact calculate_powerspectrum_thread_fold m pm ps.size _ [] _ rfl

/-- The accumulation part of `calculate_powerspectrum` run by a team of one
thread: every bin of `[0, size)` holds the weighted sums over the local modes
of that bin. -/
theorem calculate_powerspectrum_local_sums (m : CMath K) (pm : PM K)
    (ps : PowerSpectrum K) (schedule : List Nat) (b : Int) (hb0 : 0 ≤ b)
    (hb1 : b < (ps.size : Int)) :
    (calculate_powerspectrum_local m pm ps (omp_one_thread pm schedule)).N b =
        (((pm_modes pm).filter (fun md => decide (mode_bin m pm md.2 = b))).map
          (fun md => mode_weight (K := K) md.2)).sum ∧
      (calculate_powerspectrum_local m pm ps (omp_one_thread pm schedule)).p b =
        (((pm_modes pm).filter (fun md => decide (mode_bin m pm md.2 = b))).map
          (fun md => mode_weight md.2 * mode_value pm md.1)).sum ∧
      (calculate_powerspectrum_local m pm ps (omp_one_thread pm schedule)).k b =
        (((pm_modes pm).filter (fun md => decide (mode_bin m pm md.2 = b))).map
          (fun md => mode_weight md.2 * mode_k m pm md.2)).sum := by
  have hfold := (calculate_powerspectrum_fold m pm b (pm_modes pm)
    { ps with
      p := memset_zero ps.size ps.p
      k := memset_zero ps.size ps.k
      N := memset_zero ps.size ps.N }).2.1 ⟨hb0, hb1⟩
  have hz : ∀ a : Int → K, memset_zero ps.size a b = 0 := by
    intro a
    simp only [memset_zero, hb0, hb1, and_self, if_true]
  simp only [omp_one_thread]
  rw [calculate_powerspectrum_local_one_thread]
  simp only [pm_modes] at hfold ⊢
  obtain ⟨f1, f2, f3⟩ := hfold
  rw [f1, f2, f3]
  simp only [hz, zero_add, and_self]

/-- The accumulation on the example mesh (`k0 = 1`) by one thread, bin 1. -/
theorem example_local_bin_one :
    (calculate_powerspectrum_local example_cmath (example_pm ℚ) (example_ps ℚ)
        (omp_one_thread (example_pm ℚ) [])).N 1 = 2 ∧
      (calculate_powerspectrum_local example_cmath (example_pm ℚ) (example_ps ℚ)
        (omp_one_thread (example_pm ℚ) [])).p 1 = 50 ∧
      (calculate_powerspectrum_local example_cmath (example_pm ℚ) (example_ps ℚ)
        (omp_one_thread (example_pm ℚ) [])).k 1 = 2 := by
  have h02 : ¬ ((0 : Fin 3) = 2) := by decide
  have h12 : ¬ ((1 : Fin 3) = 2) := by decide
  have h := calculate_powerspectrum_local_sums example_cmath (example_pm ℚ) (example_ps ℚ) [] 1
    (by decide) (by decide)
  rw [example_pm_modes] at h
  refine ⟨h.1.trans ?_, h.2.1.trans ?_, h.2.2.trans ?_⟩
  · norm_num [example_pm, example_cmath, Function.update, h02, h12, List.filter, mode_bin,
      mode_k, mode_kk, powerspectrum_k0, mode_weight, mode_value]
  · norm_num [example_pm, example_cmath, Function.update, h02, h12, List.filter, mode_bin,
      mode_k, mode_kk, powerspectrum_k0, mode_weight, mode_value]
  · norm_num [example_pm, example_cmath, Function.update, h02, h12, List.filter, mode_bin,
      mode_k, mode_kk, powerspectrum_k0, mode_weight, mode_value]

/-- The accumulation part of `calculate_powerspectrum` (the three `memset`
calls and the parallel region, before reduction and normalization) when the
region is run by a team of one thread: whatever the arrays held before, every
bin `b` of `[0, size)` has `N[b]` the sum of `w`, `p[b]` the sum of
`w * (re^2 + im^2)` and `k[b]` the sum of `w * |k|` over exactly the local
modes with `floor(|k| / k0) = b`, where `k0 = 2 * M_PI / BoxSize[0]`,
`|k| = sqrt` of the sum of the per-axis `kk` factors, and `w = 1` if
`i[2] = 0` and `2` otherwise; and a mode whose bin is negative or `>= size`
executes no statement on the accumulator. -/
theorem calculate_powerspectrum_one_thread_bins (m : CMath K) (pm : PM K)
    (ps : PowerSpectrum K) (schedule : List Nat) (b : Int) (hb0 : 0 ≤ b)
    (hb1 : b < (ps.size : Int)) :
    ((calculate_powerspectrum_local m pm ps (omp_one_thread pm schedule)).N b =
        (((pm_modes pm).filter (fun md => decide
            (⌊m.sqrt ((pm.fac 0 (md.2 0 + pm.ORegion_start 0)).kk
                + (pm.fac 1 (md.2 1 + pm.ORegion_start 1)).kk
                + (pm.fac 2 (md.2 2 + pm.ORegion_start 2)).kk)
              / (2 * m.M_PI / pm.BoxSize 0)⌋ = b))).map
          (fun md => if md.2 2 = 0 then (1 : K) else 2)).sum ∧
      (calculate_powerspectrum_local m pm ps (omp_one_thread pm schedule)).p b =
        (((pm_modes pm).filter (fun md => decide
            (⌊m.sqrt ((pm.fac 0 (md.2 0 + pm.ORegion_start 0)).kk
                + (pm.fac 1 (md.2 1 + pm.ORegion_start 1)).kk
                + (pm.fac 2 (md.2 2 + pm.ORegion_start 2)).kk)
              / (2 * m.M_PI / pm.BoxSize 0)⌋ = b))).map
          (fun md => (if md.2 2 = 0 then (1 : K) else 2) *
            (pm.canvas md.1 * pm.canvas md.1
              + pm.canvas (md.1 + 1) * pm.canvas (md.1 + 1)))).sum ∧
      (calculate_powerspectrum_local m pm ps (omp_one_thread pm schedule)).k b =
        (((pm_modes pm).filter (fun md => decide
            (⌊m.sqrt ((pm.fac 0 (md.2 0 + pm.ORegion_start 0)).kk
                + (pm.fac 1 (md.2 1 + pm.ORegion_start 1)).kk
                + (pm.fac 2 (md.2 2 + pm.ORegion_start 2)).kk)
              / (2 * m.M_PI / pm.BoxSize 0)⌋ = b))).map
          (fun md => (if md.2 2 = 0 then (1 : K) else 2) *
            m.sqrt ((pm.fac 0 (md.2 0 + pm.ORegion_start 0)).kk
                + (pm.fac 1 (md.2 1 + pm.ORegion_start 1)).kk
                + (pm.fac 2 (md.2 2 + pm.ORegion_start 2)).kk))).sum) ∧
    (∀ (ind : Int) (i : Index3) (size : Nat),
      (⌊m.sqrt ((pm.fac 0 (i 0 + pm.ORegion_start 0)).kk
                + (pm.fac 1 (i 1 + pm.ORegion_start 1)).kk
                + (pm.fac 2 (i 2 + pm.ORegion_start 2)).kk)
              / (2 * m.M_PI / pm.BoxSize 0)⌋ < 0 ∨
        ⌊m.sqrt ((pm.fac 0 (i 0 + pm.ORegion_start 0)).kk
                + (pm.fac 1 (i 1 + pm.ORegion_start 1)).kk
                + (pm.fac 2 (i 2 + pm.ORegion_start 2)).kk)
              / (2 * m.M_PI / pm.BoxSize 0)⌋ ≥ (size : Int)) →
      calculate_powerspectrum_updates m pm size ind i = []) := by
  constructor
  · have h := calculate_powerspectrum_local_sums m pm ps schedule b hb0 hb1
    simpa only [mode_bin, mode_k, mode_kk, powerspectrum_k0, mode_weight, mode_value,
      zero_add, add_zero] using h
  · intro ind i size h
    have hn : ¬ (mode_bin m pm i ≥ 0 ∧ mode_bin m pm i < (size : Int)) := by
      simp only [mode_bin, mode_k, mode_kk, powerspectrum_k0, zero_add]
      omega
    simp only [calculate_powerspectrum_updates, hn, if_false]

theorem calculate_powerspectrum_local_size (m : CMath K) (pm : PM K)
    (ps : PowerSpectrum K) (run : OmpRun) :
    (calculate_powerspectrum_local m pm ps run).size = ps.size := by
  simp only [calculate_powerspectrum_local]
  rw [omp_join_size, omp_schedule_size]

/-- C10: after the three cross-rank sums (`N`, `p`, `k` of this rank plus those
of the other ranks), `calculate_powerspectrum` leaves in every bin `b` of
`[0, size)`: `k[b] = sum_k / N[b]`,
`p[b] = (sum_p / N[b]) * Volume / Norm^2 * density_factor^2`, and `N[b]` the
summed weighted mode count, unchanged by the normalization; and `do_pm` calls
it with `density_factor = pm_nc_factor^3`. This holds for every execution
`run` of the parallel region that fills the arrays before the sums. -/
theorem calculate_powerspectrum_normalized (m : CMath K) (vpm : VPM K)
    (ps : PowerSpectrum K) (density_factor : K) (others : List (PowerSpectrum K))
    (run : OmpRun) (b : Int) (hb0 : 0 ≤ b) (hb1 : b < (ps.size : Int)) :
    ((calculate_powerspectrum m vpm.pm ps density_factor others run).k b =
        (calculate_powerspectrum_reduce (calculate_powerspectrum_local m vpm.pm ps run) others).k b
          / (calculate_powerspectrum_reduce
              (calculate_powerspectrum_local m vpm.pm ps run) others).N b ∧
      (calculate_powerspectrum m vpm.pm ps density_factor others run).p b =
        (calculate_powerspectrum_reduce (calculate_powerspectrum_local m vpm.pm ps run) others).p b
          / (calculate_powerspectrum_reduce
              (calculate_powerspectrum_local m vpm.pm ps run) others).N b
          * vpm.pm.Volume / vpm.pm.Norm ^ 2 * density_factor ^ 2 ∧
      (calculate_powerspectrum m vpm.pm ps density_factor others run).N b =
        (calculate_powerspectrum_reduce
          (calculate_powerspectrum_local m vpm.pm ps run) others).N b) ∧
    ((calculate_powerspectrum_reduce (calculate_powerspectrum_local m vpm.pm ps run) others).N b =
        (calculate_powerspectrum_local m vpm.pm ps run).N b
          + (others.map (fun o => o.N b)).sum ∧
      (calculate_powerspectrum_reduce (calculate_powerspectrum_local m vpm.pm ps run) others).p b =
        (calculate_powerspectrum_local m vpm.pm ps run).p b
          + (others.map (fun o => o.p b)).sum ∧
      (calculate_powerspectrum_reduce (calculate_powerspectrum_local m vpm.pm ps run) others).k b =
        (calculate_powerspectrum_local m vpm.pm ps run).k b
          + (others.map (fun o => o.k b)).sum) ∧
    (do_pm_calculate_powerspectrum m vpm ps others run =
        calculate_powerspectrum m vpm.pm ps ((vpm.pm_nc_factor : K) ^ 3) others run ∧
      (do_pm_calculate_powerspectrum m vpm ps others run).p b =
        (calculate_powerspectrum_reduce (calculate_powerspectrum_local m vpm.pm ps run) others).p b
          / (calculate_powerspectrum_reduce
              (calculate_powerspectrum_local m vpm.pm ps run) others).N b
          * vpm.pm.Volume / vpm.pm.Norm ^ 2 * ((vpm.pm_nc_factor : K) ^ 3) ^ 2) := by
  have hsz : (calculate_powerspectrum_reduce
      (calculate_powerspectrum_local m vpm.pm ps run) others).size = ps.size := by
    simp only [calculate_powerspectrum_reduce]
    exact calculate_powerspectrum_local_size m vpm.pm ps run
  have hb1' : b < ((calculate_powerspectrum_reduce
      (calculate_powerspectrum_local m vpm.pm ps run) others).size : Int) := by
    rw [hsz]
    exact hb1
  have hnorm : ∀ df : K,
      (calculate_powerspectrum m vpm.pm ps df others run).k b =
        (calculate_powerspectrum_reduce (calculate_powerspectrum_local m vpm.pm ps run) others).k b
          / (calculate_powerspectrum_reduce
              (calculate_powerspectrum_local m vpm.pm ps run) others).N b ∧
      (calculate_powerspectrum m vpm.pm ps df others run).p b =
        (calculate_powerspectrum_reduce (calculate_powerspectrum_local m vpm.pm ps run) others).p b
          / (calculate_powerspectrum_reduce
              (calculate_powerspectrum_local m vpm.pm ps run) others).N b
          * vpm.pm.Volume / vpm.pm.Norm ^ 2 * df ^ 2 ∧
      (calculate_powerspectrum m vpm.pm ps df others run).N b =
        (calculate_powerspectrum_reduce
          (calculate_powerspectrum_local m vpm.pm ps run) others).N b := by
    intro df
    obtain ⟨hN, -, hb⟩ := calculate_powerspectrum_normalize_prefix vpm.pm df
      (calculate_powerspectrum_reduce (calculate_powerspectrum_local m vpm.pm ps run) others)
      (calculate_powerspectrum_reduce (calculate_powerspectrum_local m vpm.pm ps run) others).size
    obtain ⟨hk, hp⟩ := (hb b).1 ⟨hb0, hb1'⟩
    simp only [calculate_powerspectrum, calculate_powerspectrum_normalize]
    refine ⟨hk, ?_, by rw [hN]⟩
    rw [hp]
    ring
  have hsz2 : b < ((calculate_powerspectrum_local m vpm.pm ps run).size : Int) := by
    rw [calculate_powerspectrum_local_size]
    exact hb1
  refine ⟨hnorm density_factor, ?_, rfl, ?_⟩
  · simp only [calculate_powerspectrum_reduce, allreduce_sum, hb0, hsz2, and_self, if_true,
      List.map_map, Function.comp_def]
  · exact (hnorm ((vpm.pm_nc_factor : K) ^ 3)).2.1

/-- C10 on the example mesh with `pm_nc_factor = 2`, one thread and no other
rank: bin 1
has sums `N = 2`, `p = 50`, `k = 2`, and `do_pm` leaves `k = 1`,
`p = 50 / 2 * 8 / 8^2 * (2^3)^2 = 200`, `N = 2`. -/
theorem calculate_powerspectrum_normalized_witness :
    (do_pm_calculate_powerspectrum example_cmath ⟨example_pm ℚ, 2⟩ (example_ps ℚ) []
        (omp_one_thread (example_pm ℚ) [])).k 1 = 1 ∧
      (do_pm_calculate_powerspectrum example_cmath ⟨example_pm ℚ, 2⟩ (example_ps ℚ) []
        (omp_one_thread (example_pm ℚ) [])).p 1
        = 200 ∧
      (do_pm_calculate_powerspectrum example_cmath ⟨example_pm ℚ, 2⟩ (example_ps ℚ) []
        (omp_one_thread (example_pm ℚ) [])).N 1
        = 2 := by
  have h := calculate_powerspectrum_normalized example_cmath ⟨example_pm ℚ, 2⟩ (example_ps ℚ)
    8 [] (omp_one_thread (example_pm ℚ) []) 1 (by decide) (by decide)
  obtain ⟨hN, hp, hk⟩ := example_local_bin_one
  obtain ⟨⟨h1, -, h3⟩, ⟨r1, r2, r3⟩, e, h4⟩ := h
  simp only [List.map_nil, List.sum_nil, add_zero] at r1 r2 r3
  rw [r1, r2, hN, hp] at h4
  rw [r1, r3, hN, hk] at h1
  rw [r1, hN] at h3
  refine ⟨?_, ?_, ?_⟩
  · rw [e]
    have : ((2 : Int) : ℚ) ^ 3 = 8 := by norm_num
    simp only [this]
    rw [h1]
    norm_num
  · rw [h4]
    norm_num [example_pm]
  · rw [e]
    have : ((2 : Int) : ℚ) ^ 3 = 8 := by norm_num
    simp only [this]
    exact h3

end PowerSpectrumLemmas

/-! ## Head-of-line blocking -/

/-- A call of `snps_interp` whose pending epoch is not due takes no snapshot
and leaves the scheduler as it is. -/
theorem snps_interp_not_due (snps : SNPS K) (a_x a_v : K)
    (h : snps_due a_x a_v (snps.aout snps.iout) = false) :
    snps_interp snps a_x a_v = (snps, [], decide (snps.iout = snps.nout)) := by
  have hstop : ¬ (snps.iout < snps.nout ∧
      snps_due a_x a_v (snps.aout snps.iout) = true) := by
    rw [h]
    simp
  simp only [snps_interp, snps_interp_loop_stop a_x a_v snps hstop]

/-- An epoch below both arguments of a check is not due. -/
theorem snps_due_below (a_x a_v a_start aout : K) (hx : a_start ≤ a_x) (hv : a_start ≤ a_v)
    (h : aout < a_start) : snps_due a_x a_v aout = false := by
  have hn : ¬ ((a_x < aout ∧ aout < a_v) ∨ (a_x ≥ aout ∧ aout ≥ a_v)) := by
    rintro (⟨h1, _⟩ | ⟨_, h2⟩)
    · exact absurd (lt_of_lt_of_le h hx) (not_lt.mpr (le_of_lt h1))
    · exact absurd (lt_of_lt_of_le h hv) (not_lt.mpr h2)
  rw [← snps_due_iff] at hn
  simpa using hn

/-- C19: if the pending epoch `aout[iout]` satisfies neither crossing condition
for `(a_x, a_v)`, the call of `snps_interp` takes no snapshot and leaves the
scheduler unchanged, also when a later epoch is due (with `aout = [0.3, 0.5]`
the call `(0.4, 0.55)` takes nothing although 0.5 is crossed); and if
`aout[iout] < a_start`, every sequence of calls whose arguments are all
`>= a_start` takes no snapshot at all and leaves `iout` where it is. -/
theorem snps_interp_head_blocked (snps : SNPS K) (a_x a_v a_start : K)
    (calls : List (K × K)) (hcalls : ∀ c ∈ calls, a_start ≤ c.1 ∧ a_start ≤ c.2) :
    (¬ ((a_x < snps.aout snps.iout ∧ snps.aout snps.iout < a_v) ∨
          (a_x ≥ snps.aout snps.iout ∧ snps.aout snps.iout ≥ a_v)) →
      (snps_interp snps a_x a_v).2.1 = [] ∧ (snps_interp snps a_x a_v).1 = snps) ∧
    (snps.aout snps.iout < a_start →
      (snps_interp_calls calls snps).2 = [] ∧ (snps_interp_calls calls snps).1 = snps) ∧
    (((0.4 : K) < (example_blocked_snps K).aout 1 ∧
        (example_blocked_snps K).aout 1 < 0.55) ∧
      (snps_interp (example_blocked_snps K) 0.4 0.55).2.1 = [] ∧
      (snps_interp (example_blocked_snps K) 0.4 0.55).1 = example_blocked_snps K) := by
  refine ⟨?_, ?_, ?_, ?_⟩
  · intro h
    have hd : snps_due a_x a_v (snps.aout snps.iout) = false := by
      rw [← snps_due_iff] at h
      simpa using h
    rw [snps_interp_not_due snps a_x a_v hd]
    exact ⟨rfl, rfl⟩
  · intro h
    induction calls with
    | nil => exact ⟨rfl, rfl⟩
    | cons c cs ih =>
      obtain ⟨hx, hv⟩ := hcalls c (List.mem_cons_self c cs)
      have hd := snps_due_below c.1 c.2 a_start _ hx hv h
      obtain ⟨i1, i2⟩ := ih (fun d hdm => hcalls d (List.mem_cons_of_mem c hdm))
      simp only [snps_interp_calls, snps_interp_not_due snps c.1 c.2 hd, i1, i2,
        List.append_nil, and_self]
  · norm_num [example_blocked_snps]
  · have hd : snps_due (0.4 : K) 0.55
        ((example_blocked_snps K).aout (example_blocked_snps K).iout) = false := by
      simp only [example_blocked_snps, snps_due]
      norm_num
    rw [snps_interp_not_due _ _ _ hd]
    exact ⟨rfl, rfl⟩

/-- C19 on `aout = [0.3, 0.5]` with `a_start = 0.4` and the checks of a run
through `(0.4, 0.4)`, `(0.4, 0.55)`, `(0.7, 0.55)`, `(0.7, 0.85)`: nothing is
ever taken, the epoch 0.5 included. -/
theorem snps_interp_head_blocked_witness :
    (snps_interp_calls [((2 / 5 : ℚ), (2 / 5 : ℚ)), (2 / 5, 11 / 20), (7 / 10, 11 / 20),
      (7 / 10, 17 / 20)] (example_blocked_snps ℚ)).2 = [] ∧
    (snps_interp_calls [((2 / 5 : ℚ), (2 / 5 : ℚ)), (2 / 5, 11 / 20), (7 / 10, 11 / 20),
      (7 / 10, 17 / 20)] (example_blocked_snps ℚ)).1 = example_blocked_snps ℚ :=
  (snps_interp_head_blocked (example_blocked_snps ℚ) (2 / 5) (11 / 20) (2 / 5)
    [((2 / 5 : ℚ), (2 / 5 : ℚ)), (2 / 5, 11 / 20), (7 / 10, 11 / 20), (7 / 10, 17 / 20)]
    (by
      intro c hc
      simp only [List.mem_cons, List.mem_singleton, List.not_mem_nil, or_false] at hc
      rcases hc with h | h | h | h <;> rw [h] <;> norm_num)).2.1
    (by norm_num [example_blocked_snps])

/-! ## Allocation sizing lemmas -/

/-- When the search loop returns within `fuel` passes, it returns
`factor * 1.01 ^ n` for the least `n` whose probability is below the rate. -/
theorem estimate_alloc_factor_loop_spec (m : AllocMath K) (sigma : K) (NTask : Int)
    (failure_rate : K) :
    ∀ (fuel : Nat) (factor r : K),
      estimate_alloc_factor_loop m sigma NTask failure_rate fuel factor = some r →
      ∃ n, n < fuel ∧ r = factor * 1.01 ^ n ∧
        alloc_probfail m sigma NTask (factor * 1.01 ^ n) < failure_rate ∧
        ∀ k, k < n → failure_rate ≤ alloc_probfail m sigma NTask (factor * 1.01 ^ k) := by
  intro fuel
  induction fuel with
  | zero =>
    intro factor r h
    simp [estimate_alloc_factor_loop] at h
  | succ fuel ih =>
    intro factor r h
    by_cases hp : alloc_probfail m sigma NTask factor < failure_rate
    · simp only [estimate_alloc_factor_loop, hp, if_true, Option.some.injEq] at h
      refine ⟨0, Nat.succ_pos fuel, by rw [← h, pow_zero, mul_one], ?_, ?_⟩
      · rwa [pow_zero, mul_one]
      · intro k hk
        omega
    · simp only [estimate_alloc_factor_loop, hp, if_false] at h
      obtain ⟨n, hn, hr, hlt, hge⟩ := ih (factor * 1.01) r h
      have hmul : ∀ j : Nat, factor * 1.01 * (1.01 : K) ^ j = factor * 1.01 ^ (j + 1) := by
        intro j
        rw [pow_succ]
        ring
      refine ⟨n + 1, by omega, by rw [hr, hmul], by rwa [← hmul], ?_⟩
      intro k hk
      cases k with
      | zero =>
        rw [pow_zero, mul_one]
        exact not_lt.mp hp
      | succ k =>
        rw [← hmul]
        exact hge k (by omega)

/-- When some `n` has a probability below the rate, the search loop returns,
given more than `n` passes. -/
theorem estimate_alloc_factor_loop_returns (m : AllocMath K) (sigma : K) (NTask : Int)
    (failure_rate : K) :
    ∀ (n fuel : Nat) (factor : K), n < fuel →
      alloc_probfail m sigma NTask (factor * 1.01 ^ n) < failure_rate →
      ∃ r, estimate_alloc_factor_loop m sigma NTask failure_rate fuel factor = some r := by
  intro n
  induction n with
  | zero =>
    intro fuel factor hf hp
    rw [pow_zero, mul_one] at hp
    obtain ⟨f, rfl⟩ : ∃ f, fuel = f + 1 := ⟨fuel - 1, by omega⟩
    exact ⟨factor, by simp only [estimate_alloc_factor_loop, hp, if_true]⟩
  | succ n ih =>
    intro fuel factor hf hp
    obtain ⟨f, rfl⟩ : ∃ f, fuel = f + 1 := ⟨fuel - 1, by omega⟩
    by_cases hp0 : alloc_probfail m sigma NTask factor < failure_rate
    · exact ⟨factor, by simp only [estimate_alloc_factor_loop, hp0, if_true]⟩
    · simp only [estimate_alloc_factor_loop, hp0, if_false]
      apply ih f (factor * 1.01) (by omega)
      have : factor * 1.01 * (1.01 : K) ^ n = factor * 1.01 ^ (n + 1) := by
        rw [pow_succ]
        ring
      rwa [this]

/-- More passes do not change a result already returned. -/
theorem estimate_alloc_factor_loop_fuel (m : AllocMath K) (sigma : K) (NTask : Int)
    (failure_rate : K) :
    ∀ (fuel fuel2 : Nat) (factor r : K), fuel ≤ fuel2 →
      estimate_alloc_factor_loop m sigma NTask failure_rate fuel factor = some r →
      estimate_alloc_factor_loop m sigma NTask failure_rate fuel2 factor = some r := by
  intro fuel
  induction fuel with
  | zero =>
    intro fuel2 factor r _ h
    simp [estimate_alloc_factor_loop] at h
  | succ fuel ih =>
    intro fuel2 factor r hle h
    obtain ⟨f, rfl⟩ : ∃ f, fuel2 = f + 1 := ⟨fuel2 - 1, by omega⟩
    by_cases hp : alloc_probfail m sigma NTask factor < failure_rate
    · simp only [estimate_alloc_factor_loop, hp, if_true] at h ⊢
      exact h
    · simp only [estimate_alloc_factor_loop, hp, if_false] at h ⊢
      exact ih f (factor * 1.01) r (by omega) h

theorem alloc_probfail_eq (m : AllocMath K) (sigma : K) (NTask : Int) (factor : K) :
    alloc_probfail m sigma NTask factor =
      - m.expm1 (m.log1p (- m.erfc ((factor - 1) / 1.414 / sigma)) * (NTask : K)) := by
  have h1 : (1.0 : K) = 1 := by norm_num
  simp only [alloc_probfail, combined_probfail, h1]

/-- C12: whenever `estimate_alloc_factor` returns (its loop breaks within the
passes allowed), the result is `1.001 * 1.01 ^ n` for the least `n >= 0` whose
combined failure probability, computed at `x = 1.001 * 1.01 ^ n - 1`, is
strictly below `failure_rate` (every earlier factor has a probability
`>= failure_rate`); the result is `>= 1.001` and does not depend on the number
of passes allowed; and whenever some `n` has a probability below
`failure_rate`, the function does return. -/
theorem estimate_alloc_factor_least (m : AllocMath K) (Volume : K) (NTask : Int)
    (failure_rate : K) (fuel : Nat) (r : K)
    (h : estimate_alloc_factor m Volume NTask failure_rate fuel = some r) :
    (∃ n, n < fuel ∧ r = 1.001 * 1.01 ^ n ∧
      - m.expm1 (m.log1p (- m.erfc ((1.001 * 1.01 ^ n - 1) / 1.414 /
          m.sqrt (m.Sigma2 (m.pow (4 * m.M_PI / 3 * Volume) 0.3333)))) * (NTask : K))
        < failure_rate ∧
      ∀ k, k < n →
        - m.expm1 (m.log1p (- m.erfc ((1.001 * 1.01 ^ k - 1) / 1.414 /
            m.sqrt (m.Sigma2 (m.pow (4 * m.M_PI / 3 * Volume) 0.3333)))) * (NTask : K))
          ≥ failure_rate) ∧
    r ≥ 1.001 ∧
    (∀ fuel2, fuel ≤ fuel2 →
      estimate_alloc_factor m Volume NTask failure_rate fuel2 = some r) ∧
    (∀ n,
      - m.expm1 (m.log1p (- m.erfc ((1.001 * 1.01 ^ n - 1) / 1.414 /
          m.sqrt (m.Sigma2 (m.pow (4 * m.M_PI / 3 * Volume) 0.3333)))) * (NTask : K))
        < failure_rate →
      ∃ r2, estimate_alloc_factor m Volume NTask failure_rate (n + 1) = some r2) := by
  obtain ⟨n, hn, hr, hlt, hge⟩ := estimate_alloc_factor_loop_spec m
    (estimate_alloc_sigma m Volume) NTask failure_rate fuel 1.001 r h
  refine ⟨⟨n, hn, hr, ?_, ?_⟩, ?_, ?_, ?_⟩
  · simpa only [alloc_probfail_eq, estimate_alloc_sigma] using hlt
  · intro k hk
    simpa only [alloc_probfail_eq, estimate_alloc_sigma] using hge k hk
  · rw [hr]
    have h1 : (1 : K) ≤ 1.01 ^ n := one_le_pow₀ (by norm_num)
    have h2 : (0 : K) ≤ 1.001 := by norm_num
    calc (1.001 : K) = 1.001 * 1 := by rw [mul_one]
      _ ≤ 1.001 * 1.01 ^ n := mul_le_mul_of_nonneg_left h1 h2
  · intro fuel2 hle
    exact estimate_alloc_factor_loop_fuel m _ NTask failure_rate fuel fuel2 1.001 r hle h
  · intro n hp
    apply estimate_alloc_factor_loop_returns m _ NTask failure_rate n (n + 1) 1.001
      (Nat.lt_succ_self n)
    simpa only [alloc_probfail_eq, estimate_alloc_sigma] using hp

theorem example_alloc_first :
    estimate_alloc_factor example_alloc_math 1 1 (9995 / 10000) 5 = some 1.001 := by
  norm_num [estimate_alloc_factor, estimate_alloc_factor_loop, estimate_alloc_sigma,
    alloc_probfail, combined_probfail, example_alloc_math]

theorem example_alloc_second :
    estimate_alloc_factor example_alloc_math 1 1 (999 / 1000) 5 = some (1.001 * 1.01) := by
  norm_num [estimate_alloc_factor, estimate_alloc_factor_loop, estimate_alloc_sigma,
    alloc_probfail, combined_probfail, example_alloc_math]

/-- C12 on the rational stand-ins with `failure_rate = 0.999`: the search
returns `1.001 * 1.01`, which is at least 1.001 and is returned for every larger
number of passes. -/
theorem estimate_alloc_factor_least_witness :
    estimate_alloc_factor example_alloc_math 1 1 (999 / 1000) 5 = some (1.001 * 1.01) ∧
      (1.001 * 1.01 : ℚ) ≥ 1.001 ∧
      estimate_alloc_factor example_alloc_math 1 1 (999 / 1000) 7 = some (1.001 * 1.01) :=
  ⟨example_alloc_second,
    (estimate_alloc_factor_least example_alloc_math 1 1 (999 / 1000) 5 (1.001 * 1.01)
      example_alloc_second).2.1,
    (estimate_alloc_factor_least example_alloc_math 1 1 (999 / 1000) 5 (1.001 * 1.01)
      example_alloc_second).2.2.1 7 (by decide)⟩

/-- The factors `1.001 * 1.01 ^ n` grow with `n`. -/
theorem alloc_factor_mono (n1 n2 : Nat) (h : n1 ≤ n2) :
    (1.001 : K) * 1.01 ^ n1 ≤ 1.001 * 1.01 ^ n2 := by
  have h1 : (1.01 : K) ^ n1 ≤ 1.01 ^ n2 := pow_le_pow_right₀ (by norm_num) h
  exact mul_le_mul_of_nonneg_left h1 (by norm_num)

/-- Every factor of the search is above 1. -/
theorem alloc_factor_gt_one (n : Nat) : (1 : K) < 1.001 * 1.01 ^ n := by
  have h1 : (1 : K) ≤ 1.01 ^ n := one_le_pow₀ (by norm_num)
  have h2 : (1.001 : K) * 1 ≤ 1.001 * 1.01 ^ n :=
    mul_le_mul_of_nonneg_left h1 (by norm_num)
  have h3 : (1 : K) < 1.001 * 1 := by norm_num
  exact lt_of_lt_of_le h3 h2

/-- With an increasing `expm1`, `log1p(-p) <= 0` on `[0, 1)` and `erfc` inside
`[0, 1)` on positive arguments, the combined probability of a factor of the
search does not decrease when `NTask` grows. -/
theorem alloc_probfail_mono_NTask (m : AllocMath K) (sigma : K) (N1 N2 : Int) (n : Nat)
    (hsigma : 0 < sigma)
    (hexpm1 : ∀ y1 y2, y1 ≤ y2 → m.expm1 y1 ≤ m.expm1 y2)
    (hlog1p : ∀ p, 0 ≤ p → p < 1 → m.log1p (-p) ≤ 0)
    (herfc : ∀ t, 0 < t → 0 ≤ m.erfc t ∧ m.erfc t < 1)
    (hN : N1 ≤ N2) :
    alloc_probfail m sigma N1 (1.001 * 1.01 ^ n) ≤
      alloc_probfail m sigma N2 (1.001 * 1.01 ^ n) := by
  rw [alloc_probfail_eq, alloc_probfail_eq]
  have hx : (0 : K) < 1.001 * 1.01 ^ n - 1 := sub_pos.mpr (alloc_factor_gt_one n)
  have ht : (0 : K) < (1.001 * 1.01 ^ n - 1) / 1.414 / sigma :=
    div_pos (div_pos hx (by norm_num)) hsigma
  obtain ⟨hp0, hp1⟩ := herfc _ ht
  have hL := hlog1p _ hp0 hp1
  have hcast : (N1 : K) ≤ (N2 : K) := Int.cast_le.mpr hN
  have hmul : m.log1p (- m.erfc ((1.001 * 1.01 ^ n - 1) / 1.414 / sigma)) * (N2 : K) ≤
      m.log1p (- m.erfc ((1.001 * 1.01 ^ n - 1) / 1.414 / sigma)) * (N1 : K) :=
    mul_le_mul_of_nonpos_left hcast hL
  exact neg_le_neg (hexpm1 _ _ hmul)

/-- C13: for a fixed `Volume` with `sigma > 0` and library functions with the
order properties of the real ones (`expm1` increasing, `log1p(-p) <= 0` for
`0 <= p < 1`, `0 <= erfc(t) < 1` for `t > 0`), on inputs where the search
returns: for a fixed `NTask`, `failure_rate1 <= failure_rate2` gives
`factor(failure_rate1) >= factor(failure_rate2)`; and for a fixed
`failure_rate`, `NTask1 <= NTask2` gives `factor(NTask1) <= factor(NTask2)`. -/
theorem estimate_alloc_factor_monotone (m : AllocMath K) (Volume : K)
    (hsigma : 0 < m.sqrt (m.Sigma2 (m.pow (4 * m.M_PI / 3 * Volume) 0.3333)))
    (hexpm1 : ∀ y1 y2, y1 ≤ y2 → m.expm1 y1 ≤ m.expm1 y2)
    (hlog1p : ∀ p, 0 ≤ p → p < 1 → m.log1p (-p) ≤ 0)
    (herfc : ∀ t, 0 < t → 0 ≤ m.erfc t ∧ m.erfc t < 1) :
    (∀ (NTask : Int) (rate1 rate2 : K) (fuel1 fuel2 : Nat) (r1 r2 : K),
      rate1 ≤ rate2 →
      estimate_alloc_factor m Volume NTask rate1 fuel1 = some r1 →
      estimate_alloc_factor m Volume NTask rate2 fuel2 = some r2 →
      r1 ≥ r2) ∧
    (∀ (NTask1 NTask2 : Int) (rate : K) (fuel1 fuel2 : Nat) (r1 r2 : K),
      NTask1 ≤ NTask2 →
      estimate_alloc_factor m Volume NTask1 rate fuel1 = some r1 →
      estimate_alloc_factor m Volume NTask2 rate fuel2 = some r2 →
      r1 ≤ r2) := by
  constructor
  · intro NTask rate1 rate2 fuel1 fuel2 r1 r2 hrate h1 h2
    obtain ⟨n1, -, e1, p1, -⟩ := estimate_alloc_factor_loop_spec m _ NTask rate1 fuel1 _ r1 h1
    obtain ⟨n2, -, e2, -, q2⟩ := estimate_alloc_factor_loop_spec m _ NTask rate2 fuel2 _ r2 h2
    have hn : n2 ≤ n1 := by
      by_contra hlt
      have := q2 n1 (not_le.mp hlt)
      exact absurd (lt_of_lt_of_le p1 hrate) (not_lt.mpr this)
    rw [e1, e2]
    exact alloc_factor_mono n2 n1 hn
  · intro NTask1 NTask2 rate fuel1 fuel2 r1 r2 hN h1 h2
    obtain ⟨n1, -, e1, -, q1⟩ := estimate_alloc_factor_loop_spec m _ NTask1 rate fuel1 _ r1 h1
    obtain ⟨n2, -, e2, p2, -⟩ := estimate_alloc_factor_loop_spec m _ NTask2 rate fuel2 _ r2 h2
    have hmono := alloc_probfail_mono_NTask m (estimate_alloc_sigma m Volume) NTask1 NTask2 n2
      hsigma hexpm1 hlog1p herfc hN
    have hn : n1 ≤ n2 := by
      by_contra hlt
      have := q1 n2 (not_le.mp hlt)
      exact absurd (lt_of_le_of_lt hmono p2) (not_lt.mpr this)
    rw [e1, e2]
    exact alloc_factor_mono n1 n2 hn

theorem example_alloc_math_sigma :
    0 < example_alloc_math.sqrt (example_alloc_math.Sigma2
      (example_alloc_math.pow (4 * example_alloc_math.M_PI / 3 * 1) 0.3333)) := by
  norm_num [example_alloc_math]

theorem example_alloc_math_erfc (t : ℚ) (ht : 0 < t) :
    0 ≤ example_alloc_math.erfc t ∧ example_alloc_math.erfc t < 1 := by
  have h1 : (0 : ℚ) < 1 + t := by linarith
  simp only [example_alloc_math]
  constructor
  · exact le_of_lt (div_pos one_pos h1)
  · rw [div_lt_one h1]
    linarith

/-- C13 on the rational stand-ins: the rate 0.999 needs the factor
`1.001 * 1.01`, the larger rate 0.9995 only 1.001, for one rank. -/
theorem estimate_alloc_factor_monotone_witness : (1.001 * 1.01 : ℚ) ≥ 1.001 :=
  (estimate_alloc_factor_monotone example_alloc_math 1 example_alloc_math_sigma
    (fun _ _ h => h)
    (fun p hp _ => by
      simp only [example_alloc_math]
      linarith)
    example_alloc_math_erfc).1 1 (999 / 1000) (9995 / 10000) 5 5 (1.001 * 1.01) 1.001
    (by norm_num) example_alloc_second example_alloc_first

/-- C14: with `expm1(y) = exp(y) - 1` and `log1p(u) = log(1 + u)` over the
reals, the combined probability `- expm1(log1p(-p) * NTask)` of
`estimate_alloc_factor` equals `1 - (1 - p) ^ NTask` for every `p` with
`0 <= p < 1` and every `NTask >= 1`, and so lies in `[0, 1)`. -/
theorem combined_probfail_eq (m : AllocMath ℝ)
    (hexpm1 : ∀ y, m.expm1 y = Real.exp y - 1)
    (hlog1p : ∀ u, m.log1p u = Real.log (1 + u))
    (p : ℝ) (NTask : Int) (hp0 : 0 ≤ p) (hp1 : p < 1) (hN : 1 ≤ NTask) :
    combined_probfail m NTask p = 1 - (1 - p) ^ NTask ∧
      0 ≤ combined_probfail m NTask p ∧ combined_probfail m NTask p < 1 := by
  have hq : (0 : ℝ) < 1 - p := by linarith
  have hq1 : 1 - p ≤ 1 := by linarith
  obtain ⟨n, rfl⟩ : ∃ n : Nat, NTask = (n : Int) := ⟨NTask.toNat, by omega⟩
  have hval : combined_probfail m (n : Int) p = 1 - (1 - p) ^ n := by
    simp only [combined_probfail, hexpm1, hlog1p, Int.cast_natCast]
    rw [mul_comm, Real.exp_nat_mul, ← sub_eq_add_neg, Real.exp_log hq]
    ring
  rw [hval, zpow_natCast]
  have hpos : (0 : ℝ) < (1 - p) ^ n := pow_pos hq n
  have hle : (1 - p) ^ n ≤ 1 := pow_le_one₀ (le_of_lt hq) hq1
  exact ⟨rfl, by linarith, by linarith⟩

/-- C14 at `p = 1/2` and two ranks: the combined probability is
`1 - (1/2)^2 = 3/4`. -/
theorem combined_probfail_eq_witness :
    combined_probfail
      (⟨fun x _ => x, Real.sqrt, fun _ => 0, fun y => Real.exp y - 1,
        fun u => Real.log (1 + u), Real.pi, fun _ => 1⟩ : AllocMath ℝ) 2 (1 / 2) = 3 / 4 := by
  have h := (combined_probfail_eq
    (⟨fun x _ => x, Real.sqrt, fun _ => 0, fun y => Real.exp y - 1,
      fun u => Real.log (1 + u), Real.pi, fun _ => 1⟩ : AllocMath ℝ)
    (fun _ => rfl) (fun _ => rfl) (1 / 2) 2 (by norm_num) (by norm_num) (by decide)).1
  rw [h]
  norm_num

/-! ## Load imbalance -/

theorem allreduce_max_const (np : Nat) (others : List Nat) (h : ∀ o ∈ others, o = np) :
    allreduce_max np others = np := by
  induction others with
  | nil => rfl
  | cons o os ih =>
    have ho : o = np := h o (List.mem_cons_self o os)
    simp only [allreduce_max, List.foldl_cons, ho, max_self]
    exact ih (fun x hx => h x (List.mem_cons_of_mem o hx))

theorem allreduce_min_const (np : Nat) (others : List Nat) (h : ∀ o ∈ others, o = np) :
    allreduce_min np others = np := by
  induction others with
  | nil => rfl
  | cons o os ih =>
    have ho : o = np := h o (List.mem_cons_self o os)
    simp only [allreduce_min, List.foldl_cons, ho, min_self]
    exact ih (fun x hx => h x (List.mem_cons_of_mem o hx))

/-- C15: for every `NTask >= 1` and every particle grid `nc` (a grid has
`nc != 0` particles per side) with `nc^3` divisible by `NTask`, if every rank
holds exactly `nc^3 / NTask` particles after the decomposition, the reported
ratios `np_min / np_mean` and `np_max / np_mean` both equal 1, where
`np_mean = nc^3 / NTask`. -/
theorem load_imbalance_uniform (nc NTask : Int) (np : Nat) (others : List Nat)
    (hnc : nc ≠ 0) (hN : 1 ≤ NTask) (hdiv : NTask ∣ nc ^ 3)
    (hnp : (np : Int) = nc ^ 3 / NTask)
    (hothers : ∀ o ∈ others, ((o : Nat) : Int) = nc ^ 3 / NTask) :
    (load_imbalance nc NTask np others : K × K) = (1, 1) := by
  have hall : ∀ o ∈ others, o = np := by
    intro o ho
    have := hothers o ho
    omega
  have hmul : (np : Int) * NTask = nc ^ 3 := by
    rw [hnp]
    exact Int.ediv_mul_cancel hdiv
  have hcast : (np : K) * (NTask : K) = (nc : K) ^ 3 := by
    have := congrArg (fun z : Int => (z : K)) hmul
    simpa using this
  have hNK : (NTask : K) ≠ 0 := by
    have : (0 : Int) < NTask := by omega
    exact ne_of_gt (Int.cast_pos.mpr this)
  have hncK : (nc : K) ^ 3 ≠ 0 :=
    pow_ne_zero 3 (Int.cast_ne_zero.mpr hnc)
  have hratio : (np : K) / ((nc : K) ^ 3 / (NTask : K)) = 1 := by
    rw [div_div_eq_mul_div, hcast, div_self hncK]
  simp only [load_imbalance, allreduce_max_const np others hall,
    allreduce_min_const np others hall, hratio]

/-- C15 on a grid of `nc = 2` over four ranks holding two particles each. -/
theorem load_imbalance_uniform_witness :
    (load_imbalance 2 4 2 [2, 2, 2] : ℚ × ℚ) = (1, 1) :=
  load_imbalance_uniform 2 4 2 [2, 2, 2] (by decide) (by decide) (by decide) (by decide)
    (by
      intro o ho
      simp only [List.mem_cons, List.mem_singleton, List.not_mem_nil, or_false,
        or_self] at ho
      rw [ho]
      decide)

/-! ## Smoothing kernel lemmas -/

/-- A kernel loop whose body writes the two doubles of its mode, with values
that do not depend on the workspace, and nothing else: below the first mode
nothing is written, and at each visited mode the workspace holds what the body
wrote there. -/
theorem pm_omp_loop_pair_spec {T : Type} (body : Int → Index3 → (Int → T) → (Int → T))
    (hother : ∀ ind i w a, a ≠ ind → a ≠ ind + 1 → body ind i w a = w a)
    (hown : ∀ ind i w w0, body ind i w ind = body ind i w0 ind ∧
      body ind i w (ind + 1) = body ind i w0 (ind + 1))
    (inc : Index3 → Index3) (end_ : Int) :
    ∀ (n : Nat) (ind : Int) (i : Index3) (w : Int → T), (end_ - ind).toNat = n →
      (∀ a, a < ind → pm_omp_loop inc body end_ ind i w a = w a) ∧
      (∀ m ∈ pm_loop_modes inc end_ ind i, ∀ w0 : Int → T,
        pm_omp_loop inc body end_ ind i w m.1 = body m.1 m.2 w0 m.1 ∧
        pm_omp_loop inc body end_ ind i w (m.1 + 1) = body m.1 m.2 w0 (m.1 + 1)) := by
  intro n
  induction n using Nat.strong_induction_on with
  | _ n ih =>
    intro ind i w hn
    by_cases h : ind < end_
    · obtain ⟨ih1, ih2⟩ := ih (end_ - (ind + 2)).toNat (by omega) (ind + 2) (inc i)
        (body ind i w) rfl
      rw [pm_omp_loop_step inc _ end_ ind i w h, pm_loop_modes_step inc end_ ind i h]
      constructor
      · intro a ha
        rw [ih1 a (by omega)]
        exact hother ind i w a (by omega) (by omega)
      · intro m hm w0
        rcases List.mem_cons.1 hm with he | hm2
        · rw [he]
          simp only
          rw [ih1 ind (by omega), ih1 (ind + 1) (by omega)]
          exact hown ind i w w0
        · exact ih2 m hm2 w0
    · rw [pm_omp_loop_stop inc _ end_ ind i w h, pm_loop_modes_stop inc end_ ind i h]
      exact ⟨fun a _ => rfl, fun m hm => absurd hm (List.not_mem_nil m)⟩

theorem smooth_density_body_other (fac : Fin 3 → Int → PMKFactors K) (pm : PM K)
    (ind : Int) (i : Index3) (w : Int → K) (a : Int) (h1 : a ≠ ind) (h2 : a ≠ ind + 1) :
    smooth_density_body fac pm ind i w a = w a := by
  simp only [smooth_density_body]
  split_ifs <;> simp [Function.update, h1, h2]

theorem smooth_density_body_own (fac : Fin 3 → Int → PMKFactors K) (pm : PM K)
    (ind : Int) (i : Index3) (w w0 : Int → K) :
    smooth_density_body fac pm ind i w ind = smooth_density_body fac pm ind i w0 ind ∧
      smooth_density_body fac pm ind i w (ind + 1) =
        smooth_density_body fac pm ind i w0 (ind + 1) := by
  simp only [smooth_density_body]
  split_ifs <;> simp [Function.update]

/-- C16: with an `exp` that turns sums into products, for every smoothing scale
`r_s` and every local mode `(ind, i)` whose three table indices lie inside the
tables (`0 <= i[d] + start[d] < Nmesh[d]`), with `k^2` the sum of the three
per-axis `kk` factors: if `k^2 > 0`, `smooth_density` leaves in the workspace
the canvas value `(re, im)` of the mode multiplied by
`exp(-0.5 * k^2 * r_s^2)`, the product of the three per-axis factors
`exp(-0.5 * kk_d * r_s^2)` being this single exponential; and if `k^2 <= 0` it
leaves `(0, 0)`, the zero rule of the force kernel. -/
theorem smooth_density_value (exp : K → K) (hexp : ∀ x y, exp (x + y) = exp x * exp y)
    (pm : PM K) (r_s : K) (ind : Int) (i : Index3)
    (hm : (ind, i) ∈ pm_modes pm)
    (hidx : ∀ d, 0 ≤ i d + pm.ORegion_start d ∧ i d + pm.ORegion_start d < pm.Nmesh d) :
    ((pm.fac 0 (i 0 + pm.ORegion_start 0)).kk + (pm.fac 1 (i 1 + pm.ORegion_start 1)).kk
        + (pm.fac 2 (i 2 + pm.ORegion_start 2)).kk > 0 →
      (smooth_density exp pm r_s).workspace ind =
          pm.canvas ind * exp (-0.5 *
            ((pm.fac 0 (i 0 + pm.ORegion_start 0)).kk
              + (pm.fac 1 (i 1 + pm.ORegion_start 1)).kk
              + (pm.fac 2 (i 2 + pm.ORegion_start 2)).kk) * r_s ^ 2) ∧
        (smooth_density exp pm r_s).workspace (ind + 1) =
          pm.canvas (ind + 1) * exp (-0.5 *
            ((pm.fac 0 (i 0 + pm.ORegion_start 0)).kk
              + (pm.fac 1 (i 1 + pm.ORegion_start 1)).kk
              + (pm.fac 2 (i 2 + pm.ORegion_start 2)).kk) * r_s ^ 2) ∧
        exp (-0.5 * (pm.fac 0 (i 0 + pm.ORegion_start 0)).kk * r_s * r_s)
            * exp (-0.5 * (pm.fac 1 (i 1 + pm.ORegion_start 1)).kk * r_s * r_s)
            * exp (-0.5 * (pm.fac 2 (i 2 + pm.ORegion_start 2)).kk * r_s * r_s) =
          exp (-0.5 *
            ((pm.fac 0 (i 0 + pm.ORegion_start 0)).kk
              + (pm.fac 1 (i 1 + pm.ORegion_start 1)).kk
              + (pm.fac 2 (i 2 + pm.ORegion_start 2)).kk) * r_s ^ 2)) ∧
    ((pm.fac 0 (i 0 + pm.ORegion_start 0)).kk + (pm.fac 1 (i 1 + pm.ORegion_start 1)).kk
        + (pm.fac 2 (i 2 + pm.ORegion_start 2)).kk ≤ 0 →
      (smooth_density exp pm r_s).workspace ind = 0 ∧
        (smooth_density exp pm r_s).workspace (ind + 1) = 0) := by
  obtain ⟨h1, h2⟩ := (pm_omp_loop_pair_spec
    (smooth_density_body (smooth_density_fac exp pm r_s) pm)
    (smooth_density_body_other _ pm) (smooth_density_body_own _ pm)
    pm.inc_o_index pm.loop_end _ pm.loop_start pm.loop_i pm.workspace rfl).2
    (ind, i) hm pm.workspace
  simp only at h1 h2
  have hfac : ∀ d, smooth_density_fac exp pm r_s d (i d + pm.ORegion_start d) =
      { pm.fac d (i d + pm.ORegion_start d) with
        extra := exp (-0.5 * (pm.fac d (i d + pm.ORegion_start d)).kk * r_s * r_s) } := by
    intro d
    simp only [smooth_density_fac, hidx d, and_self, if_true]
  have hprod : exp (-0.5 * (pm.fac 0 (i 0 + pm.ORegion_start 0)).kk * r_s * r_s)
      * exp (-0.5 * (pm.fac 1 (i 1 + pm.ORegion_start 1)).kk * r_s * r_s)
      * exp (-0.5 * (pm.fac 2 (i 2 + pm.ORegion_start 2)).kk * r_s * r_s) =
      exp (-0.5 *
        ((pm.fac 0 (i 0 + pm.ORegion_start 0)).kk
          + (pm.fac 1 (i 1 + pm.ORegion_start 1)).kk
          + (pm.fac 2 (i 2 + pm.ORegion_start 2)).kk) * r_s ^ 2) := by
    rw [← hexp, ← hexp]
    congr 1
    ring
  have hne : ind ≠ ind + 1 := by omega
  simp only [smooth_density]
  rw [h1, h2]
  simp only [smooth_density_body, hfac, zero_add, one_mul, add_zero]
  constructor
  · intro hk
    simp only [hk, if_true, Function.update_same, Function.update_noteq hne, hprod,
      and_self]
  · intro hk
    simp only [not_lt.mpr hk, gt_iff_lt, if_false, Function.update_same,
      Function.update_noteq hne, and_self]

/-- C16 on the example mesh over the reals with the real exponential, at its
second mode (`k^2 = 1`, canvas value `(3, 4)`) and `r_s = 2`: the output is
`(3 * exp(-2), 4 * exp(-2))`. -/
theorem smooth_density_value_witness :
    (smooth_density Real.exp (example_pm ℝ) 2).workspace 2 = 3 * Real.exp (-2) ∧
      (smooth_density Real.exp (example_pm ℝ) 2).workspace (2 + 1) = 4 * Real.exp (-2) := by
  have h02 : ¬ ((0 : Fin 3) = 2) := by decide
  have h12 : ¬ ((1 : Fin 3) = 2) := by decide
  have h := (smooth_density_value Real.exp Real.exp_add (example_pm ℝ) 2 2
    (Function.update (fun _ => 0) 2 (0 + 1))
    (by rw [example_pm_modes]; simp)
    (by
      intro d
      by_cases hd : d = 2 <;> simp [example_pm, Function.update, hd])).1
    (by norm_num [example_pm, Function.update, h02, h12])
  refine ⟨h.1.trans ?_, h.2.1.trans ?_⟩
  · norm_num [example_pm, Function.update, h02, h12]
  · norm_num [example_pm, Function.update, h02, h12]

/-! ## Force evaluation lemmas -/

/-- The readout loop stores one value for each particle index from `i` on. -/
theorem do_pm_readout_loop_eq (readout : Fin 3 → Nat → K) (density_factor Norm : K)
    (d : Fin 3) :
    ∀ (count i : Nat),
      do_pm_readout_loop readout density_factor Norm d count i =
        (List.range' i count).map
          (fun j => PMEvent.store_acc j d (readout d j * density_factor / Norm)) := by
  intro count
  induction count with
  | zero =>
    intro i
    rfl
  | succ count ih =>
    intro i
    simp only [do_pm_readout_loop, ih, List.range'_succ, List.map_cons, mul_div_assoc]

/-- The stores of the readout loop are not calls. -/
theorem count_store_acc {T : Type} [DecidableEq T] (e : PMEvent T)
    (he : ∀ i d v, e ≠ PMEvent.store_acc i d v) (d : Fin 3) (g : Nat → T) (l : List Nat) :
    (l.map (fun j => PMEvent.store_acc j d (g j))).count e = 0 := by
  induction l with
  | nil => rfl
  | cons j js ih =>
    rw [List.map_cons, List.count_cons_of_ne (he j _ _), ih]

/-- C17: the calls and stores of one force evaluation `do_pm` are, in this
order: `pm_start`; append ghosts with the position attribute; paint
`np + nghosts` particles; forward transform; power-spectrum binning with
`density_factor = pm_nc_factor^3`; then for `d = 0, 1, 2`: force kernel for axis
`d`, inverse transform, the store `acc[i][d] = readout(i) * density_factor / Norm`
for every `i < np + nghosts` in increasing `i` (ghosts included), ghost
reduction with the acceleration attribute of axis `d`; finally destroy ghosts,
`pm_stop` and the barrier. Ghosts are appended exactly once and destroyed
exactly once, and the power spectrum is binned exactly once, before the first
force kernel. -/
theorem do_pm_stage_order (vpm : VPM K) (np nghosts : Nat) (readout : Fin 3 → Nat → K) :
    do_pm vpm np nghosts readout =
      [PMEvent.pm_start, PMEvent.pm_append_ghosts PackAttr.PACK_POS,
        PMEvent.pm_paint (np + nghosts), PMEvent.pm_r2c,
        PMEvent.calculate_powerspectrum ((vpm.pm_nc_factor : K) ^ 3)]
      ++ ([PMEvent.apply_force_kernel 0, PMEvent.pm_c2r]
          ++ (List.range (np + nghosts)).map (fun i => PMEvent.store_acc i 0
                (readout 0 i * (vpm.pm_nc_factor : K) ^ 3 / vpm.pm.Norm))
          ++ [PMEvent.pm_reduce_ghosts PackAttr.PACK_ACC_X])
      ++ ([PMEvent.apply_force_kernel 1, PMEvent.pm_c2r]
          ++ (List.range (np + nghosts)).map (fun i => PMEvent.store_acc i 1
                (readout 1 i * (vpm.pm_nc_factor : K) ^ 3 / vpm.pm.Norm))
          ++ [PMEvent.pm_reduce_ghosts PackAttr.PACK_ACC_Y])
      ++ ([PMEvent.apply_force_kernel 2, PMEvent.pm_c2r]
          ++ (List.range (np + nghosts)).map (fun i => PMEvent.store_acc i 2
                (readout 2 i * (vpm.pm_nc_factor : K) ^ 3 / vpm.pm.Norm))
          ++ [PMEvent.pm_reduce_ghosts PackAttr.PACK_ACC_Z])
      ++ [PMEvent.pm_destroy_ghosts, PMEvent.pm_stop, PMEvent.barrier] ∧
    (∀ a, (do_pm vpm np nghosts readout).count (PMEvent.pm_append_ghosts a) =
      if a = PackAttr.PACK_POS then 1 else 0) ∧
    (do_pm vpm np nghosts readout).count PMEvent.pm_destroy_ghosts = 1 ∧
    (∀ df, (do_pm vpm np nghosts readout).count (PMEvent.calculate_powerspectrum df) =
      if df = (vpm.pm_nc_factor : K) ^ 3 then 1 else 0) := by
  have htrace : do_pm vpm np nghosts readout =
      [PMEvent.pm_start, PMEvent.pm_append_ghosts PackAttr.PACK_POS,
        PMEvent.pm_paint (np + nghosts), PMEvent.pm_r2c,
        PMEvent.calculate_powerspectrum ((vpm.pm_nc_factor : K) ^ 3)]
      ++ ([PMEvent.apply_force_kernel 0, PMEvent.pm_c2r]
          ++ (List.range (np + nghosts)).map (fun i => PMEvent.store_acc i 0
                (readout 0 i * (vpm.pm_nc_factor : K) ^ 3 / vpm.pm.Norm))
          ++ [PMEvent.pm_reduce_ghosts PackAttr.PACK_ACC_X])
      ++ ([PMEvent.apply_force_kernel 1, PMEvent.pm_c2r]
          ++ (List.range (np + nghosts)).map (fun i => PMEvent.store_acc i 1
                (readout 1 i * (vpm.pm_nc_factor : K) ^ 3 / vpm.pm.Norm))
          ++ [PMEvent.pm_reduce_ghosts PackAttr.PACK_ACC_Y])
      ++ ([PMEvent.apply_force_kernel 2, PMEvent.pm_c2r]
          ++ (List.range (np + nghosts)).map (fun i => PMEvent.store_acc i 2
                (readout 2 i * (vpm.pm_nc_factor : K) ^ 3 / vpm.pm.Norm))
          ++ [PMEvent.pm_reduce_ghosts PackAttr.PACK_ACC_Z])
      ++ [PMEvent.pm_destroy_ghosts, PMEvent.pm_stop, PMEvent.barrier] := by
    simp only [do_pm, do_pm_axes, do_pm_axis, do_pm_readout_loop_eq, do_pm_density_factor,
      do_pm_ACC, List.range_eq_range', List.append_nil, List.append_assoc]
  have hc : ∀ (e : PMEvent K), (∀ i d v, e ≠ PMEvent.store_acc i d v) → ∀ d : Fin 3,
      ((List.range (np + nghosts)).map (fun i => PMEvent.store_acc i d
        (readout d i * (vpm.pm_nc_factor : K) ^ 3 / vpm.pm.Norm))).count e = 0 :=
    fun e he d => count_store_acc e he d _ _
  refine ⟨htrace, ?_, ?_, ?_⟩
  · intro a
    rw [htrace]
    simp only [List.count_append, List.count_cons, List.count_nil,
      hc (PMEvent.pm_append_ghosts a) (fun _ _ _ => by simp)]
    cases a <;> simp
  · rw [htrace]
    simp only [List.count_append, List.count_cons, List.count_nil,
      hc PMEvent.pm_destroy_ghosts (fun _ _ _ => by simp)]
    simp
  · intro df
    rw [htrace]
    simp only [List.count_append, List.count_cons, List.count_nil,
      hc (PMEvent.calculate_powerspectrum df) (fun _ _ _ => by simp)]
    by_cases h : df = (vpm.pm_nc_factor : K) ^ 3
    · simp [h]
    · simp [h, Ne.symm h]

/-! ## Cosmology lemmas -/

/-- With `pow(x, n) = x^n` for `n = 2, 3, 4`, `OmegaSum` is the sum under the
root of `HubbleEa` divided by the square of `HubbleEa`. -/
theorem OmegaSum_eq (m : CosmoMath K) (a : K) (c : FastPMCosmology K)
    (hpow : ∀ x : K, m.pow x 2 = x ^ 2 ∧ m.pow x 3 = x ^ 3 ∧ m.pow x 4 = x ^ 4) :
    OmegaSum m a c =
      (Omega_r m c / (a * a * a * a) + c.Omega_cdm / (a * a * a)
        + Omega_ncdmTimesHubbleEaSq m a c + Omega_Lambda m c)
      / (m.sqrt (Omega_r m c / (a * a * a * a) + c.Omega_cdm / (a * a * a)
        + Omega_ncdmTimesHubbleEaSq m a c + Omega_Lambda m c)) ^ 2 := by
  have h4 : a ^ 4 = a * a * a * a := by ring
  have h3 : a ^ 3 = a * a * a := by ring
  simp only [OmegaSum, HubbleEa, (hpow _).1, (hpow _).2.1, (hpow _).2.2, h4, h3]

/-- A negative sum under the root of `HubbleEa` keeps `OmegaSum` away from 1,
whatever `sqrt` returns there. -/
theorem OmegaSum_ne_one_of_neg (m : CosmoMath K) (a : K) (c : FastPMCosmology K)
    (hpow : ∀ x : K, m.pow x 2 = x ^ 2 ∧ m.pow x 3 = x ^ 3 ∧ m.pow x 4 = x ^ 4)
    (hneg : Omega_r m c / (a * a * a * a) + c.Omega_cdm / (a * a * a)
        + Omega_ncdmTimesHubbleEaSq m a c + Omega_Lambda m c < 0) :
    OmegaSum m a c ≠ 1 := by
  rw [OmegaSum_eq m a c hpow]
  intro h
  have hsq : (0 : K) ≤ (m.sqrt (Omega_r m c / (a * a * a * a) + c.Omega_cdm / (a * a * a)
      + Omega_ncdmTimesHubbleEaSq m a c + Omega_Lambda m c)) ^ 2 := sq_nonneg _
  have hle : (Omega_r m c / (a * a * a * a) + c.Omega_cdm / (a * a * a)
      + Omega_ncdmTimesHubbleEaSq m a c + Omega_Lambda m c)
      / (m.sqrt (Omega_r m c / (a * a * a * a) + c.Omega_cdm / (a * a * a)
        + Omega_ncdmTimesHubbleEaSq m a c + Omega_Lambda m c)) ^ 2 ≤ 0 :=
    div_nonpos_of_nonpos_of_nonneg (le_of_lt hneg) hsq
  rw [h] at hle
  exact absurd hle (not_le.mpr one_pos)

theorem example_cosmo_math_pow (x : ℚ) :
    example_cosmo_math.pow x 2 = x ^ 2 ∧ example_cosmo_math.pow x 3 = x ^ 3 ∧
      example_cosmo_math.pow x 4 = x ^ 4 := by
  simp [example_cosmo_math]

/-- The sum under the root of `HubbleEa` is at least 1 at every scale factor
`0 < a <= 1` when the radiation and matter densities are not negative and the
massive-neutrino term at `a` is not below its value at `a = 1`: `Omega_Lambda`
closes the sum to 1 at `a = 1`, and the other terms do not shrink towards the
past. -/
theorem HubbleEa_sum_pos (m : CosmoMath K) (a : K) (c : FastPMCosmology K)
    (ha0 : 0 < a) (ha1 : a ≤ 1) (hr : 0 ≤ Omega_r m c) (hc : 0 ≤ c.Omega_cdm)
    (hn : Omega_ncdmTimesHubbleEaSq m 1 c ≤ Omega_ncdmTimesHubbleEaSq m a c) :
    1 ≤ Omega_r m c / (a * a * a * a) + c.Omega_cdm / (a * a * a)
        + Omega_ncdmTimesHubbleEaSq m a c + Omega_Lambda m c := by
  have h2 : a * a ≤ 1 := mul_le_one₀ ha1 (le_of_lt ha0) ha1
  have h3 : a * a * a ≤ 1 := mul_le_one₀ h2 (le_of_lt ha0) ha1
  have h4 : a * a * a * a ≤ 1 := mul_le_one₀ h3 (le_of_lt ha0) ha1
  have p3 : 0 < a * a * a := mul_pos (mul_pos ha0 ha0) ha0
  have p4 : 0 < a * a * a * a := mul_pos p3 ha0
  have e3 : c.Omega_cdm ≤ c.Omega_cdm / (a * a * a) :=
    (le_div_iff₀ p3).mpr (mul_le_of_le_one_right hc h3)
  have e4 : Omega_r m c ≤ Omega_r m c / (a * a * a * a) :=
    (le_div_iff₀ p4).mpr (mul_le_of_le_one_right hr h4)
  simp only [Omega_Lambda]
  linarith

/-- C18: with `pow(x, n) = x^n` and `sqrt` the square root on non-negative
numbers, for every scale factor `a` and every cosmology `c` at which the
expansion rate exists and is not zero, that is, at which the sum
`Omega_r/a^4 + Omega_cdm/a^3 + Omega_ncdm(a)*E(a)^2 + Omega_Lambda` under the
root of `HubbleEa` is positive, `HubbleEa(a, c)^2` is that sum and
`OmegaSum(a, c)` equals 1. -/
theorem OmegaSum_eq_one (m : CosmoMath K) (a : K) (c : FastPMCosmology K)
    (hpow : ∀ x : K, m.pow x 2 = x ^ 2 ∧ m.pow x 3 = x ^ 3 ∧ m.pow x 4 = x ^ 4)
    (hsqrt : ∀ x : K, 0 ≤ x → m.sqrt x ^ 2 = x)
    (hpos : 0 < Omega_r m c / (a * a * a * a) + c.Omega_cdm / (a * a * a)
        + Omega_ncdmTimesHubbleEaSq m a c + Omega_Lambda m c) :
    OmegaSum m a c = 1 ∧
      HubbleEa m a c ^ 2 = Omega_r m c / (a * a * a * a) + c.Omega_cdm / (a * a * a)
        + Omega_ncdmTimesHubbleEaSq m a c + Omega_Lambda m c := by
  have hE : HubbleEa m a c ^ 2 = Omega_r m c / (a * a * a * a) + c.Omega_cdm / (a * a * a)
      + Omega_ncdmTimesHubbleEaSq m a c + Omega_Lambda m c := by
    simp only [HubbleEa]
    exact hsqrt _ (le_of_lt hpos)
  refine ⟨?_, hE⟩
  rw [OmegaSum_eq m a c hpow]
  simp only [HubbleEa] at hE
  rw [hE]
  exact div_self (ne_of_gt hpos)

/-- C18 over the reals with the real square root, for the cosmology without
radiation and with `Omega_cdm = 0.3` at `a = 2`, where the sum is
`0.3 / 8 + 0.7`. -/
theorem OmegaSum_eq_one_witness :
    OmegaSum (⟨fun x y => x ^ ⌊y⌋₊, Real.sqrt, Real.pi, fun _ _ => 0⟩ : CosmoMath ℝ) 2
      (example_flat_cosmology ℝ) = 1 :=
  (OmegaSum_eq_one (⟨fun x y => x ^ ⌊y⌋₊, Real.sqrt, Real.pi, fun _ _ => 0⟩ : CosmoMath ℝ) 2
    (example_flat_cosmology ℝ)
    (fun x => by simp)
    (fun x hx => Real.sq_sqrt hx)
    (by
      norm_num [Omega_r, Omega_g, Omega_ur, Gamma_nu, Omega_ncdmTimesHubbleEaSq, Omega_Lambda,
        example_flat_cosmology])).1

/-! ## The mean wavenumber of a bin -/

/-- Weighted sums of values inside `[lo, hi)` with positive weights:
`lo * sum w <= sum (w * k) <= hi * sum w`, strictly below as soon as the sum of
the weights is positive. -/
theorem weighted_sum_bounds {A : Type} (w k : A → K) (lo hi : K) (l : List A)
    (h : ∀ x ∈ l, 0 < w x ∧ lo ≤ k x ∧ k x < hi) :
    0 ≤ (l.map w).sum ∧
      lo * (l.map w).sum ≤ (l.map (fun x => w x * k x)).sum ∧
      (l.map (fun x => w x * k x)).sum ≤ hi * (l.map w).sum ∧
      (0 < (l.map w).sum → (l.map (fun x => w x * k x)).sum < hi * (l.map w).sum) := by
  induction l with
  | nil => simp
  | cons x xs ih =>
    obtain ⟨hw, hlo, hhi⟩ := h x (List.mem_cons_self x xs)
    obtain ⟨i1, i2, i3, -⟩ := ih (fun y hy => h y (List.mem_cons_of_mem x hy))
    have e1 : lo * w x ≤ w x * k x := by
      rw [mul_comm lo]
      exact mul_le_mul_of_nonneg_left hlo (le_of_lt hw)
    have e2 : w x * k x < hi * w x := by
      rw [mul_comm hi]
      exact mul_lt_mul_of_pos_left hhi hw
    simp only [List.map_cons, List.sum_cons, mul_add]
    refine ⟨by linarith, by linarith, by linarith, fun _ => by linarith⟩

/-- The bounds of `weighted_sum_bounds` add up. -/
theorem bin_bounds_add (lo hi n1 k1 n2 k2 : K)
    (h1 : 0 ≤ n1 ∧ lo * n1 ≤ k1 ∧ k1 ≤ hi * n1 ∧ (0 < n1 → k1 < hi * n1))
    (h2 : 0 ≤ n2 ∧ lo * n2 ≤ k2 ∧ k2 ≤ hi * n2 ∧ (0 < n2 → k2 < hi * n2)) :
    0 ≤ n1 + n2 ∧ lo * (n1 + n2) ≤ k1 + k2 ∧ k1 + k2 ≤ hi * (n1 + n2) ∧
      (0 < n1 + n2 → k1 + k2 < hi * (n1 + n2)) := by
  obtain ⟨a1, a2, a3, a4⟩ := h1
  obtain ⟨b1, b2, b3, b4⟩ := h2
  refine ⟨by linarith, by rw [mul_add]; linarith, by rw [mul_add]; linarith, ?_⟩
  intro hpos
  rw [mul_add]
  rcases lt_or_eq_of_le a1 with hn1 | hn1
  · have := a4 hn1
    linarith
  · have hn2 : 0 < n2 := by
      rw [← hn1] at hpos
      simpa using hpos
    have := b4 hn2
    linarith

theorem mode_weight_pos (i : Index3) : (0 : K) < mode_weight i := by
  simp only [mode_weight]
  split_ifs <;> norm_num

section MeanWavenumber

variable [FloorRing K]

/-- A mode of bin `b` has `b * k0 <= |k| < (b + 1) * k0` when `k0 > 0`. -/
theorem mode_k_in_bin (m : CMath K) (pm : PM K) (i : Index3) (b : Int)
    (hk0 : 0 < powerspectrum_k0 m pm) (hbin : mode_bin m pm i = b) :
    (b : K) * powerspectrum_k0 m pm ≤ mode_k m pm i ∧
      mode_k m pm i < ((b : K) + 1) * powerspectrum_k0 m pm := by
  simp only [mode_bin] at hbin
  obtain ⟨h1, h2⟩ := Int.floor_eq_iff.mp hbin
  exact ⟨(le_div_iff₀ hk0).mp h1, (div_lt_iff₀ hk0).mp h2⟩

/-- On one rank that runs the parallel region with one thread, the accumulated
`N[b]` and `k[b]` of a bin of `[0, size)` satisfy
`b * k0 * N <= k <= (b + 1) * k0 * N`, strictly below when `N > 0`. -/
theorem calculate_powerspectrum_local_bounds (m : CMath K) (pm : PM K)
    (ps : PowerSpectrum K) (schedule : List Nat) (b : Int) (hb0 : 0 ≤ b)
    (hb1 : b < (ps.size : Int)) (hk0 : 0 < powerspectrum_k0 m pm) :
    0 ≤ (calculate_powerspectrum_local m pm ps (omp_one_thread pm schedule)).N b ∧
      (b : K) * powerspectrum_k0 m pm *
          (calculate_powerspectrum_local m pm ps (omp_one_thread pm schedule)).N b ≤
        (calculate_powerspectrum_local m pm ps (omp_one_thread pm schedule)).k b ∧
      (calculate_powerspectrum_local m pm ps (omp_one_thread pm schedule)).k b ≤
        ((b : K) + 1) * powerspectrum_k0 m pm *
          (calculate_powerspectrum_local m pm ps (omp_one_thread pm schedule)).N b ∧
      (0 < (calculate_powerspectrum_local m pm ps (omp_one_thread pm schedule)).N b →
        (calculate_powerspectrum_local m pm ps (omp_one_thread pm schedule)).k b <
          ((b : K) + 1) * powerspectrum_k0 m pm *
            (calculate_powerspectrum_local m pm ps (omp_one_thread pm schedule)).N b) := by
  obtain ⟨hN, -, hk⟩ := calculate_powerspectrum_local_sums m pm ps schedule b hb0 hb1
  rw [hN, hk]
  apply weighted_sum_bounds (fun md : Int × Index3 => mode_weight (K := K) md.2)
    (fun md => mode_k m pm md.2)
  intro md hmd
  have hbin : mode_bin m pm md.2 = b := by
    have := (List.mem_filter.mp hmd).2
    simpa using this
  obtain ⟨h1, h2⟩ := mode_k_in_bin m pm md.2 b hk0 hbin
  exact ⟨mode_weight_pos md.2, h1, h2⟩

/-- The spectrum stored by `calculate_powerspectrum` in a bin of `[0, size)`:
`k = sum_k / N` and `N` the summed count, the sums running over what the
parallel region left on this rank and on the other ranks. -/
theorem calculate_powerspectrum_bin (m : CMath K) (pm : PM K) (ps : PowerSpectrum K)
    (density_factor : K) (others : List (PowerSpectrum K)) (run : OmpRun) (b : Int)
    (hb0 : 0 ≤ b) (hb1 : b < (ps.size : Int)) :
    (calculate_powerspectrum m pm ps density_factor others run).N b =
        (calculate_powerspectrum_local m pm ps run).N b
          + (others.map (fun o => o.N b)).sum ∧
      (calculate_powerspectrum m pm ps density_factor others run).k b =
        ((calculate_powerspectrum_local m pm ps run).k b
            + (others.map (fun o => o.k b)).sum) /
          ((calculate_powerspectrum_local m pm ps run).N b
            + (others.map (fun o => o.N b)).sum) := by
  have hsz : (calculate_powerspectrum_reduce
      (calculate_powerspectrum_local m pm ps run) others).size = ps.size := by
    simp only [calculate_powerspectrum_reduce]
    exact calculate_powerspectrum_local_size m pm ps run
  have hsz2 : b < ((calculate_powerspectrum_local m pm ps run).size : Int) := by
    rw [calculate_powerspectrum_local_size]
    exact hb1
  obtain ⟨hN, -, hb⟩ := calculate_powerspectrum_normalize_prefix pm density_factor
    (calculate_powerspectrum_reduce (calculate_powerspectrum_local m pm ps run) others)
    (calculate_powerspectrum_reduce (calculate_powerspectrum_local m pm ps run) others).size
  obtain ⟨hk, -⟩ := (hb b).1 ⟨hb0, by rw [hsz]; exact hb1⟩
  simp only [calculate_powerspectrum, calculate_powerspectrum_normalize]
  rw [hN, hk]
  simp only [calculate_powerspectrum_reduce, allreduce_sum, hb0, hsz2, and_self, if_true,
    List.map_map, Function.comp_def]

/-- The sums over the other ranks, each holding its own accumulation by one
thread with the same `k0`, satisfy the bounds of a bin. -/
theorem calculate_powerspectrum_others_bounds (m : CMath K) (pm : PM K)
    (ps : PowerSpectrum K) (b : Int) (hb0 : 0 ≤ b) (hb1 : b < (ps.size : Int))
    (hk0 : 0 < powerspectrum_k0 m pm) :
    ∀ ranks : List (PM K × PowerSpectrum K × List Nat),
      (∀ r ∈ ranks, r.1.BoxSize 0 = pm.BoxSize 0 ∧ r.2.1.size = ps.size) →
      0 ≤ ((ranks.map (fun r =>
              calculate_powerspectrum_local m r.1 r.2.1 (omp_one_thread r.1 r.2.2))).map
            (fun o => o.N b)).sum ∧
        (b : K) * powerspectrum_k0 m pm *
            ((ranks.map (fun r =>
                calculate_powerspectrum_local m r.1 r.2.1 (omp_one_thread r.1 r.2.2))).map
              (fun o => o.N b)).sum ≤
          ((ranks.map (fun r =>
              calculate_powerspectrum_local m r.1 r.2.1 (omp_one_thread r.1 r.2.2))).map
            (fun o => o.k b)).sum ∧
        ((ranks.map (fun r =>
              calculate_powerspectrum_local m r.1 r.2.1 (omp_one_thread r.1 r.2.2))).map
            (fun o => o.k b)).sum ≤
          ((b : K) + 1) * powerspectrum_k0 m pm *
            ((ranks.map (fun r =>
                calculate_powerspectrum_local m r.1 r.2.1 (omp_one_thread r.1 r.2.2))).map
              (fun o => o.N b)).sum ∧
        (0 < ((ranks.map (fun r =>
                calculate_powerspectrum_local m r.1 r.2.1 (omp_one_thread r.1 r.2.2))).map
              (fun o => o.N b)).sum →
          ((ranks.map (fun r =>
                calculate_powerspectrum_local m r.1 r.2.1 (omp_one_thread r.1 r.2.2))).map
              (fun o => o.k b)).sum <
            ((b : K) + 1) * powerspectrum_k0 m pm *
              ((ranks.map (fun r =>
                  calculate_powerspectrum_local m r.1 r.2.1 (omp_one_thread r.1 r.2.2))).map
                (fun o => o.N b)).sum) := by
  intro ranks
  induction ranks with
  | nil =>
    intro _
    simp
  | cons r rs ih =>
    intro h
    obtain ⟨hbox, hsize⟩ := h r (List.mem_cons_self r rs)
    have hk0r : 0 < powerspectrum_k0 m r.1 := by
      simp only [powerspectrum_k0, hbox]
      exact hk0
    have hkeq : powerspectrum_k0 m r.1 = powerspectrum_k0 m pm := by
      simp only [powerspectrum_k0, hbox]
    have hr := calculate_powerspectrum_local_bounds m r.1 r.2.1 r.2.2 b hb0
      (by rw [hsize]; exact hb1) hk0r
    rw [hkeq] at hr
    have hrs := ih (fun x hx => h x (List.mem_cons_of_mem r hx))
    simp only [List.map_cons, List.sum_cons]
    exact bin_bounds_add _ _ _ _ _ _ hr hrs

/-- When every rank runs the parallel region with one thread: for every bin
`b` of `[0, size)` that holds at least one mode (`N[b] > 0`) and
`k0 = 2 * M_PI / BoxSize[0] > 0`, the mean wavenumber that
`calculate_powerspectrum` stores, summed over this rank and the other ranks of
the same box and spectrum size and then normalized, lies in the range of the
bin: `b * k0 <= k[b] < (b + 1) * k0`. -/
theorem calculate_powerspectrum_mean_k_one_thread (m : CMath K) (pm : PM K)
    (ps : PowerSpectrum K) (density_factor : K)
    (ranks : List (PM K × PowerSpectrum K × List Nat)) (schedule : List Nat) (b : Int)
    (hb0 : 0 ≤ b) (hb1 : b < (ps.size : Int))
    (hranks : ∀ r ∈ ranks, r.1.BoxSize 0 = pm.BoxSize 0 ∧ r.2.1.size = ps.size)
    (hk0 : 0 < 2 * m.M_PI / pm.BoxSize 0)
    (hN : 0 < (calculate_powerspectrum m pm ps density_factor
      (ranks.map (fun r =>
        calculate_powerspectrum_local m r.1 r.2.1 (omp_one_thread r.1 r.2.2)))
      (omp_one_thread pm schedule)).N b) :
    (b : K) * (2 * m.M_PI / pm.BoxSize 0) ≤
        (calculate_powerspectrum m pm ps density_factor
          (ranks.map (fun r =>
            calculate_powerspectrum_local m r.1 r.2.1 (omp_one_thread r.1 r.2.2)))
          (omp_one_thread pm schedule)).k b ∧
      (calculate_powerspectrum m pm ps density_factor
          (ranks.map (fun r =>
            calculate_powerspectrum_local m r.1 r.2.1 (omp_one_thread r.1 r.2.2)))
          (omp_one_thread pm schedule)).k b <
        ((b : K) + 1) * (2 * m.M_PI / pm.BoxSize 0) := by
  have hk0' : 0 < powerspectrum_k0 m pm := hk0
  obtain ⟨eN, ek⟩ := calculate_powerspectrum_bin m pm ps density_factor
    (ranks.map (fun r =>
      calculate_powerspectrum_local m r.1 r.2.1 (omp_one_thread r.1 r.2.2)))
    (omp_one_thread pm schedule) b hb0 hb1
  have hl := calculate_powerspectrum_local_bounds m pm ps schedule b hb0 hb1 hk0'
  have ho := calculate_powerspectrum_others_bounds m pm ps b hb0 hb1 hk0' ranks hranks
  obtain ⟨-, t2, -, t4⟩ := bin_bounds_add _ _ _ _ _ _ hl ho
  rw [eN] at hN
  rw [ek]
  have t4' := t4 hN
  simp only [powerspectrum_k0] at t2 t4'
  exact ⟨(le_div_iff₀ hN).mpr t2, (div_lt_iff₀ hN).mpr t4'⟩

end MeanWavenumber

/-! ## Mode counting lemmas -/

section ModeCounting

variable [FloorRing K]

end ModeCounting

theorem nat_sqrt_four : (Int.toNat 4).sqrt = 2 :=
  (Nat.eq_sqrt.mpr ⟨by decide, by decide⟩).symm

theorem example_row4_modes :
    pm_modes example_row4 = [(0, ![0, 0, 0]), (2, ![1, 0, 0]), (4, ![2, 0, 0])] := by
  have i1 : example_row4.inc_o_index ![0, 0, 0] = ![1, 0, 0] := by simp [example_row4]
  have i2 : example_row4.inc_o_index ![1, 0, 0] = ![2, 0, 0] := by simp [example_row4]
  show pm_loop_modes example_row4.inc_o_index 6 0 ![0, 0, 0] = _
  rw [pm_loop_modes_step _ _ _ _ (by decide), i1, show (0 : Int) + 2 = 2 from rfl,
    pm_loop_modes_step _ _ _ _ (by decide), i2, show (2 : Int) + 2 = 4 from rfl,
    pm_loop_modes_step _ _ _ _ (by decide), show (4 : Int) + 2 = 6 from rfl,
    pm_loop_modes_stop _ _ _ _ (by decide)]

/-- The two ranges of `example_race_run` split the local modes of
`example_row4` between the two threads. -/
theorem example_race_run_ranges :
    pm_loop_modes example_row4.inc_o_index 2 0 ![0, 0, 0]
        ++ pm_loop_modes example_row4.inc_o_index 6 2 ![1, 0, 0] = pm_modes example_row4 := by
  have i2 : example_row4.inc_o_index ![1, 0, 0] = ![2, 0, 0] := by simp [example_row4]
  rw [example_row4_modes, pm_loop_modes_step _ _ _ _ (by decide),
    show (0 : Int) + 2 = 2 from rfl, pm_loop_modes_stop _ _ _ _ (by decide),
    pm_loop_modes_step _ _ _ _ (by decide), i2, show (2 : Int) + 2 = 4 from rfl,
    pm_loop_modes_step _ _ _ _ (by decide), show (4 : Int) + 2 = 6 from rfl,
    pm_loop_modes_stop _ _ _ _ (by decide)]
  rfl

/-- The statements of thread 0 of `example_race_run`: the mode `(1, 0, 0)`,
of bin 1, weight 1 and value `1^2 + 2^2`. -/
theorem example_race_thread0 :
    calculate_powerspectrum_thread example_cmath_pi example_row4 2 ⟨0, 2, ![0, 0, 0]⟩
      = [⟨PSArray.N, 1, 1⟩, ⟨PSArray.p, 1, 5⟩, ⟨PSArray.k, 1, 1⟩] := by
  simp only [calculate_powerspectrum_thread]
  rw [pm_omp_loop_step _ _ _ _ _ _ (by decide), pm_omp_loop_stop _ _ _ _ _ _ (by decide)]
  norm_num [calculate_powerspectrum_updates, mode_bin, mode_k, mode_kk, powerspectrum_k0,
    mode_weight, mode_value, example_row4, example_fac4, example_cmath_pi]

/-- The statements of thread 1 of `example_race_run`: none for the mode
`(2, 0, 0)`, of bin 2, and three for the mode `(3, 0, 0)`, of bin 1, weight 1
and value `5^2 + 6^2`. -/
theorem example_race_thread1 :
    calculate_powerspectrum_thread example_cmath_pi example_row4 2 ⟨2, 6, ![1, 0, 0]⟩
      = [⟨PSArray.N, 1, 1⟩, ⟨PSArray.p, 1, 61⟩, ⟨PSArray.k, 1, 1⟩] := by
  simp only [calculate_powerspectrum_thread]
  rw [pm_omp_loop_step _ _ _ _ _ _ (by decide), pm_omp_loop_step _ _ _ _ _ _ (by decide),
    pm_omp_loop_stop _ _ _ _ _ _ (by decide)]
  norm_num [calculate_powerspectrum_updates, mode_bin, mode_k, mode_kk, powerspectrum_k0,
    mode_weight, mode_value, example_row4, example_fac4, example_cmath_pi, nat_sqrt_four]

/-- What the parallel region leaves in bin 1 under `example_race_run`: the
write of `N[1]` by thread 0 overwrites the count of thread 1. -/
theorem example_race_local :
    (calculate_powerspectrum_local example_cmath_pi example_row4 (example_ps ℚ)
        example_race_run).N 1 = 1 ∧
      (calculate_powerspectrum_local example_cmath_pi example_row4 (example_ps ℚ)
        example_race_run).p 1 = 66 ∧
      (calculate_powerspectrum_local example_cmath_pi example_row4 (example_ps ℚ)
        example_race_run).k 1 = 2 := by
  have h0 := example_race_thread0
  have h1 := example_race_thread1
  simp only [calculate_powerspectrum_local, example_race_run, List.map_cons, List.map_nil]
  have hs : (example_ps ℚ).size = 2 := rfl
  rw [hs, h0, h1]
  norm_num [omp_join, omp_step, omp_thread_step, omp_thread_finish, ps_load, ps_store,
    memset_zero, example_ps, List.get?, List.set]

/-- The weighted sums over the local modes of bin 1 of `example_row4`: two
modes of weight 1, values `5` and `61`, and `|k| = 1`. -/
theorem example_row4_bin_one_sums :
    (((pm_modes example_row4).filter
        (fun md => decide (mode_bin example_cmath_pi example_row4 md.2 = 1))).map
      (fun md => mode_weight (K := ℚ) md.2)).sum = 2 ∧
    (((pm_modes example_row4).filter
        (fun md => decide (mode_bin example_cmath_pi example_row4 md.2 = 1))).map
      (fun md => mode_weight (K := ℚ) md.2 * mode_value example_row4 md.1)).sum = 66 ∧
    (((pm_modes example_row4).filter
        (fun md => decide (mode_bin example_cmath_pi example_row4 md.2 = 1))).map
      (fun md => mode_weight (K := ℚ) md.2 * mode_k example_cmath_pi example_row4 md.2)).sum
      = 2 := by
  rw [example_row4_modes]
  refine ⟨?_, ?_, ?_⟩ <;>
    norm_num [List.filter_cons, mode_bin, mode_k, mode_kk, powerspectrum_k0, mode_weight,
      mode_value, example_row4, example_fac4, example_cmath_pi, nat_sqrt_four]

/-- C9 does not hold of the code when the parallel region runs on two threads.
On `example_row4` (`k0 = 1`, spectrum of size 2) the local modes `(1, 0, 0)`
and `(3, 0, 0)` both have `floor(|k| / k0) = 1` and weight 1, so C9 gives
`N[1] = 2`, which is what a team of one thread leaves. Under
`example_race_run`, whose two ranges split the local modes between two
threads, thread 0 reads `N[1]` before thread 1 adds to it and writes after,
and the region ends with `N[1] = 1`: one count is lost, while `p[1]` and
`k[1]` hold the full sums 66 and 2. -/
theorem calculate_powerspectrum_local_lost_update :
    (pm_loop_modes example_row4.inc_o_index 2 0 ![0, 0, 0]
        ++ pm_loop_modes example_row4.inc_o_index 6 2 ![1, 0, 0] = pm_modes example_row4) ∧
      (((pm_modes example_row4).filter
          (fun md => decide (mode_bin example_cmath_pi example_row4 md.2 = 1))).map
        (fun md => mode_weight (K := ℚ) md.2)).sum = 2 ∧
      (calculate_powerspectrum_local example_cmath_pi example_row4 (example_ps ℚ)
        (omp_one_thread example_row4 [])).N 1 = 2 ∧
      (calculate_powerspectrum_local example_cmath_pi example_row4 (example_ps ℚ)
        example_race_run).N 1 = 1 ∧
      (calculate_powerspectrum_local example_cmath_pi example_row4 (example_ps ℚ)
        example_race_run).p 1 = 66 ∧
      (calculate_powerspectrum_local example_cmath_pi example_row4 (example_ps ℚ)
        example_race_run).k 1 = 2 := by
  refine ⟨example_race_run_ranges, example_row4_bin_one_sums.1, ?_, example_race_local⟩
  rw [(calculate_powerspectrum_local_sums example_cmath_pi example_row4 (example_ps ℚ) [] 1
    (by decide) (by decide)).1]
  exact example_row4_bin_one_sums.1

/-- C20 does not hold of the code when the parallel region runs on two
threads. On `example_row4` with `k0 = 1` and no other rank, under
`example_race_run`, bin 1 ends with `N[1] = 1 > 0` and the mean wavenumber
`k[1] = 2 / 1 = 2`, which is not below `(1 + 1) * k0 = 2`: the lost count of
`N[1]` moves the mean of two modes of `|k| = 1` out of the range `[1, 2)` of
the bin. -/
theorem calculate_powerspectrum_mean_k_lost_update :
    (0 : ℚ) < 2 * example_cmath_pi.M_PI / example_row4.BoxSize 0 ∧
      (0 : ℚ) < (calculate_powerspectrum example_cmath_pi example_row4 (example_ps ℚ) 1 []
        example_race_run).N 1 ∧
      (calculate_powerspectrum example_cmath_pi example_row4 (example_ps ℚ) 1 []
        example_race_run).k 1 = 2 ∧
      ¬ ((calculate_powerspectrum example_cmath_pi example_row4 (example_ps ℚ) 1 []
          example_race_run).k 1 <
        (((1 : Int) : ℚ) + 1) * (2 * example_cmath_pi.M_PI / example_row4.BoxSize 0)) := by
  obtain ⟨eN, ek⟩ := calculate_powerspectrum_bin example_cmath_pi example_row4 (example_ps ℚ)
    1 [] example_race_run 1 (by decide) (by decide)
  obtain ⟨hN, -, hk⟩ := example_race_local
  rw [eN, ek, hN, hk]
  norm_num [example_cmath_pi, example_row4]

/-! ## Termination of the allocation-factor search -/

/-- While no factor passes the test, `n` passes of the search loop lead from
`factor` to `factor * 1.01 ^ n`. -/
theorem estimate_alloc_factor_loop_advance (m : AllocMath K) (sigma : K) (NTask : Int)
    (failure_rate : K) :
    ∀ (n fuel : Nat) (factor : K),
      (∀ k, k < n → ¬ alloc_probfail m sigma NTask (factor * 1.01 ^ k) < failure_rate) →
      estimate_alloc_factor_loop m sigma NTask failure_rate (n + fuel) factor =
        estimate_alloc_factor_loop m sigma NTask failure_rate fuel (factor * 1.01 ^ n) := by
  intro n
  induction n with
  | zero =>
    intro fuel factor _
    rw [Nat.zero_add, pow_zero, mul_one]
  | succ n ih =>
    intro fuel factor h
    have h0 : ¬ alloc_probfail m sigma NTask factor < failure_rate := by
      have := h 0 (Nat.succ_pos n)
      rwa [pow_zero, mul_one] at this
    have hmul : ∀ j : Nat, factor * 1.01 * (1.01 : K) ^ j = factor * 1.01 ^ (j + 1) := by
      intro j
      rw [pow_succ]
      ring
    rw [show n + 1 + fuel = (n + fuel) + 1 by omega]
    simp only [estimate_alloc_factor_loop, h0, if_false]
    rw [ih fuel (factor * 1.01) (by
      intro k hk
      rw [hmul]
      exact h (k + 1) (by omega)), hmul]

/-- Over the reals with `expm1(y) = exp(y) - 1` and `log1p(u) = log(1 + u)`,
the combined probability of `n` ranks is `1 - (1 - p) ^ n` for `0 <= p < 1`. -/
theorem combined_probfail_real (m : AllocMath ℝ)
    (hexpm1 : ∀ y, m.expm1 y = Real.exp y - 1)
    (hlog1p : ∀ u, m.log1p u = Real.log (1 + u))
    (p : ℝ) (n : Nat) (hp1 : p < 1) :
    combined_probfail m (n : Int) p = 1 - (1 - p) ^ n := by
  have hq : (0 : ℝ) < 1 - p := by linarith
  simp only [combined_probfail, hexpm1, hlog1p, Int.cast_natCast]
  rw [mul_comm, Real.exp_nat_mul, ← sub_eq_add_neg, Real.exp_log hq]
  ring

/-- For `0 < p < 1` and at least one rank, the combined probability is positive
and at most `n * p`. -/
theorem combined_probfail_real_bounds (m : AllocMath ℝ)
    (hexpm1 : ∀ y, m.expm1 y = Real.exp y - 1)
    (hlog1p : ∀ u, m.log1p u = Real.log (1 + u))
    (p : ℝ) (n : Nat) (hp0 : 0 < p) (hp1 : p < 1) (hn : 1 ≤ n) :
    0 < combined_probfail m (n : Int) p ∧ combined_probfail m (n : Int) p ≤ n * p := by
  rw [combined_probfail_real m hexpm1 hlog1p p n hp1]
  have hq0 : (0 : ℝ) ≤ 1 - p := by linarith
  have hq1 : 1 - p < 1 := by linarith
  have hlt : (1 - p) ^ n < 1 := pow_lt_one₀ hq0 hq1 (by omega)
  have hbern : 1 + (n : ℝ) * (-p) ≤ (1 + -p) ^ n :=
    one_add_mul_le_pow (by linarith) n
  rw [← sub_eq_add_neg] at hbern
  constructor
  · linarith
  · linarith

/-- The arguments handed to `erfc` by the search are positive and exceed every
bound, when `sigma > 0`. -/
theorem alloc_erfc_arg_unbounded (sigma : ℝ) (hsigma : 0 < sigma) :
    (∀ n : Nat, 0 < (1.001 * 1.01 ^ n - 1) / 1.414 / sigma) ∧
      ∀ T : ℝ, ∃ n : Nat, T ≤ (1.001 * 1.01 ^ n - 1) / 1.414 / sigma := by
  constructor
  · intro n
    have hx : (0 : ℝ) < 1.001 * 1.01 ^ n - 1 := sub_pos.mpr (alloc_factor_gt_one n)
    exact div_pos (div_pos hx (by norm_num)) hsigma
  · intro T
    obtain ⟨n, hn⟩ := pow_unbounded_of_one_lt (T * sigma * 1.414 + 1)
      (show (1 : ℝ) < 1.01 by norm_num)
    refine ⟨n, ?_⟩
    have hpow : (0 : ℝ) < 1.01 ^ n := pow_pos (by norm_num) n
    have h1 : (1.01 : ℝ) ^ n ≤ 1.001 * 1.01 ^ n := by nlinarith
    rw [le_div_iff₀ hsigma, le_div_iff₀ (by norm_num)]
    linarith

/-- Over the reals, with `erfc` inside `(0, 1)` on positive arguments and at
least one rank, the combined probability of every factor of the search is
positive and at most `NTask` times the per-rank probability. -/
theorem alloc_probfail_real_bounds (m : AllocMath ℝ) (sigma : ℝ) (NTask : Int) (n : Nat)
    (hexpm1 : ∀ y, m.expm1 y = Real.exp y - 1)
    (hlog1p : ∀ u, m.log1p u = Real.log (1 + u))
    (herfc : ∀ t, 0 < t → 0 < m.erfc t ∧ m.erfc t < 1)
    (hsigma : 0 < sigma) (hN : 1 ≤ NTask) :
    0 < alloc_probfail m sigma NTask (1.001 * 1.01 ^ n) ∧
      alloc_probfail m sigma NTask (1.001 * 1.01 ^ n) ≤
        (NTask : ℝ) * m.erfc ((1.001 * 1.01 ^ n - 1) / 1.414 / sigma) := by
  obtain ⟨k, rfl⟩ : ∃ k : Nat, NTask = (k : Int) := ⟨NTask.toNat, by omega⟩
  have hk : 1 ≤ k := by omega
  obtain ⟨hp0, hp1⟩ := herfc _ ((alloc_erfc_arg_unbounded sigma hsigma).1 n)
  have hb := combined_probfail_real_bounds m hexpm1 hlog1p _ k hp0 hp1 hk
  have h1 : (1.0 : ℝ) = 1 := by norm_num
  simp only [alloc_probfail, h1, Int.cast_natCast]
  exact hb

/-- C21: over the reals with `expm1(y) = exp(y) - 1`, `log1p(u) = log(1 + u)`,
an `erfc` that lies in `(0, 1)` on positive arguments and tends to 0 at
infinity, `sigma > 0` and `NTask >= 1`: the loop of `estimate_alloc_factor`
terminates (returns for some number of passes) if and only if
`failure_rate > 0`. The combined probability of every factor is positive, so
for `failure_rate <= 0` the test `probfail < failure_rate` never holds, the
loop does not return within any number of passes, and after `n` passes it
stands at the factor `1.001 * 1.01 ^ n`, which exceeds every bound. -/
theorem estimate_alloc_factor_terminates_iff (m : AllocMath ℝ) (Volume : ℝ) (NTask : Int)
    (failure_rate : ℝ)
    (hexpm1 : ∀ y, m.expm1 y = Real.exp y - 1)
    (hlog1p : ∀ u, m.log1p u = Real.log (1 + u))
    (herfc : ∀ t, 0 < t → 0 < m.erfc t ∧ m.erfc t < 1)
    (hlim : ∀ ε, 0 < ε → ∃ T, ∀ t, T ≤ t → m.erfc t < ε)
    (hsigma : 0 < m.sqrt (m.Sigma2 (m.pow (4 * m.M_PI / 3 * Volume) 0.3333)))
    (hN : 1 ≤ NTask) :
    ((∃ fuel r, estimate_alloc_factor m Volume NTask failure_rate fuel = some r) ↔
      0 < failure_rate) ∧
    (∀ n : Nat,
      0 < - m.expm1 (m.log1p (- m.erfc ((1.001 * 1.01 ^ n - 1) / 1.414 /
          m.sqrt (m.Sigma2 (m.pow (4 * m.M_PI / 3 * Volume) 0.3333)))) * (NTask : ℝ))) ∧
    (failure_rate ≤ 0 →
      (∀ n : Nat,
        ¬ (- m.expm1 (m.log1p (- m.erfc ((1.001 * 1.01 ^ n - 1) / 1.414 /
            m.sqrt (m.Sigma2 (m.pow (4 * m.M_PI / 3 * Volume) 0.3333)))) * (NTask : ℝ))
          < failure_rate)) ∧
      (∀ fuel, estimate_alloc_factor m Volume NTask failure_rate fuel = none) ∧
      (∀ n fuel : Nat,
        estimate_alloc_factor m Volume NTask failure_rate (n + fuel) =
          estimate_alloc_factor_loop m (estimate_alloc_sigma m Volume) NTask failure_rate
            fuel (1.001 * 1.01 ^ n)) ∧
      (∀ B : ℝ, ∃ n : Nat, B < 1.001 * 1.01 ^ n)) := by
  have hpos : ∀ n : Nat,
      0 < alloc_probfail m (estimate_alloc_sigma m Volume) NTask (1.001 * 1.01 ^ n) :=
    fun n => (alloc_probfail_real_bounds m _ NTask n hexpm1 hlog1p herfc hsigma hN).1
  have hnever : failure_rate ≤ 0 → ∀ n : Nat,
      ¬ alloc_probfail m (estimate_alloc_sigma m Volume) NTask (1.001 * 1.01 ^ n)
        < failure_rate := by
    intro hle n hlt
    exact absurd (lt_of_lt_of_le hlt hle) (not_lt.mpr (le_of_lt (hpos n)))
  have hnone : failure_rate ≤ 0 →
      ∀ fuel, estimate_alloc_factor m Volume NTask failure_rate fuel = none := by
    intro hle fuel
    cases hres : estimate_alloc_factor m Volume NTask failure_rate fuel with
    | none => rfl
    | some r =>
      obtain ⟨n, -, -, hlt, -⟩ := estimate_alloc_factor_loop_spec m _ NTask failure_rate
        fuel 1.001 r hres
      exact absurd hlt (hnever hle n)
  refine ⟨⟨?_, ?_⟩, ?_, ?_⟩
  · rintro ⟨fuel, r, hres⟩
    by_contra hle
    rw [hnone (not_lt.mp hle) fuel] at hres
    exact absurd hres (by simp)
  · intro hfr
    have hNpos : (0 : ℝ) < (NTask : ℝ) := by
      have : (0 : Int) < NTask := by omega
      exact Int.cast_pos.mpr this
    obtain ⟨T, hT⟩ := hlim (failure_rate / (NTask : ℝ)) (div_pos hfr hNpos)
    obtain ⟨n, hn⟩ := (alloc_erfc_arg_unbounded _ hsigma).2 T
    have hsmall := hT _ hn
    have hle := (alloc_probfail_real_bounds m _ NTask n hexpm1 hlog1p herfc hsigma hN).2
    have hlt : alloc_probfail m (estimate_alloc_sigma m Volume) NTask (1.001 * 1.01 ^ n)
        < failure_rate := by
      have h2 : (NTask : ℝ) * m.erfc ((1.001 * 1.01 ^ n - 1) / 1.414 /
          m.sqrt (m.Sigma2 (m.pow (4 * m.M_PI / 3 * Volume) 0.3333))) < failure_rate := by
        rw [lt_div_iff₀ hNpos] at hsmall
        linarith
      exact lt_of_le_of_lt hle h2
    obtain ⟨r, hr⟩ := estimate_alloc_factor_loop_returns m _ NTask failure_rate n (n + 1)
      1.001 (Nat.lt_succ_self n) hlt
    exact ⟨n + 1, r, hr⟩
  · intro n
    have := hpos n
    simpa only [alloc_probfail_eq, estimate_alloc_sigma] using this
  · intro hle
    refine ⟨?_, hnone hle, ?_, ?_⟩
    · intro n
      have := hnever hle n
      simpa only [alloc_probfail_eq, estimate_alloc_sigma] using this
    · intro n fuel
      exact estimate_alloc_factor_loop_advance m _ NTask failure_rate n fuel 1.001
        (fun k _ => hnever hle k)
    · intro B
      obtain ⟨n, hn⟩ := pow_unbounded_of_one_lt B (show (1 : ℝ) < 1.01 by norm_num)
      refine ⟨n, ?_⟩
      have hpow : (0 : ℝ) < 1.01 ^ n := pow_pos (by norm_num) n
      nlinarith

/-- The stand-in `t ↦ 1 / (1 + t)` lies in `(0, 1)` on positive arguments and
tends to 0 at infinity, like the real `erfc`. -/
theorem erfc_stand_in_props :
    (∀ t : ℝ, 0 < t → 0 < 1 / (1 + t) ∧ 1 / (1 + t) < 1) ∧
      ∀ ε : ℝ, 0 < ε → ∃ T : ℝ, ∀ t, T ≤ t → 1 / (1 + t) < ε := by
  constructor
  · intro t ht
    have h1 : (0 : ℝ) < 1 + t := by linarith
    exact ⟨div_pos one_pos h1, by rw [div_lt_one h1]; linarith⟩
  · intro ε hε
    refine ⟨1 / ε, fun t ht => ?_⟩
    have hT : (0 : ℝ) < 1 / ε := div_pos one_pos hε
    have h1 : (0 : ℝ) < 1 + t := by linarith
    rw [div_lt_iff₀ h1]
    have h2 : 1 / ε * ε = 1 := div_mul_cancel₀ 1 (ne_of_gt hε)
    nlinarith

/-- C21 over the reals with the real `exp`, `log` and `sqrt`, the stand-in
`1 / (1 + t)` for `erfc`, `sigma = 1` and one rank: the search returns for
`failure_rate = 1/2` and never returns for `failure_rate = 0`. -/
theorem estimate_alloc_factor_terminates_iff_witness :
    (∃ fuel r, estimate_alloc_factor
      (⟨fun x _ => x, Real.sqrt, fun t => 1 / (1 + t), fun y => Real.exp y - 1,
        fun u => Real.log (1 + u), Real.pi, fun _ => 1⟩ : AllocMath ℝ) 1 1 (1 / 2) fuel
        = some r) ∧
    (∀ fuel, estimate_alloc_factor
      (⟨fun x _ => x, Real.sqrt, fun t => 1 / (1 + t), fun y => Real.exp y - 1,
        fun u => Real.log (1 + u), Real.pi, fun _ => 1⟩ : AllocMath ℝ) 1 1 0 fuel
        = none) :=
  ⟨(estimate_alloc_factor_terminates_iff
      (⟨fun x _ => x, Real.sqrt, fun t => 1 / (1 + t), fun y => Real.exp y - 1,
        fun u => Real.log (1 + u), Real.pi, fun _ => 1⟩ : AllocMath ℝ) 1 1 (1 / 2)
      (fun _ => rfl) (fun _ => rfl) erfc_stand_in_props.1 erfc_stand_in_props.2
      (by simp) (by decide)).1.mpr (by norm_num),
    ((estimate_alloc_factor_terminates_iff
      (⟨fun x _ => x, Real.sqrt, fun t => 1 / (1 + t), fun y => Real.exp y - 1,
        fun u => Real.log (1 + u), Real.pi, fun _ => 1⟩ : AllocMath ℝ) 1 1 0
      (fun _ => rfl) (fun _ => rfl) erfc_stand_in_props.1 erfc_stand_in_props.2
      (by simp) (by decide)).2.2 (le_refl 0)).2.1⟩

end FastPM
